import Mathlib

/-!
# Robin Hood hash map (`src/hashmap.h`)

A shallow embedding of the class template `HashMap<KeyType, ValueType, Hash>`.

* The backing `std::vector<Node>` is a `List (Node K V)`; a slot index is a `Nat`.
* `size_t` values are natural numbers.  Every counter and index of the class is bounded by
  the capacity, and the capacity never exceeds `778221781`, so no operation of the class can
  wrap around `2 ^ 64` on the states considered here.
* `KeyType::operator==` is decidable equality, `KeyType()` and `ValueType()` are `default`.
* The hasher is a parameter `hasher_ : K → Nat` of the operations that use it.
* A C++ exception, and a step whose behaviour C++ leaves undefined (reading a vector or an
  array outside its bounds, `% 0`, dereferencing `end()`), is an explicit `Fault`.
* The load-factor test `double(capacity_) * 0.9 <= double(size_)` is the integer comparison
  `9 * capacity_ ≤ 10 * size_`.  The two agree whenever `capacity_` is `0` or is not a
  multiple of ten, which covers `0` and every entry of `SIMPLE_CAPACITIES`: there
  `0.9 * capacity_` is at least `0.1` away from every integer, far more than the rounding
  error of one multiplication of numbers below `2 ^ 30`.
* References returned by `insert` and `operator[]` are slot indices into the final table.
-/

namespace RobinHood

/-- The ways an operation can end without a result. -/
inductive Fault where
  /-- `std::out_of_range` thrown by `at`. -/
  | out_of_range_key
  /-- `std::out_of_range` thrown by `get_next_simple`. -/
  | out_of_range_capacity
  /-- `std::logic_error` thrown by `insert`. -/
  | logic_error
  /-- A step with undefined behaviour in C++. -/
  | undefined_behaviour
  /-- The recursion budget of the embedding ran out. -/
  | out_of_fuel
  deriving DecidableEq, Repr

/-- `HashMap::Node`. -/
structure Node (K V : Type) where
  value : K × V
  probe_seq_length : Nat
  empty : Bool
  deriving DecidableEq, Repr

/-- The data members of `HashMap` other than the hasher and the constants. -/
structure HashMap (K V : Type) where
  size_ : Nat
  capacity_ : Nat
  table_ : List (Node K V)
  simple_capacity_id : Nat
  deriving DecidableEq, Repr

/-- `CAPACITIES_SIZE`. -/
def CAPACITIES_SIZE : Nat := 72

/-- `SIMPLE_CAPACITIES`. -/
def SIMPLE_CAPACITIES : List Nat :=
  [2, 3, 5, 7, 11, 17, 23, 31, 41, 59, 79, 103, 137, 179, 233, 307, 401, 523, 683, 907, 1181,
   1543, 2011, 2617, 3407, 4441, 5779, 7517, 9781, 12721, 16547, 21517, 27983, 36383, 47303,
   61507, 79967, 103963, 135173, 175727, 228451, 296987, 386093, 501931, 652541, 848321,
   1102823, 1433681, 1863787, 2422939, 3149821, 4094791, 5323229, 6920201, 8996303, 11695231,
   15203803, 19764947, 25694447, 33402793, 43423631, 56450731, 73385953, 95401759, 124022287,
   161228983, 209597693, 272477017, 354220127, 460486217, 598632137, 778221781]

section Operations

variable {K V : Type} [DecidableEq K] [Inhabited K] [Inhabited V]

/-- `Node{}`: the default member initialisers. -/
def Node.fresh : Node K V := ⟨(default, default), 0, true⟩

/-- `explicit HashMap(const Hash& hasher)`. -/
def HashMap.init : HashMap K V := ⟨0, 0, [], 0⟩

/-- `empty()`. -/
def HashMap.is_empty (m : HashMap K V) : Bool := m.size_ == 0

/-- `size()`. -/
def HashMap.size (m : HashMap K V) : Nat := m.size_

/-- The statements `++pos; if (pos == capacity_) pos = 0;` of the two probe loops. -/
def next_pos (cap pos : Nat) : Nat := if pos + 1 = cap then 0 else pos + 1

/-- The loop of `get_next_simple`: `n` bounds the iterations still to run. -/
def advance_cursor (min_capacity_ : Nat) : Nat → Nat → Nat
  | 0, id => id
  | n + 1, id =>
    if id < CAPACITIES_SIZE then
      match SIMPLE_CAPACITIES[id]? with
      | some c => if c < min_capacity_ then advance_cursor min_capacity_ n (id + 1) else id
      | none => id
    else id

/-- `get_next_simple`: returns the map with the advanced cursor and the capacity read.
The cursor only moves forward and stops at `CAPACITIES_SIZE`, so `CAPACITIES_SIZE`
iterations always suffice. -/
def get_next_simple (m : HashMap K V) (min_capacity_ : Nat) :
    Except Fault (HashMap K V × Nat) :=
  let id := advance_cursor min_capacity_ CAPACITIES_SIZE m.simple_capacity_id
  match SIMPLE_CAPACITIES[id]? with
  | none => .error .undefined_behaviour
  | some c =>
    if c < min_capacity_ then .error .out_of_range_capacity
    else .ok ({ m with simple_capacity_id := id }, c)

/-- `resize`. -/
def resize (m : HashMap K V) : Except Fault (HashMap K V) :=
  match get_next_simple m ((m.capacity_ + 1) * 2) with
  | .error e => .error e
  | .ok (m1, c) => .ok { m1 with capacity_ := c, table_ := List.replicate c Node.fresh }

/-- The `for` loop of `insert`; the first argument counts the iterations still to run. -/
def insert_loop (cap : Nat) :
    Nat → List (Node K V) → Nat → K × V → Nat → Nat → Option Nat →
    Except Fault (List (Node K V) × Nat × Nat)
  | 0, _, _, _, _, _, _ => .error .logic_error
  | n + 1, table, size, el, pos, probe_length, insert_index =>
    match table[pos]? with
    | none => .error .undefined_behaviour
    | some nd =>
      if nd.empty then
        .ok (table.set pos ⟨el, probe_length, false⟩, size + 1, insert_index.getD pos)
      else if nd.probe_seq_length < probe_length then
        insert_loop cap n (table.set pos { nd with value := el, probe_seq_length := probe_length })
          size nd.value (next_pos cap pos) (nd.probe_seq_length + 1)
          (some (insert_index.getD pos))
      else if nd.value.1 = el.1 then
        .ok (table, size, insert_index.getD pos)
      else
        insert_loop cap n table size el (next_pos cap pos) (probe_length + 1) insert_index

/-- The loop of `rehash` over `prev_table`, with the `insert` it calls as a parameter. -/
def reinsert (ins : HashMap K V → K × V → Except Fault (HashMap K V × Nat)) :
    List (Node K V) → HashMap K V → Except Fault (HashMap K V)
  | [], m => .ok m
  | node :: rest, m =>
    if node.empty then reinsert ins rest m
    else
      match ins m node.value with
      | .error e => .error e
      | .ok (m1, _) => reinsert ins rest m1

/-- `rehash`, with the `insert` it calls as a parameter. -/
def rehash_with (ins : HashMap K V → K × V → Except Fault (HashMap K V × Nat))
    (m : HashMap K V) : Except Fault (HashMap K V) :=
  let prev_table := m.table_
  match resize m with
  | .error e => .error e
  | .ok m1 => reinsert ins prev_table { m1 with size_ := 0 }

/-- `insert` with a bound on the depth of the recursion `insert → rehash → insert`. -/
def insert_core (hasher_ : K → Nat) :
    Nat → HashMap K V → K × V → Except Fault (HashMap K V × Nat)
  | 0, _, _ => .error .out_of_fuel
  | fuel + 1, m, el =>
    match (if 9 * m.capacity_ ≤ 10 * m.size_ then rehash_with (insert_core hasher_ fuel) m
           else .ok m) with
    | .error e => .error e
    | .ok m1 =>
      if m1.capacity_ = 0 then .error .undefined_behaviour
      else
        match insert_loop m1.capacity_ m1.capacity_ m1.table_ m1.size_ el
                (hasher_ el.1 % m1.capacity_) 0 none with
        | .error e => .error e
        | .ok (t, s, idx) => .ok ({ m1 with table_ := t, size_ := s }, idx)

/-- `insert`.  Every nested `rehash` takes a strictly larger entry of the 72-entry capacity
sequence, so the recursion is never deeper than `CAPACITIES_SIZE + 2`. -/
def insert (hasher_ : K → Nat) (m : HashMap K V) (el : K × V) :
    Except Fault (HashMap K V × Nat) :=
  insert_core hasher_ (CAPACITIES_SIZE + 2) m el

/-- `rehash`. -/
def rehash (hasher_ : K → Nat) (m : HashMap K V) : Except Fault (HashMap K V) :=
  rehash_with (insert_core hasher_ (CAPACITIES_SIZE + 1)) m

/-- The `for` loop of `find_element_index`. -/
def find_loop (cap : Nat) (key : K) (table : List (Node K V)) :
    Nat → Nat → Nat → Except Fault (Option Nat)
  | 0, _, _ => .ok none
  | n + 1, pos, probe_length =>
    match table[pos]? with
    | none => .error .undefined_behaviour
    | some nd =>
      if nd.empty || decide (nd.probe_seq_length < probe_length) then .ok none
      else if nd.value.1 = key then .ok (some pos)
      else find_loop cap key table n (next_pos cap pos) (probe_length + 1)

/-- `find_element_index`. -/
def find_element_index (hasher_ : K → Nat) (m : HashMap K V) (key : K) :
    Except Fault (Option Nat) :=
  if m.size_ = 0 then .ok none
  else if m.capacity_ = 0 then .error .undefined_behaviour
  else find_loop m.capacity_ key m.table_ m.capacity_ (hasher_ key % m.capacity_) 0

/-- `get_next`. -/
def get_next (cap index : Nat) : Except Fault Nat :=
  if cap = 0 then .error .undefined_behaviour else .ok ((index + 1) % cap)

/-- The sum of the stored probe distances: every iteration of the loop of `erase` lowers it
by one. -/
def psl_sum (table : List (Node K V)) : Nat := (table.map Node.probe_seq_length).sum

/-- The `while` loop of `erase`; the first argument bounds the iterations. -/
def erase_loop (cap : Nat) : Nat → List (Node K V) → Nat → Except Fault (List (Node K V))
  | 0, _, _ => .error .out_of_fuel
  | n + 1, table, pos =>
    match get_next cap pos with
    | .error e => .error e
    | .ok nx =>
      match table[nx]? with
      | none => .error .undefined_behaviour
      | some nn =>
        if !nn.empty && decide (nn.probe_seq_length ≠ 0) then
          let t1 := table.set nx { nn with probe_seq_length := nn.probe_seq_length - 1 }
          match t1[pos]?, t1[nx]? with
          | some a, some b => erase_loop cap n ((t1.set pos b).set nx a) nx
          | _, _ => .error .undefined_behaviour
        else .ok table

/-- `erase`.  The loop runs at most `psl_sum` times. -/
def erase (hasher_ : K → Nat) (m : HashMap K V) (key : K) : Except Fault (HashMap K V) :=
  match find_element_index hasher_ m key with
  | .error e => .error e
  | .ok none => .ok m
  | .ok (some pos) =>
    match m.table_[pos]? with
    | none => .error .undefined_behaviour
    | some nd =>
      let t1 := m.table_.set pos { nd with empty := true }
      match erase_loop m.capacity_ (psl_sum t1 + 1) t1 pos with
      | .error e => .error e
      | .ok t2 => .ok { m with table_ := t2, size_ := m.size_ - 1 }

/-- `find`: the iterator is the pair of `table_iter_` and `table_end_`, both as indices. -/
def find (hasher_ : K → Nat) (m : HashMap K V) (key : K) : Except Fault (Nat × Nat) :=
  match find_element_index hasher_ m key with
  | .error e => .error e
  | .ok (some index) => .ok (index, m.table_.length)
  | .ok none => .ok (m.table_.length, m.table_.length)

/-- `end()`. -/
def HashMap.end_ (m : HashMap K V) : Nat × Nat := (m.table_.length, m.table_.length)

/-- `operator[]`. -/
def operator_index (hasher_ : K → Nat) (m : HashMap K V) (key : K) :
    Except Fault (HashMap K V × Nat) :=
  match (if m.size_ = 0 then .ok none else find_element_index hasher_ m key) with
  | .error e => .error e
  | .ok (some index) => .ok (m, index)
  | .ok none => insert hasher_ m (key, default)

/-- `at`. -/
def at_ (hasher_ : K → Nat) (m : HashMap K V) (key : K) : Except Fault V :=
  match (if m.size_ = 0 then .ok none else find_element_index hasher_ m key) with
  | .error e => .error e
  | .ok (some index) =>
    match m.table_[index]? with
    | some nd => .ok nd.value.2
    | none => .error .undefined_behaviour
  | .ok none => .error .out_of_range_key

/-- `clear`. -/
def clear (m : HashMap K V) : HashMap K V :=
  { m with size_ := 0, capacity_ := 0, table_ := [] }

/-- The value a reference returned by `insert` or `operator[]` designates. -/
def deref (m : HashMap K V) (index : Nat) : Option V :=
  match m.table_[index]? with
  | some nd => some nd.value.2
  | none => none

/-- A write `ref = v` through a reference to the value of slot `index`, as `insert`,
`operator[]` and a dereferenced iterator return them.  A reference that designates no slot
of the current array is dangling. -/
def assign (m : HashMap K V) (index : Nat) (v : V) : Except Fault (HashMap K V) :=
  match m.table_[index]? with
  | none => .error .undefined_behaviour
  | some nd => .ok { m with table_ := m.table_.set index { nd with value := (nd.value.1, v) } }

/-- The range and `initializer_list` constructors: `insert` of each pair, left to right. -/
def construct (hasher_ : K → Nat) : List (K × V) → HashMap K V → Except Fault (HashMap K V)
  | [], m => .ok m
  | el :: rest, m =>
    match insert hasher_ m el with
    | .error e => .error e
    | .ok (m1, _) => construct hasher_ rest m1

/-- The `while` loop of `iterator::find_next_element`. -/
def skip_empty (table : List (Node K V)) : Nat → Nat → Nat
  | 0, it => it
  | n + 1, it =>
    match table[it]? with
    | none => it
    | some nd => if nd.empty then skip_empty table n (it + 1) else it

/-- `iterator::find_next_element` on the position `it` of an iterator over `table`.
Incrementing `end()` is undefined. -/
def find_next_element (table : List (Node K V)) (it : Nat) : Except Fault Nat :=
  if it < table.length then .ok (skip_empty table table.length (it + 1))
  else .error .undefined_behaviour

/-- `begin()` (the non-const overload). -/
def HashMap.begin_ (m : HashMap K V) : Except Fault (Nat × Nat) :=
  if m.size_ = 0 then .ok m.end_
  else
    match m.table_[0]? with
    | none => .error .undefined_behaviour
    | some nd =>
      if nd.empty then
        match find_next_element m.table_ 0 with
        | .error e => .error e
        | .ok it => .ok (it, m.table_.length)
      else .ok (0, m.table_.length)

/-- `begin() const`: the read-only overload reads the first slot without a test of `size_`.
`const_iterator::find_next_element` is the same code as `iterator::find_next_element`. -/
def HashMap.begin_const (m : HashMap K V) : Except Fault (Nat × Nat) :=
  match m.table_[0]? with
  | none => .error .undefined_behaviour
  | some nd =>
    if nd.empty then
      match find_next_element m.table_ 0 with
      | .error e => .error e
      | .ok it => .ok (it, m.table_.length)
    else .ok (0, m.table_.length)

/-- The positions visited by `for (it = start; it != end(); ++it)`. -/
def traverse_from (table : List (Node K V)) : Nat → Nat → Except Fault (List Nat)
  | 0, _ => .error .out_of_fuel
  | n + 1, it =>
    if it = table.length then .ok []
    else
      match find_next_element table it with
      | .error e => .error e
      | .ok it1 =>
        match traverse_from table n it1 with
        | .error e => .error e
        | .ok rest => .ok (it :: rest)

/-- The positions visited by `for (it = begin(); it != end(); ++it)`.  Every `++` moves the
position forward, so `table_.size() + 1` rounds suffice. -/
def traverse (m : HashMap K V) : Except Fault (List Nat) :=
  match m.begin_ with
  | .error e => .error e
  | .ok (it, _) => traverse_from m.table_ (m.table_.length + 1) it

end Operations

/-! ## Predicates of the verification -/

section Predicates

variable {K V : Type} [DecidableEq K] [Inhabited K] [Inhabited V]

/-- The number of occupied slots. -/
def occupied (t : List (Node K V)) : Nat := t.countP (fun nd => !nd.empty)

/-- Some occupied slot of `t` stores the pair `(k, v)`. -/
def Holds (t : List (Node K V)) (k : K) (v : V) : Prop :=
  ∃ (i : Nat) (nd : Node K V), t[i]? = some nd ∧ nd.empty = false ∧ nd.value = (k, v)

/-- Some occupied slot of `t` stores the key `k`. -/
def HasKey (t : List (Node K V)) (k : K) : Prop :=
  ∃ (i : Nat) (nd : Node K V), t[i]? = some nd ∧ nd.empty = false ∧ nd.value.1 = k

/-- The invariants of the backing array of capacity `cap` under the hasher `hasher_`. -/
structure TableInv (hasher_ : K → Nat) (cap : Nat) (t : List (Node K V)) : Prop where
  /-- The array has `cap` slots. -/
  len : t.length = cap
  /-- An occupied slot lies `probe_seq_length` steps after the home slot of its key. -/
  home : ∀ (i : Nat) (nd : Node K V), t[i]? = some nd → nd.empty = false →
    nd.probe_seq_length < cap ∧ i = (hasher_ nd.value.1 % cap + nd.probe_seq_length) % cap
  /-- The slot before an occupied slot of distance `d > 0` is occupied with distance
  at least `d - 1`. -/
  ord : ∀ (i : Nat) (nd : Node K V), i < cap → t[(i + 1) % cap]? = some nd → nd.empty = false →
    0 < nd.probe_seq_length →
    ∃ pd, t[i]? = some pd ∧ pd.empty = false ∧ nd.probe_seq_length ≤ pd.probe_seq_length + 1
  /-- No key is stored in two occupied slots. -/
  uniq : ∀ (i j : Nat) (ni nj : Node K V), t[i]? = some ni → t[j]? = some nj → ni.empty = false →
    nj.empty = false → ni.value.1 = nj.value.1 → i = j

/-- The invariants of a map under the hasher `hasher_`. -/
structure Inv (hasher_ : K → Nat) (m : HashMap K V) : Prop where
  /-- The backing array satisfies the Robin Hood invariants. -/
  tbl : TableInv hasher_ m.capacity_ m.table_
  /-- The field `size_` counts the occupied slots. -/
  size_eq : m.size_ = occupied m.table_
  /-- The cursor stays inside the capacity sequence. -/
  cursor : m.simple_capacity_id < CAPACITIES_SIZE
  /-- A capacity other than `0` is the entry under the cursor. -/
  cap_ok : m.capacity_ = 0 ∨ SIMPLE_CAPACITIES[m.simple_capacity_id]? = some m.capacity_

/-- What the loop of `insert` knows about the element it carries: `el` has reached `pos`
after `pl` steps from its home slot, the slot before `pos` is occupied with distance at
least `pl - 1`, and no slot holds the key of `el`. -/
structure Carry (hasher_ : K → Nat) (cap : Nat) (t : List (Node K V)) (el : K × V)
    (pos pl : Nat) : Prop where
  pos_lt : pos < cap
  home : pos = (hasher_ el.1 % cap + pl) % cap
  back : 0 < pl → ∃ (q : Nat) (pd : Node K V), q < cap ∧ (q + 1) % cap = pos ∧
    t[q]? = some pd ∧ pd.empty = false ∧ pl ≤ pd.probe_seq_length + 1
  fresh : ¬ HasKey t el.1

/-- What the loop of `erase` knows: slot `pos` is the freed slot, every pair of neighbouring
slots other than `(pos, pos + 1)` is ordered, and `g` is the distance of the element that
left slot `pos`. -/
structure Hole (hasher_ : K → Nat) (cap : Nat) (t : List (Node K V)) (pos g : Nat) :
    Prop where
  len : t.length = cap
  cap2 : 2 ≤ cap
  pos_lt : pos < cap
  hole : ∃ np : Node K V, t[pos]? = some np ∧ np.empty = true
  home : ∀ (i : Nat) (nd : Node K V), t[i]? = some nd → nd.empty = false →
    nd.probe_seq_length < cap ∧ i = (hasher_ nd.value.1 % cap + nd.probe_seq_length) % cap
  ord : ∀ (i : Nat) (nd : Node K V), i < cap → i ≠ pos → t[(i + 1) % cap]? = some nd →
    nd.empty = false → 0 < nd.probe_seq_length →
    ∃ pd, t[i]? = some pd ∧ pd.empty = false ∧ nd.probe_seq_length ≤ pd.probe_seq_length + 1
  ahead : ∀ nd : Node K V, t[(pos + 1) % cap]? = some nd → nd.empty = false →
    nd.probe_seq_length ≤ g + 1
  behind : 0 < g → ∀ q, q < cap → (q + 1) % cap = pos →
    ∃ pd : Node K V, t[q]? = some pd ∧ pd.empty = false ∧ g ≤ pd.probe_seq_length + 1
  uniq : ∀ (i j : Nat) (ni nj : Node K V), t[i]? = some ni → t[j]? = some nj →
    ni.empty = false → nj.empty = false → ni.value.1 = nj.value.1 → i = j

/-- What `insert` of `el` guarantees about the map `m1` and the slot index `idx` it
returns, in terms of the map `m` before the call. -/
structure InsertPost (hasher_ : K → Nat) (m : HashMap K V) (el : K × V) (m1 : HashMap K V)
    (idx : Nat) : Prop where
  /-- The invariants hold again. -/
  inv : Inv hasher_ m1
  /-- The returned reference designates an occupied slot with the key of `el`. -/
  slot : ∃ nd : Node K V, m1.table_[idx]? = some nd ∧ nd.empty = false ∧ nd.value.1 = el.1
  /-- A key that was present: same size, same pairs, and the load bound holds strictly. -/
  old : HasKey m.table_ el.1 → m1.size_ = m.size_ ∧
    (∀ k v, Holds m1.table_ k v ↔ Holds m.table_ k v) ∧ 10 * m1.size_ < 9 * m1.capacity_
  /-- A key that was absent: one more element, the old pairs and the new one, and the load
  bound held before the element was added. -/
  new : ¬ HasKey m.table_ el.1 → m1.size_ = m.size_ + 1 ∧
    (∀ k v, Holds m1.table_ k v ↔ (Holds m.table_ k v ∨ (k, v) = el)) ∧
    10 * m.size_ < 9 * m1.capacity_
  /-- Without growth the capacity and the cursor are unchanged. -/
  stay : 10 * m.size_ < 9 * m.capacity_ →
    m1.capacity_ = m.capacity_ ∧ m1.simple_capacity_id = m.simple_capacity_id
  /-- With growth the cursor is the one `get_next_simple` stops at and the capacity is the
  entry under it. -/
  grow : 9 * m.capacity_ ≤ 10 * m.size_ →
    m1.simple_capacity_id
      = advance_cursor ((m.capacity_ + 1) * 2) CAPACITIES_SIZE m.simple_capacity_id ∧
    SIMPLE_CAPACITIES[m1.simple_capacity_id]? = some m1.capacity_ ∧
    (m.capacity_ + 1) * 2 ≤ m1.capacity_

/-- The keys of the occupied nodes of a list are pairwise distinct. -/
def DistinctKeys (l : List (Node K V)) : Prop :=
  l.Pairwise (fun a b => a.empty = false → b.empty = false → a.value.1 ≠ b.value.1)

/-- The condition under which `insert` has room: the map is below the load bound, or the
capacity can be doubled inside the sequence. -/
def HasRoom (m : HashMap K V) : Prop :=
  10 * m.size_ < 9 * m.capacity_ ∨ (m.capacity_ + 1) * 2 ≤ 778221781

/-- The maps reachable from a freshly constructed map by calls of `insert`, `erase`,
`operator[]` and `clear` that return, and by writes to the value of an occupied slot through
a reference. -/
inductive Reachable (hasher_ : K → Nat) : HashMap K V → Prop where
  | init : Reachable hasher_ HashMap.init
  | insert {m m1 : HashMap K V} {el : K × V} {idx : Nat} :
      Reachable hasher_ m → insert hasher_ m el = .ok (m1, idx) → Reachable hasher_ m1
  | erase {m m1 : HashMap K V} {key : K} :
      Reachable hasher_ m → erase hasher_ m key = .ok m1 → Reachable hasher_ m1
  | index {m m1 : HashMap K V} {key : K} {idx : Nat} :
      Reachable hasher_ m → operator_index hasher_ m key = .ok (m1, idx) →
      Reachable hasher_ m1
  | clear {m : HashMap K V} : Reachable hasher_ m → Reachable hasher_ (clear m)
  | assign {m m1 : HashMap K V} {index : Nat} {nd : Node K V} {v : V} :
      Reachable hasher_ m → m.table_[index]? = some nd → nd.empty = false →
      assign m index v = .ok m1 → Reachable hasher_ m1

/-- The identity hasher `Hash(k) = k` on natural-number keys. -/
def identity_hasher (k : Nat) : Nat := k

/-- The map after `insert({5, 50})` on a fresh map under the identity hasher. -/
def map_one : HashMap Nat Nat :=
  ⟨1, 2, [⟨(0, 0), 0, true⟩, ⟨(5, 50), 0, false⟩], 0⟩

/-- The map after `insert({1, 10})` and `insert({2, 20})` on a fresh map under the identity
hasher: both slots of the capacity-2 array are occupied. -/
def map_full : HashMap Nat Nat :=
  ⟨2, 2, [⟨(2, 20), 0, false⟩, ⟨(1, 10), 0, false⟩], 0⟩

/-- The map after `insert({2, 20})` on `map_one`: both slots of the capacity-2 array are
occupied. -/
def map_two : HashMap Nat Nat :=
  ⟨2, 2, [⟨(2, 20), 0, false⟩, ⟨(5, 50), 0, false⟩], 0⟩

/-- The effect of `insert` of a new key on the triple `(size_, capacity_,
simple_capacity_id)`. -/
def shape_step (s : Nat × Nat × Nat) : Nat × Nat × Nat :=
  if 9 * s.2.1 ≤ 10 * s.1 then
    (s.1 + 1,
     SIMPLE_CAPACITIES[advance_cursor ((s.2.1 + 1) * 2) CAPACITIES_SIZE s.2.2]?.getD 0,
     advance_cursor ((s.2.1 + 1) * 2) CAPACITIES_SIZE s.2.2)
  else (s.1 + 1, s.2.1, s.2.2)

/-- The keys of the occupied slots, in array order. -/
def keys_of {K V : Type} (t : List (Node K V)) : List K :=
  (t.filter (fun nd => !nd.empty)).map (fun nd => nd.value.1)

/-- The triple `(size_, capacity_, simple_capacity_id)` of a map. -/
def HashMap.shape {K V : Type} (m : HashMap K V) : Nat × Nat × Nat :=
  (m.size_, m.capacity_, m.simple_capacity_id)

/-- The pairs inserted one by one, left to right: the words of the specification for the
range and list constructors. -/
def insert_one_by_one {K V : Type} [DecidableEq K] [Inhabited K] [Inhabited V]
    (hasher_ : K → Nat) (l : List (K × V)) (m : HashMap K V) : Except Fault (HashMap K V) :=
  l.foldlM (fun acc el => (insert hasher_ acc el).map Prod.fst) m

/-- The indices of the occupied nodes of `t`, in order, when the first node of `t` has
index `i`. -/
def occ_idx {K V : Type} : List (Node K V) → Nat → List Nat
  | [], _ => []
  | nd :: t, i => if nd.empty then occ_idx t (i + 1) else i :: occ_idx t (i + 1)

/-- The exhaustive scan of the specification: the index of the first occupied slot that
holds `key`, when the first node of the list has index `i`. -/
def exhaustive_scan {K V : Type} [DecidableEq K] (key : K) : List (Node K V) → Nat → Option Nat
  | [], _ => none
  | nd :: rest, i =>
    if !nd.empty && decide (nd.value.1 = key) then some i
    else exhaustive_scan key rest (i + 1)

/-- The map after `insert({3, 30})` on `map_full`: the call starts with a `rehash` into
capacity 7 and leaves the cursor on the entry `7`. -/
def map_three : HashMap Nat Nat :=
  ⟨3, 7, [⟨(0, 0), 0, true⟩, ⟨(1, 10), 0, false⟩, ⟨(2, 20), 0, false⟩, ⟨(3, 30), 0, false⟩,
    ⟨(0, 0), 0, true⟩, ⟨(0, 0), 0, true⟩, ⟨(0, 0), 0, true⟩], 3⟩

/-- The map after `clear()` on `map_three`: capacity 0, cursor still on the entry `7`. -/
def map_cleared : HashMap Nat Nat := ⟨0, 0, [], 3⟩

/-- The map after `insert({1, 10})` on `map_cleared`. -/
def map_regrown : HashMap Nat Nat :=
  ⟨1, 7, [⟨(0, 0), 0, true⟩, ⟨(1, 10), 0, false⟩, ⟨(0, 0), 0, true⟩, ⟨(0, 0), 0, true⟩,
    ⟨(0, 0), 0, true⟩, ⟨(0, 0), 0, true⟩, ⟨(0, 0), 0, true⟩], 3⟩

/-- The map after `insert({1, 99})` on `map_full`: the pairs of `map_full` in an array of
capacity 7. -/
def map_rehashed : HashMap Nat Nat :=
  ⟨2, 7, [⟨(0, 0), 0, true⟩, ⟨(1, 10), 0, false⟩, ⟨(2, 20), 0, false⟩, ⟨(0, 0), 0, true⟩,
    ⟨(0, 0), 0, true⟩, ⟨(0, 0), 0, true⟩, ⟨(0, 0), 0, true⟩], 3⟩

/-- The map after `insert({7, 70})` and `insert({21, 210})` on a fresh map under the
identity hasher: both keys have the home slot 1 of the capacity-2 array, so the key `21`
is stored in slot 0 with probe distance 1. -/
def map_collide : HashMap Nat Nat :=
  ⟨2, 2, [⟨(21, 210), 1, false⟩, ⟨(7, 70), 0, false⟩], 0⟩

/-- The map `rehash` returns on `map_collide`: both keys have the home slot 0 of the
capacity-7 array, so the key `7` is stored in slot 1 with probe distance 1. -/
def map_collide_rehashed : HashMap Nat Nat :=
  ⟨2, 7, [⟨(21, 210), 0, false⟩, ⟨(7, 70), 1, false⟩, ⟨(0, 0), 0, true⟩, ⟨(0, 0), 0, true⟩,
    ⟨(0, 0), 0, true⟩, ⟨(0, 0), 0, true⟩, ⟨(0, 0), 0, true⟩], 3⟩

end Predicates

/-! ## Slot positions and views of the array -/

section

variable {K V : Type}

theorem mod_small {a c : Nat} (h : a < c) : a % c = a := Nat.mod_eq_of_lt h

theorem mod_wrap {a c : Nat} (h1 : c ≤ a) (h2 : a < 2 * c) : a % c = a - c := by
  rw [Nat.mod_eq_sub_mod h1]
  exact Nat.mod_eq_of_lt (by omega)

theorem next_pos_eq {cap pos : Nat} (h : pos < cap) : next_pos cap pos = (pos + 1) % cap := by
  unfold next_pos
  by_cases h1 : pos + 1 = cap
  · rw [if_pos h1, h1, Nat.mod_self]
  · rw [if_neg h1, mod_small (by omega)]

theorem next_pos_lt {cap pos : Nat} (h : pos < cap) : next_pos cap pos < cap := by
  unfold next_pos
  by_cases h1 : pos + 1 = cap
  · rw [if_pos h1]; omega
  · rw [if_neg h1]; omega

theorem succ_mod_inj {cap i j : Nat} (hi : i < cap) (hj : j < cap)
    (h : (i + 1) % cap = (j + 1) % cap) : i = j := by
  by_cases h1 : i + 1 = cap <;> by_cases h2 : j + 1 = cap
  · omega
  · rw [h1, Nat.mod_self, mod_small (by omega)] at h; omega
  · rw [h2, Nat.mod_self, mod_small (by omega)] at h; omega
  · rw [mod_small (by omega), mod_small (by omega)] at h; omega

theorem succ_mod_ne {cap i : Nat} (hc : 2 ≤ cap) (hi : i < cap) : (i + 1) % cap ≠ i := by
  by_cases h1 : i + 1 = cap
  · rw [h1, Nat.mod_self]; omega
  · rw [mod_small (by omega)]; omega

theorem add_mod_ne {cap pos l : Nat} (hp : pos < cap) (h0 : 0 < l) (hl : l < cap) :
    (pos + l) % cap ≠ pos := by
  by_cases h1 : pos + l < cap
  · rw [mod_small h1]; omega
  · rw [mod_wrap (by omega) (by omega)]; omega

theorem exists_offset {cap pos e : Nat} (hp : pos < cap) (he : e < cap) :
    ∃ l, l < cap ∧ (pos + l) % cap = e := by
  by_cases h : pos ≤ e
  · exact ⟨e - pos, by omega, by rw [show pos + (e - pos) = e by omega, mod_small he]⟩
  · refine ⟨e + cap - pos, by omega, ?_⟩
    rw [show pos + (e + cap - pos) = e + cap by omega, Nat.add_mod_right, mod_small he]

theorem succ_mod_add {cap : Nat} (pos l : Nat) :
    ((pos + 1) % cap + l) % cap = (pos + (l + 1)) % cap := by
  rw [Nat.mod_add_mod]; congr 1; omega

theorem holds_hasKey {t : List (Node K V)} {k : K} {v : V} (h : Holds t k v) : HasKey t k := by
  obtain ⟨i, nd, h1, h2, h3⟩ := h
  exact ⟨i, nd, h1, h2, by rw [h3]⟩

theorem hasKey_holds {t : List (Node K V)} {k : K} (h : HasKey t k) : ∃ v, Holds t k v := by
  obtain ⟨i, nd, h1, h2, h3⟩ := h
  exact ⟨nd.value.2, i, nd, h1, h2, by rw [← h3]⟩

theorem TableInv.holds_unique {hasher_ : K → Nat} {cap : Nat} {t : List (Node K V)}
    (T : TableInv hasher_ cap t) {k : K} {v w : V} (h1 : Holds t k v) (h2 : Holds t k w) :
    v = w := by
  obtain ⟨i, ni, a1, a2, a3⟩ := h1
  obtain ⟨j, nj, b1, b2, b3⟩ := h2
  have hij : i = j := T.uniq i j ni nj a1 b1 a2 b2 (by rw [a3, b3])
  subst hij
  rw [a1] at b1
  cases b1
  rw [a3] at b3
  exact (Prod.mk.inj b3).2

theorem getElem?_lt {α : Type} {l : List α} {i : Nat} {a : α} (h : l[i]? = some a) :
    i < l.length := by
  obtain ⟨h1, _⟩ := List.getElem?_eq_some.mp h
  exact h1

theorem getElem?_some_of_lt {α : Type} {l : List α} {i : Nat} (h : i < l.length) :
    ∃ a, l[i]? = some a := ⟨l[i], List.getElem?_eq_getElem h⟩

/-- The chain of occupied slots behind an occupied slot: if the slot `d` steps after `base`
has distance at least `e ≥ d`, then the slot `j ≤ d` steps after `base` is occupied with
distance at least `e - (d - j)`. -/
theorem TableInv.chain {hasher_ : K → Nat} {cap : Nat} {t : List (Node K V)}
    (T : TableInv hasher_ cap t) (hc : 0 < cap) (base : Nat) :
    ∀ (r d e : Nat) (nd : Node K V), t[(base + d) % cap]? = some nd → nd.empty = false →
      e ≤ nd.probe_seq_length → d ≤ e → r ≤ d →
      ∃ pd, t[(base + (d - r)) % cap]? = some pd ∧ pd.empty = false ∧
        e - r ≤ pd.probe_seq_length := by
  intro r
  induction r with
  | zero =>
    intro d e nd h1 h2 h3 _ _
    exact ⟨nd, by simpa using h1, h2, by simpa using h3⟩
  | succ r ih =>
    intro d e nd h1 h2 h3 h4 h5
    obtain ⟨pd, p1, p2, p3⟩ := ih d e nd h1 h2 h3 h4 (by omega)
    have hlt : (base + (d - (r + 1))) % cap < cap := Nat.mod_lt _ hc
    have heq : ((base + (d - (r + 1))) % cap + 1) % cap = (base + (d - r)) % cap := by
      rw [Nat.mod_add_mod]; congr 1; omega
    obtain ⟨qd, q1, q2, q3⟩ := T.ord _ pd hlt (by rw [heq]; exact p1) p2 (by omega)
    exact ⟨qd, q1, q2, by omega⟩

end

/-! ## Lookup: `find_element_index` -/

section

variable {K V : Type}

theorem occupied_pos_of_slot {t : List (Node K V)} {i : Nat} {nd : Node K V}
    (h : t[i]? = some nd) (he : nd.empty = false) : 0 < occupied t := by
  unfold occupied
  rw [List.countP_pos_iff]
  obtain ⟨hi, hx⟩ := List.getElem?_eq_some.mp h
  exact ⟨nd, by rw [← hx]; exact List.getElem_mem hi, by simp [he]⟩

theorem exists_empty_of_occupied_lt {t : List (Node K V)} (h : occupied t < t.length) :
    ∃ (e : Nat) (nd : Node K V), t[e]? = some nd ∧ nd.empty = true := by
  induction t with
  | nil => simp at h
  | cons a t ih =>
    by_cases ha : a.empty = true
    · exact ⟨0, a, by simp, ha⟩
    · have h2 : occupied t < t.length := by
        unfold occupied at h ⊢
        rw [List.countP_cons_of_pos] at h
        · simpa using h
        · simpa using ha
      obtain ⟨e, nd, h3, h4⟩ := ih h2
      exact ⟨e + 1, nd, by simpa using h3, h4⟩

end

section

variable {K V : Type} [DecidableEq K]

/-- The loop of `find_element_index` reports not-found for a key that no occupied slot
holds. -/
theorem find_loop_absent {cap : Nat} {t : List (Node K V)} (key : K) (hlen : t.length = cap)
    (habs : ¬ HasKey t key) :
    ∀ n pos pl, pos < cap → find_loop cap key t n pos pl = .ok none := by
  intro n
  induction n with
  | zero => intro pos pl _; rfl
  | succ n ih =>
    intro pos pl hp
    obtain ⟨nd, hnd⟩ := getElem?_some_of_lt (l := t) (i := pos) (by omega)
    unfold find_loop
    rw [hnd]
    by_cases h1 : (nd.empty || decide (nd.probe_seq_length < pl)) = true
    · simp only [h1, if_true]
    · simp only [h1]
      have he : nd.empty = false := by
        cases hb : nd.empty
        · rfl
        · simp [hb] at h1
      by_cases h2 : nd.value.1 = key
      · exact absurd ⟨pos, nd, hnd, he, h2⟩ habs
      · simp only [h2, if_false]
        exact ih _ _ (next_pos_lt hp)

/-- The loop of `find_element_index` reaches the slot of a key that is present: the early
exits are never taken on the way. -/
theorem find_loop_present {hasher_ : K → Nat} {cap : Nat} {t : List (Node K V)}
    (T : TableInv hasher_ cap t) {s : Nat} {nd : Node K V} (hs : t[s]? = some nd)
    (he : nd.empty = false) :
    ∀ n j, j + n = cap → j ≤ nd.probe_seq_length →
      find_loop cap nd.value.1 t n ((hasher_ nd.value.1 % cap + j) % cap) j = .ok (some s) := by
  have hh := T.home s nd hs he
  have hc : 0 < cap := by omega
  intro n
  induction n with
  | zero => intro j h1 h2; omega
  | succ n ih =>
    intro j h1 h2
    have hs2 : t[(hasher_ nd.value.1 % cap + nd.probe_seq_length) % cap]? = some nd := by
      rw [← hh.2]; exact hs
    obtain ⟨pd, p1, p2, p3⟩ := T.chain hc (hasher_ nd.value.1 % cap) (nd.probe_seq_length - j)
      nd.probe_seq_length nd.probe_seq_length nd hs2 he (le_refl _) (le_refl _) (by omega)
    rw [show nd.probe_seq_length - (nd.probe_seq_length - j) = j by omega] at p1 p3
    unfold find_loop
    rw [p1]
    have hcond : (pd.empty || decide (pd.probe_seq_length < j)) = false := by
      simp [p2]; omega
    simp only [hcond]
    by_cases h3 : pd.value.1 = nd.value.1
    · simp only [h3, if_true]
      have := T.uniq _ _ pd nd p1 hs p2 he h3
      rw [this]
      simp
    · simp only [h3, if_false]
      have hj : j ≠ nd.probe_seq_length := by
        intro hj
        rw [hj, hs2] at p1
        cases p1
        exact h3 rfl
      rw [next_pos_eq (Nat.mod_lt _ hc), Nat.mod_add_mod, Nat.add_assoc]
      simpa using ih (j + 1) (by omega) (by omega)

theorem find_element_index_absent {hasher_ : K → Nat} {m : HashMap K V} (I : Inv hasher_ m)
    {key : K} (habs : ¬ HasKey m.table_ key) :
    find_element_index hasher_ m key = .ok none := by
  unfold find_element_index
  by_cases h0 : m.size_ = 0
  · simp [h0]
  · have hc : m.capacity_ ≠ 0 := by
      intro hc
      have h1 := I.tbl.len
      have h2 := I.size_eq
      rw [hc] at h1
      rw [List.length_eq_zero.mp h1] at h2
      exact h0 (by simpa [occupied] using h2)
    simp only [h0, hc, if_false]
    exact find_loop_absent key I.tbl.len habs _ _ _ (Nat.mod_lt _ (by omega))

theorem find_element_index_present {hasher_ : K → Nat} {m : HashMap K V} (I : Inv hasher_ m)
    {s : Nat} {nd : Node K V} (hs : m.table_[s]? = some nd) (he : nd.empty = false) :
    find_element_index hasher_ m nd.value.1 = .ok (some s) := by
  unfold find_element_index
  have h0 : m.size_ ≠ 0 := by
    have := occupied_pos_of_slot hs he
    rw [I.size_eq]; omega
  have hc : m.capacity_ ≠ 0 := by
    have := getElem?_lt hs
    have := I.tbl.len
    omega
  simp only [h0, hc, if_false]
  simpa using find_loop_present I.tbl hs he m.capacity_ 0 (by omega) (by omega)

/-- The result of `find_element_index` on a map satisfying the invariants, in both
directions. -/
theorem find_element_index_spec {hasher_ : K → Nat} {m : HashMap K V} (I : Inv hasher_ m)
    (key : K) :
    (∃ s nd, find_element_index hasher_ m key = .ok (some s) ∧ m.table_[s]? = some nd ∧
        nd.empty = false ∧ nd.value.1 = key) ∨
    (find_element_index hasher_ m key = .ok none ∧ ¬ HasKey m.table_ key) := by
  by_cases h : HasKey m.table_ key
  · obtain ⟨s, nd, h1, h2, h3⟩ := h
    left
    refine ⟨s, nd, ?_, h1, h2, h3⟩
    rw [← h3]
    exact find_element_index_present I h1 h2
  · right
    exact ⟨find_element_index_absent I h, h⟩

end

/-! ## The loop of `insert` -/

section

variable {K V : Type}

theorem occupied_set_empty {t : List (Node K V)} {pos : Nat} {nd x : Node K V}
    (h : t[pos]? = some nd) (he : nd.empty = true) (hx : x.empty = false) :
    occupied (t.set pos x) = occupied t + 1 := by
  obtain ⟨hp, hnd⟩ := List.getElem?_eq_some.mp h
  unfold occupied
  rw [List.countP_set _ _ _ _ hp, hnd]
  simp [he, hx]

theorem occupied_set_same {t : List (Node K V)} {pos : Nat} {nd x : Node K V}
    (h : t[pos]? = some nd) (he : x.empty = nd.empty) :
    occupied (t.set pos x) = occupied t := by
  obtain ⟨hp, hnd⟩ := List.getElem?_eq_some.mp h
  have hpos : nd.empty = false → 0 < occupied t := fun h2 => occupied_pos_of_slot h h2
  unfold occupied at hpos ⊢
  rw [List.countP_set _ _ _ _ hp, hnd, he]
  cases hb : nd.empty
  · have := hpos hb
    simp
    omega
  · simp

theorem set_get_self {α : Type} {l : List α} {i : Nat} {a b : α} (h : l[i]? = some a) :
    (l.set i b)[i]? = some b := by
  rw [List.getElem?_set]
  simp [getElem?_lt h]

theorem set_get_ne {α : Type} {l : List α} {i j : Nat} {b : α} (h : i ≠ j) :
    (l.set i b)[j]? = l[j]? := by
  rw [List.getElem?_set]
  simp [h]

/-- Writing the carried element into an empty slot, or over a slot of smaller distance,
keeps the invariants of the array. -/
theorem TableInv.place {hasher_ : K → Nat} {cap : Nat} {t : List (Node K V)}
    (T : TableInv hasher_ cap t) {el : K × V} {pos pl : Nat}
    (C : Carry hasher_ cap t el pos pl) (hpl : pl < cap) {nd : Node K V}
    (hnd : t[pos]? = some nd) (hcase : nd.empty = true ∨ nd.probe_seq_length < pl) :
    TableInv hasher_ cap (t.set pos ⟨el, pl, false⟩) := by
  have hself := set_get_self (b := (⟨el, pl, false⟩ : Node K V)) hnd
  refine ⟨by rw [List.length_set]; exact T.len, ?_, ?_, ?_⟩
  · intro i x hx hxe
    by_cases hi : pos = i
    · subst hi
      rw [hself] at hx
      cases hx
      exact ⟨hpl, C.home⟩
    · rw [set_get_ne hi] at hx
      exact T.home i x hx hxe
  · intro i x hi hx hxe hxp
    by_cases hp : pos = (i + 1) % cap
    · rw [← hp, hself] at hx
      cases hx
      obtain ⟨q, pd, q1, q2, q3, q4, q5⟩ := C.back hxp
      have hqi : q = i := succ_mod_inj q1 hi (by rw [q2, hp])
      subst hqi
      by_cases hpq : pos = q
      · subst hpq
        exact ⟨_, hself, rfl, by simp⟩
      · exact ⟨pd, by rw [set_get_ne hpq]; exact q3, q4, q5⟩
    · rw [set_get_ne hp] at hx
      obtain ⟨pd, p1, p2, p3⟩ := T.ord i x hi hx hxe hxp
      by_cases hpi : pos = i
      · subst hpi
        rw [hnd] at p1
        cases p1
        rcases hcase with h1 | h1
        · rw [h1] at p2; cases p2
        · exact ⟨_, hself, rfl, by simp; omega⟩
      · exact ⟨pd, by rw [set_get_ne hpi]; exact p1, p2, p3⟩
  · intro i j ni nj h1 h2 h3 h4 h5
    by_cases hi : pos = i <;> by_cases hj : pos = j
    · omega
    · subst hi
      rw [hself] at h1
      cases h1
      rw [set_get_ne hj] at h2
      exact absurd ⟨j, nj, h2, h4, h5.symm⟩ C.fresh
    · subst hj
      rw [hself] at h2
      cases h2
      rw [set_get_ne hi] at h1
      exact absurd ⟨i, ni, h1, h3, h5⟩ C.fresh
    · rw [set_get_ne hi] at h1
      rw [set_get_ne hj] at h2
      exact T.uniq i j ni nj h1 h2 h3 h4 h5

end

section

variable {K V : Type} [DecidableEq K]

/-- The loop of `insert` on a key that is present stops at the slot of the key and changes
nothing. -/
theorem insert_loop_dup {hasher_ : K → Nat} {cap : Nat} {t : List (Node K V)}
    (T : TableInv hasher_ cap t) {s : Nat} {nd : Node K V} (hs : t[s]? = some nd)
    (he : nd.empty = false) (el : K × V) (hk : el.1 = nd.value.1) (size : Nat)
    (ii : Option Nat) :
    ∀ n j, j + n = cap → j ≤ nd.probe_seq_length →
      insert_loop cap n t size el ((hasher_ nd.value.1 % cap + j) % cap) j ii
        = .ok (t, size, ii.getD s) := by
  have hh := T.home s nd hs he
  have hc : 0 < cap := by omega
  intro n
  induction n with
  | zero => intro j h1 h2; omega
  | succ n ih =>
    intro j h1 h2
    have hs2 : t[(hasher_ nd.value.1 % cap + nd.probe_seq_length) % cap]? = some nd := by
      rw [← hh.2]; exact hs
    obtain ⟨pd, p1, p2, p3⟩ := T.chain hc (hasher_ nd.value.1 % cap) (nd.probe_seq_length - j)
      nd.probe_seq_length nd.probe_seq_length nd hs2 he (le_refl _) (le_refl _) (by omega)
    rw [show nd.probe_seq_length - (nd.probe_seq_length - j) = j by omega] at p1 p3
    unfold insert_loop
    rw [p1]
    have hlt : ¬ pd.probe_seq_length < j := by omega
    simp only [p2, hlt, if_false, Bool.false_eq_true]
    by_cases h3 : pd.value.1 = el.1
    · simp only [h3, if_true]
      have := T.uniq _ _ pd nd p1 hs p2 he (by rw [h3, hk])
      rw [this]
    · simp only [h3, if_false]
      have hj : j ≠ nd.probe_seq_length := by
        intro hj
        rw [hj, hs2] at p1
        cases p1
        exact h3 hk.symm
      rw [next_pos_eq (Nat.mod_lt _ hc), Nat.mod_add_mod, Nat.add_assoc]
      exact ih (j + 1) (by omega) (by omega)

end

section

variable {K V : Type}

theorem holds_set_iff {t : List (Node K V)} {pos : Nat} {nd x : Node K V}
    (hnd : t[pos]? = some nd) (hx : x.empty = false) (k : K) (v : V) :
    Holds (t.set pos x) k v ↔
      (∃ (i : Nat) (y : Node K V), i ≠ pos ∧ t[i]? = some y ∧ y.empty = false ∧
        y.value = (k, v)) ∨ x.value = (k, v) := by
  have hself := set_get_self (b := x) hnd
  constructor
  · rintro ⟨i, y, h1, h2, h3⟩
    by_cases hi : pos = i
    · subst hi
      rw [hself] at h1
      cases h1
      exact Or.inr h3
    · rw [set_get_ne hi] at h1
      exact Or.inl ⟨i, y, Ne.symm hi, h1, h2, h3⟩
  · rintro (⟨i, y, h0, h1, h2, h3⟩ | h)
    · exact ⟨i, y, by rw [set_get_ne (Ne.symm h0)]; exact h1, h2, h3⟩
    · exact ⟨pos, x, hself, hx, h⟩

end

section

variable {K V : Type} [DecidableEq K]

/-- The loop of `insert` on a key that no slot holds: it ends in an empty slot, the array
keeps its invariants and gains exactly the new pair, and the slot first written still holds
that pair at the end. -/
theorem insert_loop_new {hasher_ : K → Nat} {cap : Nat} :
    ∀ (n : Nat) (t : List (Node K V)) (size : Nat) (el : K × V) (pos pl : Nat)
      (ii : Option Nat),
      TableInv hasher_ cap t → Carry hasher_ cap t el pos pl → pl + n ≤ cap →
      (∃ (l : Nat) (ne : Node K V), l < n ∧ t[(pos + l) % cap]? = some ne ∧ ne.empty = true) →
      ∃ (t' : List (Node K V)) (idx : Nat),
        insert_loop cap n t size el pos pl ii = .ok (t', size + 1, idx) ∧
        TableInv hasher_ cap t' ∧ occupied t' = occupied t + 1 ∧
        (∀ k v, Holds t' k v ↔ Holds t k v ∨ (k, v) = el) ∧
        (∀ q, ii = some q → idx = q) ∧
        (ii = none → ∃ nd : Node K V, t'[idx]? = some nd ∧ nd.empty = false ∧ nd.value = el) ∧
        (∀ q, (∀ l, l < n → q ≠ (pos + l) % cap) → t'[q]? = t[q]?) := by
  intro n
  induction n with
  | zero =>
    intro t size el pos pl ii _ _ _ hemp
    obtain ⟨l, ne, hl, _⟩ := hemp
    omega
  | succ n ih =>
    intro t size el pos pl ii T C hpl hemp
    have hp := C.pos_lt
    obtain ⟨nd, hnd⟩ := getElem?_some_of_lt (l := t) (i := pos) (by rw [T.len]; exact hp)
    have hself := set_get_self (b := (⟨el, pl, false⟩ : Node K V)) hnd
    have hpos0 : (pos + 0) % cap = pos := by rw [Nat.add_zero, mod_small hp]
    unfold insert_loop
    rw [hnd]
    by_cases he : nd.empty = true
    · simp only [he, if_true]
      refine ⟨_, _, rfl, T.place C (by omega) hnd (Or.inl he), occupied_set_empty hnd he rfl,
        ?_, ?_, ?_, ?_⟩
      · intro k v
        rw [holds_set_iff hnd rfl]
        constructor
        · rintro (⟨i, y, _, h1, h2, h3⟩ | h)
          · exact Or.inl ⟨i, y, h1, h2, h3⟩
          · exact Or.inr h.symm
        · rintro (⟨i, y, h1, h2, h3⟩ | h)
          · refine Or.inl ⟨i, y, ?_, h1, h2, h3⟩
            intro hi
            subst hi
            rw [hnd] at h1
            cases h1
            rw [he] at h2
            cases h2
          · exact Or.inr h.symm
      · intro q hq
        subst hq
        rfl
      · intro hii
        subst hii
        exact ⟨_, hself, rfl, rfl⟩
      · intro q hq
        have := hq 0 (by omega)
        rw [hpos0] at this
        exact set_get_ne (Ne.symm this)
    · have he' : nd.empty = false := by simpa using he
      have hnext : ∀ (t2 : List (Node K V)), (∀ j, j ≠ pos → t2[j]? = t[j]?) →
          ∃ (l : Nat) (ne : Node K V), l < n ∧ t2[(next_pos cap pos + l) % cap]? = some ne ∧
            ne.empty = true := by
        intro t2 ht2
        obtain ⟨l, ne, h1, h2, h3⟩ := hemp
        have hl0 : l ≠ 0 := by
          intro h0
          subst h0
          rw [hpos0, hnd] at h2
          cases h2
          rw [he'] at h3
          cases h3
        refine ⟨l - 1, ne, by omega, ?_, h3⟩
        rw [next_pos_eq hp, succ_mod_add, show l - 1 + 1 = l by omega]
        rw [ht2 _ (add_mod_ne hp (by omega) (by omega))]
        exact h2
      by_cases hlt : nd.probe_seq_length < pl
      · simp only [he', hlt, if_true, if_false, Bool.false_eq_true]
        have T2 : TableInv hasher_ cap (t.set pos ⟨el, pl, false⟩) :=
          T.place C (by omega) hnd (Or.inr hlt)
        have C2 : Carry hasher_ cap (t.set pos ⟨el, pl, false⟩) nd.value (next_pos cap pos)
            (nd.probe_seq_length + 1) := by
          refine ⟨next_pos_lt hp, ?_, ?_, ?_⟩
          · have h1 := (T.home pos nd hnd he').2
            rw [next_pos_eq hp]
            conv_lhs => rw [h1]
            rw [Nat.mod_add_mod, Nat.add_assoc]
          · intro _
            exact ⟨pos, _, hp, (next_pos_eq hp).symm, hself, rfl, by simp; omega⟩
          · rintro ⟨i, y, h1, h2, h3⟩
            by_cases hi : pos = i
            · subst hi
              rw [hself] at h1
              cases h1
              exact C.fresh ⟨pos, nd, hnd, he', h3.symm⟩
            · rw [set_get_ne hi] at h1
              exact hi (T.uniq pos i nd y hnd h1 he' h2 h3.symm)
        obtain ⟨t', idx, r1, r2, r3, r4, r5, _, r7⟩ :=
          ih (t.set pos ⟨el, pl, false⟩) size nd.value (next_pos cap pos)
            (nd.probe_seq_length + 1) (some (ii.getD pos)) T2 C2 (by omega)
            (hnext _ (fun j hj => set_get_ne (Ne.symm hj)))
        have hidx : idx = ii.getD pos := r5 _ rfl
        have hfar : ∀ l, l < n → pos ≠ (next_pos cap pos + l) % cap := by
          intro l hl
          rw [next_pos_eq hp, succ_mod_add]
          exact Ne.symm (add_mod_ne hp (by omega) (by omega))
        refine ⟨t', idx, r1, r2, ?_, ?_, ?_, ?_, ?_⟩
        · rw [r3, occupied_set_same hnd (by rw [he'])]
        · intro k v
          rw [r4, holds_set_iff hnd rfl]
          constructor
          · rintro ((⟨i, y, _, h1, h2, h3⟩ | h) | h)
            · exact Or.inl ⟨i, y, h1, h2, h3⟩
            · exact Or.inr h.symm
            · exact Or.inl ⟨pos, nd, hnd, he', h.symm⟩
          · rintro (⟨i, y, h1, h2, h3⟩ | h)
            · by_cases hi : i = pos
              · subst hi
                rw [hnd] at h1
                cases h1
                exact Or.inr h3.symm
              · exact Or.inl (Or.inl ⟨i, y, hi, h1, h2, h3⟩)
            · exact Or.inl (Or.inr h.symm)
        · intro q hq
          subst hq
          exact hidx
        · intro hii
          subst hii
          refine ⟨⟨el, pl, false⟩, ?_, rfl, rfl⟩
          rw [hidx]
          show t'[pos]? = _
          rw [r7 pos hfar]
          exact hself
        · intro q hq
          have h0 := hq 0 (by omega)
          rw [hpos0] at h0
          rw [r7 q]
          · exact set_get_ne (Ne.symm h0)
          · intro l hl
            rw [next_pos_eq hp, succ_mod_add]
            exact hq (l + 1) (by omega)
      · by_cases hk : nd.value.1 = el.1
        · exact absurd ⟨pos, nd, hnd, he', hk⟩ C.fresh
        · simp only [he', hlt, hk, if_false, Bool.false_eq_true]
          have C2 : Carry hasher_ cap t el (next_pos cap pos) (pl + 1) := by
            refine ⟨next_pos_lt hp, ?_, ?_, C.fresh⟩
            · have h1 := C.home
              rw [next_pos_eq hp]
              conv_lhs => rw [h1]
              rw [Nat.mod_add_mod, Nat.add_assoc]
            · intro _
              exact ⟨pos, nd, hp, (next_pos_eq hp).symm, hnd, he', by omega⟩
          obtain ⟨t', idx, r1, r2, r3, r4, r5, r6, r7⟩ :=
            ih t size el (next_pos cap pos) (pl + 1) ii T C2 (by omega)
              (hnext _ (fun j _ => rfl))
          refine ⟨t', idx, r1, r2, r3, r4, r5, r6, ?_⟩
          intro q hq
          apply r7 q
          intro l hl
          rw [next_pos_eq hp, succ_mod_add]
          exact hq (l + 1) (by omega)

end

/-! ## The loop of `erase` -/

section

variable {K V : Type}

theorem occupied_set_clear {t : List (Node K V)} {pos : Nat} {nd x : Node K V}
    (h : t[pos]? = some nd) (he : nd.empty = false) (hx : x.empty = true) :
    occupied (t.set pos x) + 1 = occupied t := by
  obtain ⟨hp, hnd⟩ := List.getElem?_eq_some.mp h
  have hpos : 0 < occupied t := occupied_pos_of_slot h he
  unfold occupied at hpos ⊢
  rw [List.countP_set _ _ _ _ hp, hnd]
  simp [he, hx]
  omega

theorem psl_sum_set {t : List (Node K V)} {x : Node K V} :
    ∀ {pos : Nat} {nd : Node K V}, t[pos]? = some nd →
      psl_sum (t.set pos x) + nd.probe_seq_length = psl_sum t + x.probe_seq_length := by
  induction t with
  | nil => intro pos nd h; simp at h
  | cons a t ih =>
    intro pos nd h
    cases pos with
    | zero =>
      simp at h
      subst h
      simp [psl_sum]
      omega
    | succ p =>
      have h2 : t[p]? = some nd := by simpa using h
      have := ih h2
      simp [psl_sum] at this ⊢
      omega

/-- The loop of `erase` ends with an array that satisfies the invariants and holds the same
pairs. -/
theorem erase_loop_spec {hasher_ : K → Nat} {cap : Nat} :
    ∀ (n : Nat) (t : List (Node K V)) (pos g : Nat), Hole hasher_ cap t pos g →
      psl_sum t < n →
      ∃ t' : List (Node K V), erase_loop cap n t pos = .ok t' ∧ TableInv hasher_ cap t' ∧
        occupied t' = occupied t ∧ (∀ k v, Holds t' k v ↔ Holds t k v) := by
  intro n
  induction n with
  | zero => intro t pos g _ h; omega
  | succ n ih =>
    intro t pos g H hn
    have hc : 0 < cap := by have := H.cap2; omega
    have hcap0 : cap ≠ 0 := by omega
    have hp := H.pos_lt
    obtain ⟨np, hnp, hnpe⟩ := H.hole
    have hnxlt : (pos + 1) % cap < cap := Nat.mod_lt _ hc
    have hne : (pos + 1) % cap ≠ pos := succ_mod_ne H.cap2 hp
    obtain ⟨nn, hnn⟩ := getElem?_some_of_lt (l := t) (i := (pos + 1) % cap)
      (by rw [H.len]; exact hnxlt)
    unfold erase_loop
    simp only [get_next, hcap0, if_false]
    rw [hnn]
    by_cases hcond : (!nn.empty && decide (nn.probe_seq_length ≠ 0)) = true
    · simp only [hcond, if_true]
      have hnne : nn.empty = false := by
        cases hb : nn.empty
        · rfl
        · simp [hb] at hcond
      have hnnp : 0 < nn.probe_seq_length := by
        have : nn.probe_seq_length ≠ 0 := by
          intro h0
          simp [h0] at hcond
        omega
      have e1 : (t.set ((pos + 1) % cap)
          { nn with probe_seq_length := nn.probe_seq_length - 1 })[pos]? = some np := by
        rw [set_get_ne hne]; exact hnp
      have e2 : (t.set ((pos + 1) % cap)
          { nn with probe_seq_length := nn.probe_seq_length - 1 })[(pos + 1) % cap]?
            = some { nn with probe_seq_length := nn.probe_seq_length - 1 } :=
        set_get_self hnn
      rw [e1, e2]
      simp only []
      have e3 : ((t.set ((pos + 1) % cap)
          { nn with probe_seq_length := nn.probe_seq_length - 1 }).set pos
          { nn with probe_seq_length := nn.probe_seq_length - 1 })[(pos + 1) % cap]?
            = some { nn with probe_seq_length := nn.probe_seq_length - 1 } := by
        rw [set_get_ne (Ne.symm hne)]; exact e2
      generalize ht2 : ((t.set ((pos + 1) % cap)
          { nn with probe_seq_length := nn.probe_seq_length - 1 }).set pos
          { nn with probe_seq_length := nn.probe_seq_length - 1 }).set ((pos + 1) % cap) np
          = t2
      have g_nx : t2[(pos + 1) % cap]? = some np := by
        rw [← ht2]; exact set_get_self e3
      have g_pos : t2[pos]? = some { nn with probe_seq_length := nn.probe_seq_length - 1 } := by
        rw [← ht2, set_get_ne hne]; exact set_get_self e1
      have g_else : ∀ i, i ≠ (pos + 1) % cap → i ≠ pos → t2[i]? = t[i]? := by
        intro i h1 h2
        rw [← ht2, set_get_ne (Ne.symm h1), set_get_ne (Ne.symm h2), set_get_ne (Ne.symm h1)]
      have hsum : psl_sum t2 + 1 = psl_sum t := by
        have s1 := psl_sum_set (x := { nn with probe_seq_length := nn.probe_seq_length - 1 }) hnn
        have s2 := psl_sum_set (x := { nn with probe_seq_length := nn.probe_seq_length - 1 }) e1
        have s3 := psl_sum_set (x := np) e3
        rw [ht2] at s3
        simp only [] at s1 s2 s3
        omega
      have hocc : occupied t2 = occupied t := by
        have o1 := occupied_set_same
          (x := { nn with probe_seq_length := nn.probe_seq_length - 1 }) hnn rfl
        have o2 := occupied_set_empty
          (x := { nn with probe_seq_length := nn.probe_seq_length - 1 }) e1 hnpe hnne
        have o3 := occupied_set_clear (x := np) e3 hnne hnpe
        rw [ht2] at o3
        omega
      have src : ∀ (i : Nat) (x : Node K V), t2[i]? = some x → x.empty = false →
          ∃ (i' : Nat) (y : Node K V), t[i']? = some y ∧ y.empty = false ∧ y.value = x.value ∧
            ((i = pos ∧ i' = (pos + 1) % cap) ∨ (i ≠ pos ∧ i ≠ (pos + 1) % cap ∧ i' = i)) := by
        intro i x hx hxe
        by_cases h1 : i = (pos + 1) % cap
        · subst h1
          rw [g_nx] at hx
          cases hx
          rw [hnpe] at hxe
          cases hxe
        · by_cases h2 : i = pos
          · subst h2
            rw [g_pos] at hx
            cases hx
            exact ⟨_, nn, hnn, hnne, rfl, Or.inl ⟨rfl, rfl⟩⟩
          · rw [g_else i h1 h2] at hx
            exact ⟨i, x, hx, hxe, rfl, Or.inr ⟨h2, h1, rfl⟩⟩
      have H2 : Hole hasher_ cap t2 ((pos + 1) % cap) nn.probe_seq_length := by
        refine ⟨?_, H.cap2, hnxlt, ⟨np, g_nx, hnpe⟩, ?_, ?_, ?_, ?_, ?_⟩
        · rw [← ht2]; simp only [List.length_set]; exact H.len
        · intro i x hx hxe
          by_cases h1 : i = (pos + 1) % cap
          · subst h1
            rw [g_nx] at hx
            cases hx
            rw [hnpe] at hxe
            cases hxe
          · by_cases h2 : i = pos
            · subst h2
              rw [g_pos] at hx
              cases hx
              have hh := H.home _ nn hnn hnne
              refine ⟨by simp only []; omega, ?_⟩
              apply succ_mod_inj hp (Nat.mod_lt _ hc)
              rw [Nat.mod_add_mod]
              simp only []
              rw [show hasher_ nn.value.1 % cap + (nn.probe_seq_length - 1) + 1
                = hasher_ nn.value.1 % cap + nn.probe_seq_length by omega]
              exact hh.2
            · rw [g_else i h1 h2] at hx
              exact H.home i x hx hxe
        · intro i x hi hine hx hxe hxp
          by_cases h1 : (i + 1) % cap = (pos + 1) % cap
          · rw [h1, g_nx] at hx
            cases hx
            rw [hnpe] at hxe
            cases hxe
          · have hipos : i ≠ pos := fun h => h1 (by rw [h])
            by_cases h2 : (i + 1) % cap = pos
            · rw [h2, g_pos] at hx
              cases hx
              simp only [] at hxp ⊢
              have hg := H.ahead nn hnn hnne
              obtain ⟨pd, p1, p2, p3⟩ := H.behind (by omega) i hi h2
              exact ⟨pd, by rw [g_else i hine hipos]; exact p1, p2, by omega⟩
            · rw [g_else _ h1 h2] at hx
              obtain ⟨pd, p1, p2, p3⟩ := H.ord i x hi hipos hx hxe hxp
              exact ⟨pd, by rw [g_else i hine hipos]; exact p1, p2, p3⟩
        · intro x hx hxe
          have hj : ((pos + 1) % cap + 1) % cap ≠ (pos + 1) % cap := succ_mod_ne H.cap2 hnxlt
          by_cases h2 : ((pos + 1) % cap + 1) % cap = pos
          · rw [h2, g_pos] at hx
            cases hx
            simp only []
            omega
          · rw [g_else _ hj h2] at hx
            by_cases h0 : x.probe_seq_length = 0
            · omega
            · obtain ⟨pd, p1, _, p3⟩ := H.ord _ x hnxlt hne hx hxe (by omega)
              rw [hnn] at p1
              cases p1
              exact p3
        · intro _ q hq hq2
          have : q = pos := succ_mod_inj hq hp hq2
          subst this
          exact ⟨_, g_pos, hnne, by simp only []; omega⟩
        · intro i j ni nj h1 h2 h3 h4 h5
          obtain ⟨i', y, a1, a2, a3, a4⟩ := src i ni h1 h3
          obtain ⟨j', z, b1, b2, b3, b4⟩ := src j nj h2 h4
          have := H.uniq i' j' y z a1 b1 a2 b2 (by rw [a3, b3]; exact h5)
          rcases a4 with ⟨c1, c2⟩ | ⟨c1, c2, c3⟩ <;> rcases b4 with ⟨d1, d2⟩ | ⟨d1, d2, d3⟩ <;>
            omega
      obtain ⟨t', r1, r2, r3, r4⟩ := ih t2 _ _ H2 (by omega)
      refine ⟨t', r1, r2, by rw [r3, hocc], ?_⟩
      intro k v
      rw [r4]
      constructor
      · rintro ⟨i, x, h1, h2, h3⟩
        obtain ⟨i', y, a1, a2, a3, _⟩ := src i x h1 h2
        exact ⟨i', y, a1, a2, by rw [a3, h3]⟩
      · rintro ⟨i, x, h1, h2, h3⟩
        by_cases hi1 : i = (pos + 1) % cap
        · subst hi1
          rw [hnn] at h1
          cases h1
          exact ⟨pos, _, g_pos, h2, h3⟩
        · have hi2 : i ≠ pos := by
            intro h
            subst h
            rw [hnp] at h1
            cases h1
            rw [hnpe] at h2
            cases h2
          exact ⟨i, x, by rw [g_else i hi1 hi2]; exact h1, h2, h3⟩
    · simp only [hcond, if_false, Bool.false_eq_true]
      refine ⟨t, rfl, ⟨H.len, H.home, ?_, H.uniq⟩, rfl, fun _ _ => Iff.rfl⟩
      intro i x hi hx hxe hxp
      by_cases hip : i = pos
      · subst hip
        rw [hnn] at hx
        cases hx
        exfalso
        apply hcond
        simp [hxe]
        omega
      · exact H.ord i x hi hip hx hxe hxp

end

/-! ## The capacity sequence -/

section

variable {K V : Type}

theorem capacities_length : SIMPLE_CAPACITIES.length = CAPACITIES_SIZE := by decide

theorem capacities_bounds : ∀ c ∈ SIMPLE_CAPACITIES, 2 ≤ c ∧ c ≤ 778221781 := by decide

theorem capacities_get_bounds {i c : Nat} (h : SIMPLE_CAPACITIES[i]? = some c) :
    2 ≤ c ∧ c ≤ 778221781 := by
  obtain ⟨hi, hx⟩ := List.getElem?_eq_some.mp h
  exact capacities_bounds c (by rw [← hx]; exact List.getElem_mem hi)

theorem capacities_last : SIMPLE_CAPACITIES[71]? = some 778221781 := by decide

/-- The loop of `get_next_simple` stops inside the sequence, on an entry that is large
enough, when the last entry is large enough. -/
theorem advance_cursor_ok (min_capacity_ : Nat) (hmin : min_capacity_ ≤ 778221781) :
    ∀ n id, CAPACITIES_SIZE ≤ id + n → id < CAPACITIES_SIZE →
      ∃ c, advance_cursor min_capacity_ n id < CAPACITIES_SIZE ∧
        SIMPLE_CAPACITIES[advance_cursor min_capacity_ n id]? = some c ∧ min_capacity_ ≤ c ∧
        id ≤ advance_cursor min_capacity_ n id := by
  intro n
  induction n with
  | zero => intro id h1 h2; omega
  | succ n ih =>
    intro id h1 h2
    obtain ⟨c, hc⟩ := getElem?_some_of_lt (l := SIMPLE_CAPACITIES) (i := id)
      (by rw [capacities_length]; exact h2)
    unfold advance_cursor
    rw [if_pos h2, hc]
    by_cases hlt : c < min_capacity_
    · simp only [hlt, if_true]
      have hid : id ≠ 71 := by
        intro h
        subst h
        rw [capacities_last] at hc
        cases hc
        omega
      have h3 : id + 1 < CAPACITIES_SIZE := by unfold CAPACITIES_SIZE at h2 ⊢; omega
      obtain ⟨c2, r1, r2, r3, r4⟩ := ih (id + 1) (by omega) h3
      exact ⟨c2, r1, r2, r3, by omega⟩
    · simp only [hlt, if_false]
      exact ⟨c, h2, hc, by omega, le_refl _⟩

/-- The loop of `get_next_simple` runs to the end of the sequence when no entry is large
enough. -/
theorem advance_cursor_exhausted (min_capacity_ : Nat) (hmin : 778221781 < min_capacity_) :
    ∀ n id, CAPACITIES_SIZE ≤ id + n →
      CAPACITIES_SIZE ≤ advance_cursor min_capacity_ n id := by
  intro n
  induction n with
  | zero => intro id h1; simpa [advance_cursor] using h1
  | succ n ih =>
    intro id h1
    unfold advance_cursor
    by_cases h2 : id < CAPACITIES_SIZE
    · obtain ⟨c, hc⟩ := getElem?_some_of_lt (l := SIMPLE_CAPACITIES) (i := id)
        (by rw [capacities_length]; exact h2)
      have hb := (capacities_get_bounds hc).2
      rw [if_pos h2, hc]
      have hlt : c < min_capacity_ := by omega
      simp only [hlt, if_true]
      exact ih (id + 1) (by omega)
    · rw [if_neg h2]
      omega

theorem get_next_simple_ok (m : HashMap K V) (min_capacity_ : Nat)
    (hmin : min_capacity_ ≤ 778221781) (hid : m.simple_capacity_id < CAPACITIES_SIZE) :
    ∃ id c, get_next_simple m min_capacity_ = .ok ({ m with simple_capacity_id := id }, c) ∧
      id < CAPACITIES_SIZE ∧ SIMPLE_CAPACITIES[id]? = some c ∧ min_capacity_ ≤ c ∧
      m.simple_capacity_id ≤ id ∧
      id = advance_cursor min_capacity_ CAPACITIES_SIZE m.simple_capacity_id := by
  obtain ⟨c, r1, r2, r3, r4⟩ := advance_cursor_ok min_capacity_ hmin CAPACITIES_SIZE
    m.simple_capacity_id (by omega) hid
  refine ⟨_, c, ?_, r1, r2, r3, r4, rfl⟩
  unfold get_next_simple
  simp only [r2]
  rw [if_neg (by omega)]

theorem get_next_simple_exhausted (m : HashMap K V) (min_capacity_ : Nat)
    (hmin : 778221781 < min_capacity_) :
    get_next_simple m min_capacity_ = .error .undefined_behaviour := by
  have h := advance_cursor_exhausted min_capacity_ hmin CAPACITIES_SIZE m.simple_capacity_id
    (by omega)
  unfold get_next_simple
  have hnone : SIMPLE_CAPACITIES[advance_cursor min_capacity_ CAPACITIES_SIZE
      m.simple_capacity_id]? = none :=
    List.getElem?_eq_none (by rw [capacities_length]; exact h)
  simp only [hnone]

theorem tableInv_replicate (hasher_ : K → Nat) (c : Nat) (x : Node K V) (hx : x.empty = true) :
    TableInv hasher_ c (List.replicate c x) := by
  have key : ∀ (i : Nat) (nd : Node K V), (List.replicate c x)[i]? = some nd →
      nd.empty = false → False := by
    intro i nd h he
    rw [List.getElem?_replicate] at h
    split at h
    · cases h
      rw [hx] at he
      cases he
    · cases h
  refine ⟨List.length_replicate _ _, ?_, ?_, ?_⟩
  · intro i nd h he
    exact (key i nd h he).elim
  · intro i nd _ h he _
    exact (key _ nd h he).elim
  · intro i j ni nj h _ he _ _
    exact (key i ni h he).elim

theorem occupied_replicate (c : Nat) (x : Node K V) (hx : x.empty = true) :
    occupied (List.replicate c x) = 0 := by
  unfold occupied
  rw [List.countP_eq_zero]
  intro a ha
  rw [List.eq_of_mem_replicate ha]
  simp [hx]

theorem not_holds_replicate (c : Nat) (x : Node K V) (hx : x.empty = true) (k : K) (v : V) :
    ¬ Holds (List.replicate c x) k v := by
  rintro ⟨i, nd, h, he, _⟩
  rw [List.getElem?_replicate] at h
  split at h
  · cases h
    rw [hx] at he
    cases he
  · cases h

end

section

variable {K V : Type} [Inhabited K] [Inhabited V]

theorem resize_ok (m : HashMap K V) (hcap : (m.capacity_ + 1) * 2 ≤ 778221781)
    (hid : m.simple_capacity_id < CAPACITIES_SIZE) :
    ∃ id c, resize m = .ok ⟨m.size_, c, List.replicate c Node.fresh, id⟩ ∧
      id < CAPACITIES_SIZE ∧ SIMPLE_CAPACITIES[id]? = some c ∧ (m.capacity_ + 1) * 2 ≤ c ∧
      m.simple_capacity_id ≤ id ∧
      id = advance_cursor ((m.capacity_ + 1) * 2) CAPACITIES_SIZE m.simple_capacity_id := by
  obtain ⟨id, c, r1, r2, r3, r4, r5, r6⟩ := get_next_simple_ok m _ hcap hid
  refine ⟨id, c, ?_, r2, r3, r4, r5, r6⟩
  unfold resize
  rw [r1]

theorem resize_exhausted (m : HashMap K V) (hcap : 778221781 < (m.capacity_ + 1) * 2) :
    resize m = .error .undefined_behaviour := by
  unfold resize
  rw [get_next_simple_exhausted m _ hcap]

end

/-! ## `insert` and `rehash` -/

section

variable {K V : Type} [DecidableEq K] [Inhabited K] [Inhabited V]

/-- `insert` of a key that is present, on a map below the load bound: nothing changes and
the reference designates the slot of the key. -/
theorem insert_core_present {hasher_ : K → Nat} {m : HashMap K V} (I : Inv hasher_ m)
    (hload : 10 * m.size_ < 9 * m.capacity_) {s : Nat} {nd : Node K V}
    (hs : m.table_[s]? = some nd) (he : nd.empty = false) (el : K × V)
    (hk : el.1 = nd.value.1) (fuel : Nat) :
    insert_core hasher_ (fuel + 1) m el = .ok (m, s) := by
  unfold insert_core
  have h1 : ¬ 9 * m.capacity_ ≤ 10 * m.size_ := by omega
  have h2 : m.capacity_ ≠ 0 := by omega
  simp only [h1, h2, if_false]
  have h3 := insert_loop_dup I.tbl hs he el hk m.size_ none m.capacity_ 0 (by omega) (by omega)
  rw [Nat.add_zero, Nat.mod_mod, ← hk] at h3
  rw [h3]
  rfl

/-- `insert` of a key that is absent, on a map below the load bound. -/
theorem insert_core_absent {hasher_ : K → Nat} {m : HashMap K V} (I : Inv hasher_ m)
    (hload : 10 * m.size_ < 9 * m.capacity_) (el : K × V) (habs : ¬ HasKey m.table_ el.1)
    (fuel : Nat) :
    ∃ (t1 : List (Node K V)) (idx : Nat),
      insert_core hasher_ (fuel + 1) m el
        = .ok (⟨m.size_ + 1, m.capacity_, t1, m.simple_capacity_id⟩, idx) ∧
      TableInv hasher_ m.capacity_ t1 ∧ occupied t1 = occupied m.table_ + 1 ∧
      (∀ k v, Holds t1 k v ↔ Holds m.table_ k v ∨ (k, v) = el) ∧
      ∃ nd : Node K V, t1[idx]? = some nd ∧ nd.empty = false ∧ nd.value = el := by
  have h1 : ¬ 9 * m.capacity_ ≤ 10 * m.size_ := by omega
  have h2 : m.capacity_ ≠ 0 := by omega
  have hc : 0 < m.capacity_ := by omega
  have hpos : hasher_ el.1 % m.capacity_ < m.capacity_ := Nat.mod_lt _ hc
  have C : Carry hasher_ m.capacity_ m.table_ el (hasher_ el.1 % m.capacity_) 0 :=
    ⟨hpos, by rw [Nat.add_zero, Nat.mod_mod], fun h => absurd h (by omega), habs⟩
  have hemp : ∃ (l : Nat) (ne : Node K V), l < m.capacity_ ∧
      m.table_[(hasher_ el.1 % m.capacity_ + l) % m.capacity_]? = some ne ∧
      ne.empty = true := by
    obtain ⟨e, ne, e1, e2⟩ := exists_empty_of_occupied_lt (t := m.table_)
      (by rw [← I.size_eq, I.tbl.len]; omega)
    have he : e < m.capacity_ := by rw [← I.tbl.len]; exact getElem?_lt e1
    obtain ⟨l, l1, l2⟩ := exists_offset hpos he
    exact ⟨l, ne, l1, by rw [l2]; exact e1, e2⟩
  obtain ⟨t1, idx, r1, r2, r3, r4, _, r6, _⟩ :=
    insert_loop_new m.capacity_ m.table_ m.size_ el (hasher_ el.1 % m.capacity_) 0 none
      I.tbl C (by omega) hemp
  refine ⟨t1, idx, ?_, r2, r3, r4, r6 rfl⟩
  unfold insert_core
  simp only [h1, h2, if_false]
  rw [r1]

/-- `insert` on a map below the load bound. -/
theorem insert_core_stay {hasher_ : K → Nat} {m : HashMap K V} (I : Inv hasher_ m)
    (hload : 10 * m.size_ < 9 * m.capacity_) (el : K × V) (fuel : Nat) :
    ∃ (m1 : HashMap K V) (idx : Nat), insert_core hasher_ (fuel + 1) m el = .ok (m1, idx) ∧
      InsertPost hasher_ m el m1 idx := by
  by_cases hk : HasKey m.table_ el.1
  · obtain ⟨s, nd, h1, h2, h3⟩ := hk
    refine ⟨m, s, insert_core_present I hload h1 h2 el h3.symm fuel, I, ⟨nd, h1, h2, h3⟩,
      fun _ => ⟨rfl, fun _ _ => Iff.rfl, hload⟩, fun h => absurd ⟨s, nd, h1, h2, h3⟩ h,
      fun _ => ⟨rfl, rfl⟩, fun h => absurd h (by omega)⟩
  · obtain ⟨t1, idx, r1, r2, r3, r4, nd, r5, r6, r7⟩ := insert_core_absent I hload el hk fuel
    refine ⟨_, idx, r1, ⟨r2, ?_, I.cursor, I.cap_ok⟩, ⟨nd, r5, r6, by rw [r7]⟩,
      fun h => absurd h hk, fun _ => ⟨rfl, r4, hload⟩, fun _ => ⟨rfl, rfl⟩,
      fun h => absurd h (by omega)⟩
    show m.size_ + 1 = occupied t1
    rw [r3, I.size_eq]

end

section

variable {K V : Type}

theorem TableInv.distinctKeys {hasher_ : K → Nat} {cap : Nat} {t : List (Node K V)}
    (T : TableInv hasher_ cap t) : DistinctKeys t := by
  unfold DistinctKeys
  rw [List.pairwise_iff_getElem]
  intro i j hi hj hij h1 h2 h3
  have := T.uniq i j t[i] t[j] (List.getElem?_eq_getElem hi) (List.getElem?_eq_getElem hj)
    h1 h2 h3
  omega

theorem holds_iff_mem {t : List (Node K V)} {k : K} {v : V} :
    Holds t k v ↔ ∃ nd ∈ t, nd.empty = false ∧ nd.value = (k, v) := by
  constructor
  · rintro ⟨i, nd, h1, h2, h3⟩
    exact ⟨nd, List.mem_iff_getElem?.mpr ⟨i, h1⟩, h2, h3⟩
  · rintro ⟨nd, h1, h2, h3⟩
    obtain ⟨i, hi⟩ := List.mem_iff_getElem?.mp h1
    exact ⟨i, nd, hi, h2, h3⟩

end

section

variable {K V : Type} [DecidableEq K] [Inhabited K] [Inhabited V]

/-- The loop of `rehash`: every occupied node of `rest` is inserted without a nested
`rehash`. -/
theorem reinsert_spec (hasher_ : K → Nat) (fuel : Nat) :
    ∀ (rest : List (Node K V)) (m : HashMap K V), Inv hasher_ m →
      10 * (m.size_ + rest.length) < 9 * m.capacity_ → DistinctKeys rest →
      (∀ nd ∈ rest, nd.empty = false → ¬ HasKey m.table_ nd.value.1) →
      ∃ m1 : HashMap K V, reinsert (insert_core hasher_ (fuel + 1)) rest m = .ok m1 ∧
        Inv hasher_ m1 ∧ m1.capacity_ = m.capacity_ ∧
        m1.simple_capacity_id = m.simple_capacity_id ∧
        m1.size_ = m.size_ + occupied rest ∧
        ∀ k v, Holds m1.table_ k v ↔
          (Holds m.table_ k v ∨ ∃ nd ∈ rest, nd.empty = false ∧ nd.value = (k, v)) := by
  intro rest
  induction rest with
  | nil =>
    intro m I _ _ _
    exact ⟨m, rfl, I, rfl, rfl, by simp [occupied], by simp⟩
  | cons node rest ih =>
    intro m I hload hd hfresh
    have hd2 := List.pairwise_cons.mp hd
    unfold reinsert
    by_cases hne : node.empty = true
    · simp only [hne, if_true]
      obtain ⟨m1, r1, r2, r3, r4, r5, r6⟩ := ih m I (by simp at hload; omega) hd2.2
        (fun nd hnd => hfresh nd (List.mem_cons_of_mem _ hnd))
      refine ⟨m1, r1, r2, r3, r4, ?_, ?_⟩
      · rw [r5]
        unfold occupied
        rw [List.countP_cons_of_neg]
        simp [hne]
      · intro k v
        rw [r6]
        constructor
        · rintro (h | ⟨nd, h1, h2, h3⟩)
          · exact Or.inl h
          · exact Or.inr ⟨nd, List.mem_cons_of_mem _ h1, h2, h3⟩
        · rintro (h | ⟨nd, h1, h2, h3⟩)
          · exact Or.inl h
          · rcases List.mem_cons.mp h1 with h4 | h4
            · subst h4
              rw [hne] at h2
              cases h2
            · exact Or.inr ⟨nd, h4, h2, h3⟩
    · have hne' : node.empty = false := by simpa using hne
      simp only [hne', if_false, Bool.false_eq_true]
      have habs : ¬ HasKey m.table_ node.value.1 := hfresh node (List.mem_cons_self _ _) hne'
      obtain ⟨t1, idx, r1, r2, r3, r4, _⟩ :=
        insert_core_absent I (by simp at hload; omega) node.value habs fuel
      rw [r1]
      simp only []
      have I1 : Inv hasher_ (⟨m.size_ + 1, m.capacity_, t1, m.simple_capacity_id⟩ :
          HashMap K V) := ⟨r2, by show m.size_ + 1 = occupied t1; rw [r3, I.size_eq], I.cursor,
            I.cap_ok⟩
      obtain ⟨m1, s1, s2, s3, s4, s5, s6⟩ := ih _ I1
        (by simp at hload ⊢; omega) hd2.2 (by
          intro nd hnd hnde hk
          obtain ⟨v, hv⟩ := hasKey_holds hk
          rcases (r4 _ _).mp hv with h | h
          · exact hfresh nd (List.mem_cons_of_mem _ hnd) hnde (holds_hasKey h)
          · exact hd2.1 nd hnd hne' hnde (by rw [← h]))
      refine ⟨m1, s1, s2, s3, s4, ?_, ?_⟩
      · rw [s5]
        show m.size_ + 1 + occupied rest = m.size_ + occupied (node :: rest)
        unfold occupied
        rw [List.countP_cons_of_pos]
        · omega
        · simp [hne']
      · intro k v
        rw [s6]
        show (Holds t1 k v ∨ _) ↔ _
        rw [r4]
        constructor
        · rintro ((h | h) | ⟨nd, h1, h2, h3⟩)
          · exact Or.inl h
          · exact Or.inr ⟨node, List.mem_cons_self _ _, hne', h.symm⟩
          · exact Or.inr ⟨nd, List.mem_cons_of_mem _ h1, h2, h3⟩
        · rintro (h | ⟨nd, h1, h2, h3⟩)
          · exact Or.inl (Or.inl h)
          · rcases List.mem_cons.mp h1 with h4 | h4
            · subst h4
              exact Or.inl (Or.inr h3.symm)
            · exact Or.inr ⟨nd, h4, h2, h3⟩

/-- `rehash` on a map that can still grow: the same pairs in a larger array, without a
nested `rehash`, and strictly below the load bound. -/
theorem rehash_with_spec {hasher_ : K → Nat} {m : HashMap K V} (I : Inv hasher_ m)
    (hcap : (m.capacity_ + 1) * 2 ≤ 778221781) (fuel : Nat) :
    ∃ m1 : HashMap K V, rehash_with (insert_core hasher_ (fuel + 1)) m = .ok m1 ∧
      Inv hasher_ m1 ∧ m1.size_ = m.size_ ∧
      (∀ k v, Holds m1.table_ k v ↔ Holds m.table_ k v) ∧
      10 * m1.size_ < 9 * m1.capacity_ ∧
      m1.simple_capacity_id
        = advance_cursor ((m.capacity_ + 1) * 2) CAPACITIES_SIZE m.simple_capacity_id ∧
      SIMPLE_CAPACITIES[m1.simple_capacity_id]? = some m1.capacity_ ∧
      (m.capacity_ + 1) * 2 ≤ m1.capacity_ := by
  obtain ⟨id, c, r1, r2, r3, r4, _, hid⟩ := resize_ok m hcap I.cursor
  have I0 : Inv hasher_ (⟨0, c, List.replicate c Node.fresh, id⟩ : HashMap K V) :=
    ⟨tableInv_replicate hasher_ c _ rfl, (occupied_replicate c _ rfl).symm, r2, Or.inr r3⟩
  have hocc_le : occupied m.table_ ≤ m.table_.length := List.countP_le_length _
  obtain ⟨m1, s1, s2, s3, s4, s5, s6⟩ := reinsert_spec hasher_ fuel m.table_
    ⟨0, c, List.replicate c Node.fresh, id⟩ I0
    (by show 10 * (0 + m.table_.length) < 9 * c; rw [I.tbl.len]; omega)
    I.tbl.distinctKeys
    (by
      rintro nd _ _ ⟨i, x, h1, h2, _⟩
      exact not_holds_replicate c Node.fresh rfl x.value.1 x.value.2 ⟨i, x, h1, h2, rfl⟩)
  refine ⟨m1, ?_, s2, ?_, ?_, ?_, ?_, ?_, ?_⟩
  · unfold rehash_with
    rw [r1]
    exact s1
  · rw [s5, I.size_eq]
    show 0 + occupied m.table_ = occupied m.table_
    omega
  · intro k v
    rw [s6]
    constructor
    · rintro (h | h)
      · exact (not_holds_replicate c Node.fresh rfl k v h).elim
      · exact holds_iff_mem.mpr h
    · intro h
      exact Or.inr (holds_iff_mem.mp h)
  · rw [s5, s3]
    have := I.tbl.len
    show 10 * (0 + occupied m.table_) < 9 * c
    omega
  · rw [s4]; exact hid
  · rw [s4, s3]; exact r3
  · rw [s3]; exact r4

/-- `insert` on a map at or above the load bound continues, after `rehash`, as `insert` on
the rehashed map. -/
theorem insert_core_after_rehash {hasher_ : K → Nat} {m m1 : HashMap K V} (fuel : Nat)
    (hgrow : 9 * m.capacity_ ≤ 10 * m.size_)
    (hre : rehash_with (insert_core hasher_ fuel) m = .ok m1)
    (hload : 10 * m1.size_ < 9 * m1.capacity_) (el : K × V) :
    insert_core hasher_ (fuel + 1) m el = insert_core hasher_ 1 m1 el := by
  have h1 : ¬ 9 * m1.capacity_ ≤ 10 * m1.size_ := by omega
  conv_lhs => unfold insert_core
  conv_rhs => unfold insert_core
  simp only [hgrow, h1, if_true, if_false, hre]

/-- `insert` returns, with the guarantees of `InsertPost`, on every map that satisfies the
invariants and is below the load bound or can still grow; a recursion budget of two is
enough. -/
theorem insert_core_spec {hasher_ : K → Nat} {m : HashMap K V} (I : Inv hasher_ m)
    (hroom : 10 * m.size_ < 9 * m.capacity_ ∨ (m.capacity_ + 1) * 2 ≤ 778221781)
    (el : K × V) (fuel : Nat) :
    ∃ (m1 : HashMap K V) (idx : Nat), insert_core hasher_ (fuel + 2) m el = .ok (m1, idx) ∧
      InsertPost hasher_ m el m1 idx := by
  by_cases hload : 10 * m.size_ < 9 * m.capacity_
  · exact insert_core_stay I hload el (fuel + 1)
  · have hcap : (m.capacity_ + 1) * 2 ≤ 778221781 := by
      rcases hroom with h | h
      · exact absurd h hload
      · exact h
    obtain ⟨m0, r1, r2, r3, r4, r5, r6, r7, r8⟩ := rehash_with_spec I hcap fuel
    obtain ⟨m1, idx, s1, P⟩ := insert_core_stay r2 r5 el 0
    refine ⟨m1, idx, ?_, P.inv, P.slot, ?_, ?_, fun h => absurd h hload, ?_⟩
    · rw [insert_core_after_rehash (fuel + 1) (by omega) r1 r5]
      exact s1
    · intro hk
      have hk0 : HasKey m0.table_ el.1 := by
        obtain ⟨v, hv⟩ := hasKey_holds hk
        exact holds_hasKey ((r4 _ _).mpr hv)
      obtain ⟨a, b, c⟩ := P.old hk0
      exact ⟨by rw [a, r3], fun k v => by rw [b, r4], c⟩
    · intro hk
      have hk0 : ¬ HasKey m0.table_ el.1 := by
        intro h
        obtain ⟨v, hv⟩ := hasKey_holds h
        exact hk (holds_hasKey ((r4 _ _).mp hv))
      obtain ⟨a, b, c⟩ := P.new hk0
      exact ⟨by rw [a, r3], fun k v => by rw [b, r4], by rw [← r3]; exact c⟩
    · intro _
      obtain ⟨a, b⟩ := P.stay r5
      exact ⟨by rw [b]; exact r6, by rw [b, a]; exact r7, by rw [a]; exact r8⟩

/-- `insert` on a map at or above the load bound whose capacity cannot be doubled inside the
sequence: `get_next_simple` reads `SIMPLE_CAPACITIES[CAPACITIES_SIZE]`. -/
theorem insert_core_exhausted (hasher_ : K → Nat) (m : HashMap K V)
    (hgrow : 9 * m.capacity_ ≤ 10 * m.size_) (hcap : 778221781 < (m.capacity_ + 1) * 2)
    (el : K × V) (fuel : Nat) :
    insert_core hasher_ (fuel + 1) m el = .error .undefined_behaviour := by
  unfold insert_core rehash_with
  simp only [hgrow, if_true, resize_exhausted m hcap]

theorem insert_spec {hasher_ : K → Nat} {m : HashMap K V} (I : Inv hasher_ m)
    (hroom : HasRoom m) (el : K × V) :
    ∃ (m1 : HashMap K V) (idx : Nat), insert hasher_ m el = .ok (m1, idx) ∧
      InsertPost hasher_ m el m1 idx :=
  insert_core_spec I hroom el CAPACITIES_SIZE

/-- Every result of `insert` on a map satisfying the invariants comes with the guarantees of
`InsertPost`. -/
theorem insert_post {hasher_ : K → Nat} {m : HashMap K V} (I : Inv hasher_ m) {el : K × V}
    {m1 : HashMap K V} {idx : Nat} (h : insert hasher_ m el = .ok (m1, idx)) :
    HasRoom m ∧ InsertPost hasher_ m el m1 idx := by
  by_cases hroom : HasRoom m
  · obtain ⟨m2, idx2, r1, r2⟩ := insert_spec I hroom el
    rw [r1] at h
    cases h
    exact ⟨hroom, r2⟩
  · unfold HasRoom at hroom
    have := insert_core_exhausted hasher_ m (by omega) (by omega) el
      (CAPACITIES_SIZE + 1)
    unfold insert at h
    rw [this] at h
    cases h

end

/-! ## `erase`, `operator[]` and the reachable maps -/

section

variable {K V : Type}

theorem Inv.cap_ge_two {hasher_ : K → Nat} {m : HashMap K V} (I : Inv hasher_ m)
    (h : m.capacity_ ≠ 0) : 2 ≤ m.capacity_ := by
  rcases I.cap_ok with h0 | h0
  · exact absurd h0 h
  · exact (capacities_get_bounds h0).1

/-- Marking the slot of a key empty leaves the array in the state the loop of `erase`
expects. -/
theorem TableInv.hole {hasher_ : K → Nat} {cap : Nat} {t : List (Node K V)}
    (T : TableInv hasher_ cap t) (hc : 2 ≤ cap) {s : Nat} {nd : Node K V}
    (hs : t[s]? = some nd) (he : nd.empty = false) :
    Hole hasher_ cap (t.set s { nd with empty := true }) s nd.probe_seq_length := by
  have hself := set_get_self (b := ({ nd with empty := true } : Node K V)) hs
  have hslt : s < cap := by rw [← T.len]; exact getElem?_lt hs
  refine ⟨by rw [List.length_set]; exact T.len, hc, hslt, ⟨_, hself, rfl⟩, ?_, ?_, ?_, ?_, ?_⟩
  · intro i x hx hxe
    by_cases hi : s = i
    · subst hi
      rw [hself] at hx
      cases hx
      cases hxe
    · rw [set_get_ne hi] at hx
      exact T.home i x hx hxe
  · intro i x hi his hx hxe hxp
    by_cases h1 : s = (i + 1) % cap
    · rw [← h1, hself] at hx
      cases hx
      cases hxe
    · rw [set_get_ne h1] at hx
      obtain ⟨pd, p1, p2, p3⟩ := T.ord i x hi hx hxe hxp
      exact ⟨pd, by rw [set_get_ne (Ne.symm his)]; exact p1, p2, p3⟩
  · intro x hx hxe
    rw [set_get_ne (Ne.symm (succ_mod_ne hc hslt))] at hx
    by_cases h0 : x.probe_seq_length = 0
    · omega
    · obtain ⟨pd, p1, _, p3⟩ := T.ord s x hslt hx hxe (by omega)
      rw [hs] at p1
      cases p1
      exact p3
  · intro hg q hq hq2
    obtain ⟨pd, p1, p2, p3⟩ := T.ord q nd hq (by rw [hq2]; exact hs) he hg
    have hqs : s ≠ q := by
      intro h
      subst h
      exact succ_mod_ne hc hq hq2
    exact ⟨pd, by rw [set_get_ne hqs]; exact p1, p2, p3⟩
  · intro i j ni nj h1 h2 h3 h4 h5
    have hi : s ≠ i := by
      intro h
      subst h
      rw [hself] at h1
      cases h1
      cases h3
    have hj : s ≠ j := by
      intro h
      subst h
      rw [hself] at h2
      cases h2
      cases h4
    rw [set_get_ne hi] at h1
    rw [set_get_ne hj] at h2
    exact T.uniq i j ni nj h1 h2 h3 h4 h5

/-- Overwriting the value of a slot keeps the invariants of the array. -/
theorem TableInv.set_value {hasher_ : K → Nat} {cap : Nat} {t : List (Node K V)}
    (T : TableInv hasher_ cap t) {s : Nat} {nd : Node K V} (hs : t[s]? = some nd) (v : V) :
    TableInv hasher_ cap (t.set s { nd with value := (nd.value.1, v) }) := by
  have hself := set_get_self (b := ({ nd with value := (nd.value.1, v) } : Node K V)) hs
  have back : ∀ (i : Nat) (y : Node K V),
      (t.set s { nd with value := (nd.value.1, v) })[i]? = some y →
      ∃ y0 : Node K V, t[i]? = some y0 ∧ y0.empty = y.empty ∧
        y0.probe_seq_length = y.probe_seq_length ∧ y0.value.1 = y.value.1 := by
    intro i y hy
    by_cases hi : s = i
    · subst hi
      rw [hself] at hy
      cases hy
      exact ⟨nd, hs, rfl, rfl, rfl⟩
    · rw [set_get_ne hi] at hy
      exact ⟨y, hy, rfl, rfl, rfl⟩
  have forth : ∀ (i : Nat) (y0 : Node K V), t[i]? = some y0 →
      ∃ y : Node K V, (t.set s { nd with value := (nd.value.1, v) })[i]? = some y ∧
        y0.empty = y.empty ∧ y0.probe_seq_length = y.probe_seq_length := by
    intro i y0 hy
    by_cases hi : s = i
    · subst hi
      rw [hs] at hy
      cases hy
      exact ⟨_, hself, rfl, rfl⟩
    · exact ⟨y0, by rw [set_get_ne hi]; exact hy, rfl, rfl⟩
  refine ⟨by rw [List.length_set]; exact T.len, ?_, ?_, ?_⟩
  · intro i y hy hye
    obtain ⟨y0, a1, a2, a3, a4⟩ := back i y hy
    have := T.home i y0 a1 (by rw [a2]; exact hye)
    rw [a3, a4] at this
    exact this
  · intro i y hi hy hye hyp
    obtain ⟨y0, a1, a2, a3, _⟩ := back _ y hy
    obtain ⟨pd, p1, p2, p3⟩ := T.ord i y0 hi a1 (by rw [a2]; exact hye) (by omega)
    obtain ⟨qd, q1, q2, q3⟩ := forth i pd p1
    exact ⟨qd, q1, by rw [← q2]; exact p2, by omega⟩
  · intro i j ni nj h1 h2 h3 h4 h5
    obtain ⟨x, a1, a2, _, a4⟩ := back i ni h1
    obtain ⟨y, b1, b2, _, b4⟩ := back j nj h2
    exact T.uniq i j x y a1 b1 (by rw [a2]; exact h3) (by rw [b2]; exact h4)
      (by rw [a4, b4]; exact h5)

theorem inv_assign {hasher_ : K → Nat} {m : HashMap K V} (I : Inv hasher_ m) {s : Nat}
    {nd : Node K V} (hs : m.table_[s]? = some nd) (v : V) :
    Inv hasher_
      { m with table_ := m.table_.set s { nd with value := (nd.value.1, v) } } :=
  ⟨I.tbl.set_value hs v, by
    show m.size_ = occupied (m.table_.set s { nd with value := (nd.value.1, v) })
    rw [occupied_set_same (x := { nd with value := (nd.value.1, v) }) hs rfl]
    exact I.size_eq, I.cursor, I.cap_ok⟩

theorem inv_init (hasher_ : K → Nat) : Inv hasher_ (HashMap.init : HashMap K V) :=
  ⟨⟨rfl, fun i nd h => by simp [HashMap.init] at h, fun i nd hi => absurd hi (by simp [HashMap.init]),
    fun i j ni nj h => by simp [HashMap.init] at h⟩, rfl, by show (0 : Nat) < 72; omega, Or.inl rfl⟩

theorem inv_clear {hasher_ : K → Nat} {m : HashMap K V} (I : Inv hasher_ m) :
    Inv hasher_ (clear m) :=
  ⟨⟨rfl, fun i nd h => by simp [clear] at h, fun i nd hi => absurd hi (by simp [clear]),
    fun i j ni nj h => by simp [clear] at h⟩, rfl, I.cursor, Or.inl rfl⟩

end

section

variable {K V : Type} [DecidableEq K]

/-- `erase` returns on every map that satisfies the invariants: an absent key leaves the map
as it is, a present key is removed together with its value and nothing else. -/
theorem erase_spec {hasher_ : K → Nat} {m : HashMap K V} (I : Inv hasher_ m) (key : K) :
    ∃ m1 : HashMap K V, erase hasher_ m key = .ok m1 ∧ Inv hasher_ m1 ∧
      m1.capacity_ = m.capacity_ ∧ m1.simple_capacity_id = m.simple_capacity_id ∧
      (¬ HasKey m.table_ key → m1 = m) ∧
      (HasKey m.table_ key → m1.size_ + 1 = m.size_) ∧
      (∀ k v, Holds m1.table_ k v ↔ (Holds m.table_ k v ∧ k ≠ key)) := by
  rcases find_element_index_spec I key with ⟨s, nd, f1, f2, f3, f4⟩ | ⟨f1, f2⟩
  · have hslt : s < m.capacity_ := by rw [← I.tbl.len]; exact getElem?_lt f2
    have hc : 2 ≤ m.capacity_ := I.cap_ge_two (by omega)
    have H := I.tbl.hole hc f2 f3
    obtain ⟨t2, r1, r2, r3, r4⟩ := erase_loop_spec
      (psl_sum (m.table_.set s { nd with empty := true }) + 1) _ s nd.probe_seq_length H
      (by omega)
    have hocc := occupied_set_clear (x := ({ nd with empty := true } : Node K V)) f2 f3 rfl
    have hself := set_get_self (b := ({ nd with empty := true } : Node K V)) f2
    refine ⟨⟨m.size_ - 1, m.capacity_, t2, m.simple_capacity_id⟩, ?_,
      ⟨r2, ?_, I.cursor, I.cap_ok⟩, rfl, rfl, fun h => absurd ⟨s, nd, f2, f3, f4⟩ h, ?_, ?_⟩
    · unfold erase
      rw [f1]
      simp only []
      rw [f2]
      simp only []
      rw [r1]
    · show m.size_ - 1 = occupied t2
      rw [r3, I.size_eq]
      omega
    · intro _
      have := occupied_pos_of_slot f2 f3
      show m.size_ - 1 + 1 = m.size_
      rw [I.size_eq]
      omega
    · intro k v
      show Holds t2 k v ↔ _
      rw [r4]
      constructor
      · rintro ⟨i, x, h1, h2, h3⟩
        have hi : s ≠ i := by
          intro h
          subst h
          rw [hself] at h1
          cases h1
          cases h2
        rw [set_get_ne hi] at h1
        refine ⟨⟨i, x, h1, h2, h3⟩, ?_⟩
        intro hk
        exact hi (I.tbl.uniq s i nd x f2 h1 f3 h2 (by rw [f4, h3, hk]))
      · rintro ⟨⟨i, x, h1, h2, h3⟩, hk⟩
        have hi : s ≠ i := by
          intro h
          subst h
          rw [f2] at h1
          cases h1
          rw [h3] at f4
          exact hk f4
        exact ⟨i, x, by rw [set_get_ne hi]; exact h1, h2, h3⟩
  · refine ⟨m, ?_, I, rfl, rfl, fun _ => rfl, fun h => absurd h f2, ?_⟩
    · unfold erase
      rw [f1]
    · intro k v
      constructor
      · intro h
        exact ⟨h, fun hk => f2 (hk ▸ holds_hasKey h)⟩
      · exact fun h => h.1

end

section

variable {K V : Type} [DecidableEq K] [Inhabited K] [Inhabited V]

/-- The result of `operator[]` on a map satisfying the invariants: the map itself and the
slot of the key when the key is present, the result of `insert` of the key with the default
value when it is absent. -/
theorem operator_index_eq {hasher_ : K → Nat} {m : HashMap K V} (I : Inv hasher_ m) (key : K) :
    (∃ (s : Nat) (nd : Node K V), operator_index hasher_ m key = .ok (m, s) ∧
        m.table_[s]? = some nd ∧ nd.empty = false ∧ nd.value.1 = key) ∨
    (operator_index hasher_ m key = insert hasher_ m (key, default) ∧
        ¬ HasKey m.table_ key) := by
  have hfind : (if m.size_ = 0 then (.ok none : Except Fault (Option Nat))
      else find_element_index hasher_ m key) = find_element_index hasher_ m key := by
    by_cases h0 : m.size_ = 0
    · rw [if_pos h0]
      unfold find_element_index
      rw [if_pos h0]
    · rw [if_neg h0]
  unfold operator_index
  rw [hfind]
  rcases find_element_index_spec I key with ⟨s, nd, f1, f2, f3, f4⟩ | ⟨f1, f2⟩
  · left
    exact ⟨s, nd, by rw [f1], f2, f3, f4⟩
  · right
    exact ⟨by rw [f1], f2⟩

/-- Every reachable map satisfies the invariants. -/
theorem Reachable.inv {hasher_ : K → Nat} {m : HashMap K V} (R : Reachable hasher_ m) :
    Inv hasher_ m := by
  induction R with
  | init => exact inv_init hasher_
  | insert _ h ih => exact (insert_post ih h).2.inv
  | erase _ h ih =>
    obtain ⟨m2, r1, r2, _⟩ := erase_spec ih _
    rw [r1] at h
    cases h
    exact r2
  | index _ h ih =>
    rcases operator_index_eq ih _ with ⟨s, nd, f1, _⟩ | ⟨f1, _⟩
    · rw [f1] at h
      cases h
      exact ih
    · rw [f1] at h
      exact (insert_post ih h).2.inv
  | clear _ ih => exact inv_clear ih
  | assign _ h1 _ h3 ih =>
    unfold RobinHood.assign at h3
    rw [h1] at h3
    cases h3
    exact inv_assign ih h1 _

/-- On a reachable map no counter or index comes near `2 ^ 64`: the size is at most the
capacity, the capacity is at most the last entry of the sequence, the array has `capacity_`
slots and every stored probe distance is below the capacity. -/
theorem Reachable.bounded {hasher_ : K → Nat} {m : HashMap K V} (R : Reachable hasher_ m) :
    m.size_ ≤ m.capacity_ ∧ m.capacity_ ≤ 778221781 ∧ m.table_.length = m.capacity_ ∧
    ∀ (i : Nat) (nd : Node K V), m.table_[i]? = some nd → nd.empty = false →
      nd.probe_seq_length < m.capacity_ := by
  have I := R.inv
  refine ⟨?_, ?_, I.tbl.len, fun i nd h he => (I.tbl.home i nd h he).1⟩
  · rw [I.size_eq, ← I.tbl.len]
    exact List.countP_le_length _
  · rcases I.cap_ok with h | h
    · omega
    · exact (capacities_get_bounds h).2

end

/-! ## `find` and `at` -/

section

variable {K V : Type}

theorem hasKey_iff_mem {t : List (Node K V)} {k : K} :
    HasKey t k ↔ ∃ nd ∈ t, nd.empty = false ∧ nd.value.1 = k := by
  constructor
  · rintro ⟨i, nd, h1, h2, h3⟩
    exact ⟨nd, List.mem_iff_getElem?.mpr ⟨i, h1⟩, h2, h3⟩
  · rintro ⟨nd, h1, h2, h3⟩
    obtain ⟨i, hi⟩ := List.mem_iff_getElem?.mp h1
    exact ⟨i, nd, hi, h2, h3⟩

end

section

variable {K V : Type} [DecidableEq K]

/-- A decision procedure for `HasKey`. -/
theorem hasKey_iff_any {t : List (Node K V)} {k : K} :
    HasKey t k ↔ t.any (fun nd => !nd.empty && decide (nd.value.1 = k)) = true := by
  rw [hasKey_iff_mem, List.any_eq_true]
  constructor
  · rintro ⟨nd, h1, h2, h3⟩
    exact ⟨nd, h1, by simp [h2, h3]⟩
  · rintro ⟨nd, h1, h2⟩
    simp at h2
    exact ⟨nd, h1, h2.1, h2.2⟩

/-- A decision procedure for `Holds`. -/
theorem holds_iff_any [DecidableEq V] {t : List (Node K V)} {k : K} {v : V} :
    Holds t k v ↔ t.any (fun nd => !nd.empty && decide (nd.value = (k, v))) = true := by
  rw [holds_iff_mem, List.any_eq_true]
  constructor
  · rintro ⟨nd, h1, h2, h3⟩
    exact ⟨nd, h1, by simp [h2, h3]⟩
  · rintro ⟨nd, h1, h2⟩
    simp at h2
    exact ⟨nd, h1, h2.1, h2.2⟩

/-- `find` on a map satisfying the invariants: the slot of the key, or `end()`. -/
theorem find_spec {hasher_ : K → Nat} {m : HashMap K V} (I : Inv hasher_ m) (key : K) :
    (∃ (s : Nat) (nd : Node K V), find hasher_ m key = .ok (s, m.table_.length) ∧
        (s, m.table_.length) ≠ m.end_ ∧ m.table_[s]? = some nd ∧ nd.empty = false ∧
        nd.value.1 = key) ∨
    (find hasher_ m key = .ok m.end_ ∧ ¬ HasKey m.table_ key) := by
  unfold find
  rcases find_element_index_spec I key with ⟨s, nd, f1, f2, f3, f4⟩ | ⟨f1, f2⟩
  · left
    refine ⟨s, nd, by rw [f1], ?_, f2, f3, f4⟩
    have := getElem?_lt f2
    intro h
    unfold HashMap.end_ at h
    have := (Prod.mk.inj h).1
    omega
  · right
    exact ⟨by rw [f1]; rfl, f2⟩

/-- `at` on a map satisfying the invariants: the value stored with the key, or
`std::out_of_range`. -/
theorem at_spec {hasher_ : K → Nat} {m : HashMap K V} (I : Inv hasher_ m) (key : K) :
    (∃ (s : Nat) (nd : Node K V), at_ hasher_ m key = .ok nd.value.2 ∧
        m.table_[s]? = some nd ∧ nd.empty = false ∧ nd.value.1 = key) ∨
    (at_ hasher_ m key = .error .out_of_range_key ∧ ¬ HasKey m.table_ key) := by
  have hfind : (if m.size_ = 0 then (.ok none : Except Fault (Option Nat))
      else find_element_index hasher_ m key) = find_element_index hasher_ m key := by
    by_cases h0 : m.size_ = 0
    · rw [if_pos h0]
      unfold find_element_index
      rw [if_pos h0]
    · rw [if_neg h0]
  unfold at_
  rw [hfind]
  rcases find_element_index_spec I key with ⟨s, nd, f1, f2, f3, f4⟩ | ⟨f1, f2⟩
  · left
    refine ⟨s, nd, ?_, f2, f3, f4⟩
    rw [f1]
    simp only []
    rw [f2]
  · right
    exact ⟨by rw [f1], f2⟩

end

section

variable {K V : Type}

/-- The pair stored in an occupied slot with key `k` is the pair the map holds for `k`. -/
theorem Inv.value_of_slot {hasher_ : K → Nat} {m : HashMap K V} (I : Inv hasher_ m) {k : K}
    {v : V} (h : Holds m.table_ k v) {s : Nat} {nd : Node K V} (hs : m.table_[s]? = some nd)
    (he : nd.empty = false) (hk : nd.value.1 = k) : nd.value = (k, v) := by
  have h2 : Holds m.table_ k nd.value.2 := ⟨s, nd, hs, he, by rw [← hk]⟩
  have := I.tbl.holds_unique h h2
  rw [this, ← hk]

end

/-! ## Insertion, removal and access on reachable maps (C1 to C5) -/

section

variable {K V : Type}

theorem reachable_map_one : Reachable identity_hasher map_one :=
  Reachable.insert Reachable.init
    (rfl : insert identity_hasher HashMap.init (5, 50) = .ok (map_one, 1))

theorem reachable_map_full : Reachable identity_hasher map_full :=
  Reachable.insert
    (Reachable.insert Reachable.init
      (rfl : insert identity_hasher HashMap.init (1, 10)
        = .ok (⟨1, 2, [⟨(0, 0), 0, true⟩, ⟨(1, 10), 0, false⟩], 0⟩, 1)))
    (rfl : insert identity_hasher ⟨1, 2, [⟨(0, 0), 0, true⟩, ⟨(1, 10), 0, false⟩], 0⟩ (2, 20)
      = .ok (map_full, 0))

theorem deref_of_slot {m : HashMap K V} {idx : Nat} {nd : Node K V}
    (h : m.table_[idx]? = some nd) : deref m idx = some nd.value.2 := by
  unfold deref
  rw [h]

end

section

variable {K V : Type} [DecidableEq K] [Inhabited K] [Inhabited V]

/-- C1: on every reachable map, under every hasher, `insert` of a pair `(k, v)` whose key no
occupied slot holds returns exactly when the map has room (it is below the load bound or
the capacity can still be doubled inside the sequence); once it has returned, `find k` is not
`end()` and designates an occupied slot holding `(k, v)`, the reference returned by `insert`
designates `v`, and `size()` is one larger than before. -/
theorem insert_absent_then_find (hasher_ : K → Nat) (m : HashMap K V) (k : K) (v : V)
    (hR : Reachable hasher_ m) (habs : ¬ HasKey m.table_ k) :
    ((∃ m1 idx, insert hasher_ m (k, v) = .ok (m1, idx)) ↔ HasRoom m) ∧
    ∀ m1 idx, insert hasher_ m (k, v) = .ok (m1, idx) →
      (∃ (s : Nat) (nd : Node K V), find hasher_ m1 k = .ok (s, m1.table_.length) ∧
        (s, m1.table_.length) ≠ m1.end_ ∧ m1.table_[s]? = some nd ∧ nd.empty = false ∧
        nd.value = (k, v)) ∧
      deref m1 idx = some v ∧ m1.size = m.size + 1 := by
  have I := hR.inv
  refine ⟨⟨?_, ?_⟩, ?_⟩
  · rintro ⟨m1, idx, h⟩
    exact (insert_post I h).1
  · intro hroom
    obtain ⟨m1, idx, h, _⟩ := insert_spec I hroom (k, v)
    exact ⟨m1, idx, h⟩
  · intro m1 idx h
    have P := (insert_post I h).2
    obtain ⟨hsize, hholds, _⟩ := P.new habs
    have hkv : Holds m1.table_ k v := (hholds k v).mpr (Or.inr rfl)
    refine ⟨?_, ?_, hsize⟩
    · rcases find_spec P.inv k with ⟨s, nd, f1, f2, f3, f4, f5⟩ | ⟨_, f2⟩
      · exact ⟨s, nd, f1, f2, f3, f4, P.inv.value_of_slot hkv f3 f4 f5⟩
      · exact absurd (holds_hasKey hkv) f2
    · obtain ⟨nd, s1, s2, s3⟩ := P.slot
      rw [deref_of_slot s1, P.inv.value_of_slot hkv s1 s2 s3]

/-- C1 at the map `map_one` with the key `7`, which collides with the stored key `5`. -/
theorem insert_absent_then_find_witness :
    Reachable identity_hasher map_one ∧ ¬ HasKey map_one.table_ 7 ∧
    (((∃ m1 idx, insert identity_hasher map_one (7, 70) = .ok (m1, idx)) ↔ HasRoom map_one) ∧
    ∀ m1 idx, insert identity_hasher map_one (7, 70) = .ok (m1, idx) →
      (∃ (s : Nat) (nd : Node Nat Nat),
        find identity_hasher m1 7 = .ok (s, m1.table_.length) ∧
        (s, m1.table_.length) ≠ m1.end_ ∧ m1.table_[s]? = some nd ∧ nd.empty = false ∧
        nd.value = (7, 70)) ∧
      deref m1 idx = some 70 ∧ m1.size = map_one.size + 1) :=
  ⟨reachable_map_one, by rw [hasKey_iff_any]; decide,
    insert_absent_then_find identity_hasher map_one 7 70 reachable_map_one
      (by rw [hasKey_iff_any]; decide)⟩

/-- C2: on every reachable map, `insert` of a pair `(k, v)` whose key is stored with the
value `v0` returns exactly when the map has room; once it has returned, with or without a
`rehash`, the reference returned designates `v0`, `find k` designates an occupied slot
holding `(k, v0)`, and `size()` is the same as before. -/
theorem insert_present_first_wins (hasher_ : K → Nat) (m : HashMap K V) (k : K) (v0 v : V)
    (hR : Reachable hasher_ m) (hold : Holds m.table_ k v0) :
    ((∃ m1 idx, insert hasher_ m (k, v) = .ok (m1, idx)) ↔ HasRoom m) ∧
    ∀ m1 idx, insert hasher_ m (k, v) = .ok (m1, idx) →
      deref m1 idx = some v0 ∧
      (∃ (s : Nat) (nd : Node K V), find hasher_ m1 k = .ok (s, m1.table_.length) ∧
        (s, m1.table_.length) ≠ m1.end_ ∧ m1.table_[s]? = some nd ∧ nd.empty = false ∧
        nd.value = (k, v0)) ∧
      m1.size = m.size := by
  have I := hR.inv
  refine ⟨⟨?_, ?_⟩, ?_⟩
  · rintro ⟨m1, idx, h⟩
    exact (insert_post I h).1
  · intro hroom
    obtain ⟨m1, idx, h, _⟩ := insert_spec I hroom (k, v)
    exact ⟨m1, idx, h⟩
  · intro m1 idx h
    have P := (insert_post I h).2
    obtain ⟨hsize, hholds, _⟩ := P.old (holds_hasKey hold)
    have hkv : Holds m1.table_ k v0 := (hholds k v0).mpr hold
    refine ⟨?_, ?_, hsize⟩
    · obtain ⟨nd, s1, s2, s3⟩ := P.slot
      rw [deref_of_slot s1, P.inv.value_of_slot hkv s1 s2 s3]
    · rcases find_spec P.inv k with ⟨s, nd, f1, f2, f3, f4, f5⟩ | ⟨_, f2⟩
      · exact ⟨s, nd, f1, f2, f3, f4, P.inv.value_of_slot hkv f3 f4 f5⟩
      · exact absurd (holds_hasKey hkv) f2

/-- C2 at the full map `map_full`, where the duplicate `insert` starts with a `rehash`. -/
theorem insert_present_first_wins_witness :
    Reachable identity_hasher map_full ∧ Holds map_full.table_ 1 10 ∧
    (((∃ m1 idx, insert identity_hasher map_full (1, 99) = .ok (m1, idx)) ↔
        HasRoom map_full) ∧
    ∀ m1 idx, insert identity_hasher map_full (1, 99) = .ok (m1, idx) →
      deref m1 idx = some 10 ∧
      (∃ (s : Nat) (nd : Node Nat Nat),
        find identity_hasher m1 1 = .ok (s, m1.table_.length) ∧
        (s, m1.table_.length) ≠ m1.end_ ∧ m1.table_[s]? = some nd ∧ nd.empty = false ∧
        nd.value = (1, 10)) ∧
      m1.size = map_full.size) :=
  ⟨reachable_map_full, by rw [holds_iff_any]; decide,
    insert_present_first_wins identity_hasher map_full 1 10 99 reachable_map_full
      (by rw [holds_iff_any]; decide)⟩

/-- C3: on every reachable map `erase k` returns; afterwards `find k` is `end()`; `size()`
is one smaller than before when `k` was present, and the whole map is unchanged when `k`
was absent. -/
theorem erase_then_find (hasher_ : K → Nat) (m : HashMap K V) (k : K)
    (hR : Reachable hasher_ m) :
    ∃ m1, erase hasher_ m k = .ok m1 ∧ find hasher_ m1 k = .ok m1.end_ ∧
      (HasKey m.table_ k → m1.size + 1 = m.size) ∧ (¬ HasKey m.table_ k → m1 = m) := by
  obtain ⟨m1, r1, r2, _, _, r5, r6, r7⟩ := erase_spec hR.inv k
  refine ⟨m1, r1, ?_, r6, r5⟩
  rcases find_spec r2 k with ⟨s, nd, _, _, f3, f4, f5⟩ | ⟨f1, _⟩
  · have : Holds m1.table_ k nd.value.2 := ⟨s, nd, f3, f4, by rw [← f5]⟩
    exact absurd rfl ((r7 _ _).mp this).2
  · exact f1

/-- C3 at the map `map_full` with the stored key `2`. -/
theorem erase_then_find_witness :
    Reachable identity_hasher map_full ∧
    ∃ m1, erase identity_hasher map_full 2 = .ok m1 ∧
      find identity_hasher m1 2 = .ok m1.end_ ∧
      (HasKey map_full.table_ 2 → m1.size + 1 = map_full.size) ∧
      (¬ HasKey map_full.table_ 2 → m1 = map_full) :=
  ⟨reachable_map_full, erase_then_find identity_hasher map_full 2 reachable_map_full⟩

/-- C4: on every reachable map `at k` throws `std::out_of_range` exactly when no occupied
slot holds `k`, and returns the value stored with `k` otherwise; in particular it throws on
a map of capacity `0` instead of computing a position.  `at_` takes the map and returns no
map: the call cannot change the state. -/
theorem at_throws_iff_absent (hasher_ : K → Nat) (m : HashMap K V) (k : K)
    (hR : Reachable hasher_ m) :
    (at_ hasher_ m k = .error .out_of_range_key ↔ ¬ HasKey m.table_ k) ∧
    (∀ v, Holds m.table_ k v → at_ hasher_ m k = .ok v) ∧
    (HasKey m.table_ k → ∃ v, Holds m.table_ k v ∧ at_ hasher_ m k = .ok v) ∧
    (m.capacity_ = 0 → at_ hasher_ m k = .error .out_of_range_key) := by
  have I := hR.inv
  have hpresent : HasKey m.table_ k → ∃ v, Holds m.table_ k v ∧ at_ hasher_ m k = .ok v := by
    intro hk
    rcases at_spec I k with ⟨s, nd, f1, f2, f3, f4⟩ | ⟨_, f2⟩
    · exact ⟨nd.value.2, ⟨s, nd, f2, f3, by rw [← f4]⟩, f1⟩
    · exact absurd hk f2
  refine ⟨⟨?_, ?_⟩, ?_, hpresent, ?_⟩
  · intro h hk
    obtain ⟨v, _, hv⟩ := hpresent hk
    rw [hv] at h
    cases h
  · intro hk
    rcases at_spec I k with ⟨s, nd, _, f2, f3, f4⟩ | ⟨f1, _⟩
    · exact absurd ⟨s, nd, f2, f3, f4⟩ hk
    · exact f1
  · intro v hv
    obtain ⟨w, hw, h⟩ := hpresent (holds_hasKey hv)
    rw [h, I.tbl.holds_unique hv hw]
  · intro hc
    rcases at_spec I k with ⟨s, nd, _, f2, _, _⟩ | ⟨f1, _⟩
    · have h1 := getElem?_lt f2
      have h2 := I.tbl.len
      omega
    · exact f1

/-- C4 at the map `map_one` with the absent key `7`. -/
theorem at_throws_iff_absent_witness :
    Reachable identity_hasher map_one ∧
    ((at_ identity_hasher map_one 7 = .error .out_of_range_key ↔ ¬ HasKey map_one.table_ 7) ∧
    (∀ v, Holds map_one.table_ 7 v → at_ identity_hasher map_one 7 = .ok v) ∧
    (HasKey map_one.table_ 7 →
      ∃ v, Holds map_one.table_ 7 v ∧ at_ identity_hasher map_one 7 = .ok v) ∧
    (map_one.capacity_ = 0 → at_ identity_hasher map_one 7 = .error .out_of_range_key)) :=
  ⟨reachable_map_one, at_throws_iff_absent identity_hasher map_one 7 reachable_map_one⟩

/-- C5: on every reachable map, `operator[]` on a key stored with the value `v0` returns a
reference to `v0` and the map itself; on a key that no occupied slot holds it returns
exactly when the map has room, and then the reference designates an occupied slot holding
the key with the default value and `size()` is one larger than before. -/
theorem operator_index_present_or_inserted (hasher_ : K → Nat) (m : HashMap K V) (k : K)
    (hR : Reachable hasher_ m) :
    (∀ v0, Holds m.table_ k v0 →
      ∃ idx, operator_index hasher_ m k = .ok (m, idx) ∧ deref m idx = some v0) ∧
    (¬ HasKey m.table_ k →
      ((∃ m1 idx, operator_index hasher_ m k = .ok (m1, idx)) ↔ HasRoom m) ∧
      ∀ m1 idx, operator_index hasher_ m k = .ok (m1, idx) →
        (∃ nd : Node K V, m1.table_[idx]? = some nd ∧ nd.empty = false ∧
          nd.value = (k, default)) ∧
        deref m1 idx = some default ∧ m1.size = m.size + 1) := by
  have I := hR.inv
  constructor
  · intro v0 hv
    rcases operator_index_eq I k with ⟨s, nd, f1, f2, f3, f4⟩ | ⟨_, f2⟩
    · exact ⟨s, f1, by rw [deref_of_slot f2, I.value_of_slot hv f2 f3 f4]⟩
    · exact absurd (holds_hasKey hv) f2
  · intro habs
    have heq : operator_index hasher_ m k = insert hasher_ m (k, default) := by
      rcases operator_index_eq I k with ⟨s, nd, _, f2, f3, f4⟩ | ⟨f1, _⟩
      · exact absurd ⟨s, nd, f2, f3, f4⟩ habs
      · exact f1
    rw [heq]
    refine ⟨⟨?_, ?_⟩, ?_⟩
    · rintro ⟨m1, idx, h⟩
      exact (insert_post I h).1
    · intro hroom
      obtain ⟨m1, idx, h, _⟩ := insert_spec I hroom (k, default)
      exact ⟨m1, idx, h⟩
    · intro m1 idx h
      have P := (insert_post I h).2
      obtain ⟨hsize, hholds, _⟩ := P.new habs
      have hkv : Holds m1.table_ k default := (hholds k default).mpr (Or.inr rfl)
      obtain ⟨nd, s1, s2, s3⟩ := P.slot
      have hval := P.inv.value_of_slot hkv s1 s2 s3
      exact ⟨⟨nd, s1, s2, hval⟩, by rw [deref_of_slot s1, hval], hsize⟩

/-- C5 at the map `map_one` with the key `7`. -/
theorem operator_index_present_or_inserted_witness :
    Reachable identity_hasher map_one ∧
    ((∀ v0, Holds map_one.table_ 7 v0 →
      ∃ idx, operator_index identity_hasher map_one 7 = .ok (map_one, idx) ∧
        deref map_one idx = some v0) ∧
    (¬ HasKey map_one.table_ 7 →
      ((∃ m1 idx, operator_index identity_hasher map_one 7 = .ok (m1, idx)) ↔
        HasRoom map_one) ∧
      ∀ m1 idx, operator_index identity_hasher map_one 7 = .ok (m1, idx) →
        (∃ nd : Node Nat Nat, m1.table_[idx]? = some nd ∧ nd.empty = false ∧
          nd.value = (7, default)) ∧
        deref m1 idx = some default ∧ m1.size = map_one.size + 1)) :=
  ⟨reachable_map_one, operator_index_present_or_inserted identity_hasher map_one 7 reachable_map_one⟩

end

/-! ## The constructor loop -/

section

variable {K V : Type}

theorem shape_step_run (c i : Nat) :
    ∀ n s, 10 * (s + n) < 9 * c + 10 → shape_step^[n] (s, c, i) = (s + n, c, i) := by
  intro n
  induction n with
  | zero => intro s _; rfl
  | succ n ih =>
    intro s h
    rw [Function.iterate_succ_apply]
    have h1 : shape_step (s, c, i) = (s + 1, c, i) := by
      unfold shape_step
      rw [if_neg (by simp only []; omega)]
    rw [h1, ih (s + 1) (by omega)]
    congr 1
    omega

theorem shape_step_grow {k : Nat} {x s y : Nat × Nat × Nat} (h : shape_step^[k] x = s)
    (e : shape_step s = y) : shape_step^[k + 1] x = y := by
  rw [Function.iterate_succ_apply', h, e]

theorem shape_step_stay {k : Nat} {x : Nat × Nat × Nat} {s c i : Nat}
    (h : shape_step^[k] x = (s, c, i)) (n : Nat) (hn : 10 * (s + n) < 9 * c + 10) :
    shape_step^[n + k] x = (s + n, c, i) := by
  rw [Function.iterate_add_apply, h, shape_step_run c i n s hn]

theorem shape_step_thousand : shape_step^[1000] (0, 0, 0) = (1000, 1181, 20) := by
  have a1 : shape_step^[1] (0, 0, 0) = (1, 2, 0) :=
    shape_step_grow (k := 0) (s := (0, 0, 0)) rfl (by decide)
  have a2 : shape_step^[2] (0, 0, 0) = (2, 2, 0) := shape_step_stay a1 1 (by norm_num)
  have a3 : shape_step^[3] (0, 0, 0) = (3, 7, 3) := shape_step_grow a2 (by decide)
  have a4 : shape_step^[7] (0, 0, 0) = (7, 7, 3) := shape_step_stay a3 4 (by norm_num)
  have a5 : shape_step^[8] (0, 0, 0) = (8, 17, 5) := shape_step_grow a4 (by decide)
  have a6 : shape_step^[16] (0, 0, 0) = (16, 17, 5) := shape_step_stay a5 8 (by norm_num)
  have a7 : shape_step^[17] (0, 0, 0) = (17, 41, 8) := shape_step_grow a6 (by decide)
  have a8 : shape_step^[37] (0, 0, 0) = (37, 41, 8) := shape_step_stay a7 20 (by norm_num)
  have a9 : shape_step^[38] (0, 0, 0) = (38, 103, 11) := shape_step_grow a8 (by decide)
  have a10 : shape_step^[93] (0, 0, 0) = (93, 103, 11) := shape_step_stay a9 55 (by norm_num)
  have a11 : shape_step^[94] (0, 0, 0) = (94, 233, 14) := shape_step_grow a10 (by decide)
  have a12 : shape_step^[210] (0, 0, 0) = (210, 233, 14) :=
    shape_step_stay a11 116 (by norm_num)
  have a13 : shape_step^[211] (0, 0, 0) = (211, 523, 17) := shape_step_grow a12 (by decide)
  have a14 : shape_step^[471] (0, 0, 0) = (471, 523, 17) :=
    shape_step_stay a13 260 (by norm_num)
  have a15 : shape_step^[472] (0, 0, 0) = (472, 1181, 20) := shape_step_grow a14 (by decide)
  exact shape_step_stay a15 528 (by norm_num)

theorem hasKey_iff_holds {t : List (Node K V)} {k : K} : HasKey t k ↔ ∃ v, Holds t k v :=
  ⟨hasKey_holds, fun ⟨_, h⟩ => holds_hasKey h⟩

theorem occupied_eq_length_keys (t : List (Node K V)) : occupied t = (keys_of t).length := by
  unfold occupied keys_of
  rw [List.countP_eq_length_filter, List.length_map]

theorem mem_keys_of {t : List (Node K V)} {k : K} : k ∈ keys_of t ↔ HasKey t k := by
  unfold keys_of
  rw [hasKey_iff_mem, List.mem_map]
  constructor
  · rintro ⟨nd, h1, h2⟩
    rw [List.mem_filter] at h1
    exact ⟨nd, h1.1, by simpa using h1.2, h2⟩
  · rintro ⟨nd, h1, h2, h3⟩
    exact ⟨nd, List.mem_filter.mpr ⟨h1, by simp [h2]⟩, h3⟩

theorem TableInv.nodup_keys {hasher_ : K → Nat} {cap : Nat} {t : List (Node K V)}
    (T : TableInv hasher_ cap t) : (keys_of t).Nodup := by
  unfold keys_of
  have h1 := T.distinctKeys
  unfold DistinctKeys at h1
  have h2 := List.Pairwise.filter (fun nd => !nd.empty) h1
  unfold List.Nodup
  rw [List.pairwise_map]
  have h3 : ∀ x ∈ List.filter (fun nd : Node K V => !nd.empty) t, x.empty = false := by
    intro x hx
    simpa using (List.mem_filter.mp hx).2
  exact (List.Pairwise.and_mem.mp h2).imp (fun ⟨h4, h5, h6⟩ => h6 (h3 _ h4) (h3 _ h5))

/-- The size of a map satisfying the invariants is the number of keys it holds. -/
theorem Inv.size_eq_card [DecidableEq K] {hasher_ : K → Nat} {m : HashMap K V}
    (I : Inv hasher_ m) (S : Finset K) (hS : ∀ k, HasKey m.table_ k ↔ k ∈ S) :
    m.size_ = S.card := by
  rw [I.size_eq, occupied_eq_length_keys, ← List.toFinset_card_of_nodup I.tbl.nodup_keys]
  congr 1
  ext k
  rw [List.mem_toFinset, mem_keys_of, hS]

theorem hasRoom_of_size_le {m : HashMap K V} (h : m.size_ ≤ 350199800) : HasRoom m := by
  unfold HasRoom
  omega

end

section

variable {K V : Type} [DecidableEq K] [Inhabited K] [Inhabited V]

theorem construct_eq_fold (hasher_ : K → Nat) :
    ∀ (l : List (K × V)) (m : HashMap K V),
      construct hasher_ l m = insert_one_by_one hasher_ l m := by
  intro l
  induction l with
  | nil => intro m; rfl
  | cons el rest ih =>
    intro m
    unfold construct insert_one_by_one
    rw [List.foldlM_cons]
    cases h : insert hasher_ m el with
    | error e => rfl
    | ok r =>
      obtain ⟨m1, idx⟩ := r
      show construct hasher_ rest m1 = _
      rw [ih m1]
      rfl

/-- The constructor loop returns while the number of elements stays below the bound. -/
theorem construct_returns {hasher_ : K → Nat} :
    ∀ (l : List (K × V)) (m : HashMap K V), Inv hasher_ m →
      m.size_ + l.length ≤ 350199800 →
      ∃ m1 : HashMap K V, construct hasher_ l m = .ok m1 := by
  intro l
  induction l with
  | nil =>
    intro m _ _
    exact ⟨m, rfl⟩
  | cons el rest ih =>
    intro m I hlen
    simp only [List.length_cons] at hlen
    obtain ⟨m1, idx, h1, P⟩ := insert_spec I (hasRoom_of_size_le (by omega)) el
    have hsz : m1.size_ ≤ m.size_ + 1 := by
      by_cases hk : HasKey m.table_ el.1
      · have := (P.old hk).1; omega
      · have := (P.new hk).1; omega
    obtain ⟨m2, r1⟩ := ih m1 P.inv (by omega)
    exact ⟨m2, by unfold construct; rw [h1]; exact r1⟩

/-- A step of the constructor loop that returns is an `insert` that returns. -/
theorem construct_cons_ok {hasher_ : K → Nat} {el : K × V} {rest : List (K × V)}
    {m m2 : HashMap K V} (h : construct hasher_ (el :: rest) m = .ok m2) :
    ∃ (m1 : HashMap K V) (idx : Nat), insert hasher_ m el = .ok (m1, idx) ∧
      construct hasher_ rest m1 = .ok m2 := by
  unfold construct at h
  cases hins : insert hasher_ m el with
  | error e =>
    rw [hins] at h
    cases h
  | ok r =>
    obtain ⟨m1, idx⟩ := r
    rw [hins] at h
    exact ⟨m1, idx, rfl, h⟩

/-- The map the constructor loop returns holds, for each key that was not in the map, the
value of its first pair, and keeps the pairs that were in the map. -/
theorem construct_post {hasher_ : K → Nat} :
    ∀ (l : List (K × V)) (m m2 : HashMap K V), Inv hasher_ m →
      construct hasher_ l m = .ok m2 →
      Inv hasher_ m2 ∧
        ∀ k v, Holds m2.table_ k v ↔ (Holds m.table_ k v ∨ (¬ HasKey m.table_ k ∧
          (l.find? (fun p => decide (p.1 = k))).map Prod.snd = some v)) := by
  intro l
  induction l with
  | nil =>
    intro m m2 I h
    cases h
    exact ⟨I, by simp⟩
  | cons el rest ih =>
    intro m m2 I h
    obtain ⟨m1, idx, h1, h2⟩ := construct_cons_ok h
    have P := (insert_post I h1).2
    obtain ⟨r2, r3⟩ := ih m1 m2 P.inv h2
    refine ⟨r2, ?_⟩
    intro k v
    rw [r3]
    by_cases hk : HasKey m.table_ el.1
    · obtain ⟨_, hh, _⟩ := P.old hk
      have hkey : HasKey m1.table_ k ↔ HasKey m.table_ k := by
        rw [hasKey_iff_holds, hasKey_iff_holds]
        exact exists_congr (fun w => hh k w)
      rw [hh, hkey]
      by_cases hek : el.1 = k
      · have hB : HasKey m.table_ k := hek ▸ hk
        constructor
        · rintro (h | ⟨h, _⟩)
          · exact Or.inl h
          · exact absurd hB h
        · rintro (h | ⟨h, _⟩)
          · exact Or.inl h
          · exact absurd hB h
      · rw [List.find?_cons_of_neg _ (by simpa using hek)]
    · obtain ⟨_, hh, _⟩ := P.new hk
      have hkey : HasKey m1.table_ k ↔ (HasKey m.table_ k ∨ k = el.1) := by
        rw [hasKey_iff_holds, hasKey_iff_holds]
        constructor
        · rintro ⟨w, hw⟩
          rcases (hh k w).mp hw with h | h
          · exact Or.inl ⟨w, h⟩
          · exact Or.inr (by rw [← h])
        · rintro (⟨w, hw⟩ | h)
          · exact ⟨w, (hh k w).mpr (Or.inl hw)⟩
          · exact ⟨el.2, (hh k el.2).mpr (Or.inr (by rw [h]))⟩
      rw [hh, hkey]
      by_cases hek : el.1 = k
      · have hB : ¬ HasKey m.table_ k := hek ▸ hk
        rw [List.find?_cons_of_pos _ (by simpa using hek)]
        constructor
        · rintro ((h | h) | ⟨h, _⟩)
          · exact absurd (holds_hasKey h) hB
          · exact Or.inr ⟨hB, by rw [← h]; rfl⟩
          · exact absurd (Or.inr hek.symm) h
        · rintro (h | ⟨_, h⟩)
          · exact absurd (holds_hasKey h) hB
          · left; right
            simp only [Option.map_some', Option.some.injEq] at h
            rw [← h, ← hek]
      · rw [List.find?_cons_of_neg _ (by simpa using hek)]
        constructor
        · rintro ((h | h) | ⟨h, h2⟩)
          · exact Or.inl h
          · exact absurd (by rw [← h]) hek
          · exact Or.inr ⟨fun hb => h (Or.inl hb), h2⟩
        · rintro (h | ⟨h, h2⟩)
          · exact Or.inl (Or.inl h)
          · refine Or.inr ⟨?_, h2⟩
            rintro (hb | hb)
            · exact h hb
            · exact hek hb.symm

end

section

variable {K V : Type}

/-- The triple `(size_, capacity_, simple_capacity_id)` after `insert` of a new key. -/
theorem insert_shape {hasher_ : K → Nat} {m m1 : HashMap K V} {el : K × V} {idx : Nat}
    (P : InsertPost hasher_ m el m1 idx) (hk : ¬ HasKey m.table_ el.1) :
    m1.shape = shape_step m.shape := by
  unfold HashMap.shape shape_step
  obtain ⟨hs, _, _⟩ := P.new hk
  by_cases hload : 9 * m.capacity_ ≤ 10 * m.size_
  · obtain ⟨g1, g2, _⟩ := P.grow hload
    rw [if_pos hload]
    simp only []
    rw [← g1, g2, hs]
    rfl
  · obtain ⟨a, b⟩ := P.stay (by omega)
    rw [if_neg hload, hs, a, b]

end

section

variable {K V : Type} [DecidableEq K] [Inhabited K] [Inhabited V]

/-- The constructor loop on pairwise distinct new keys moves the triple `(size_, capacity_,
simple_capacity_id)` by one `shape_step` per pair. -/
theorem construct_shape (hasher_ : K → Nat) :
    ∀ (l : List (K × V)) (m : HashMap K V), Inv hasher_ m →
      m.size_ + l.length ≤ 350199800 → (l.map Prod.fst).Nodup →
      (∀ p ∈ l, ¬ HasKey m.table_ p.1) →
      ∃ m1 : HashMap K V, construct hasher_ l m = .ok m1 ∧ Inv hasher_ m1 ∧
        m1.shape = shape_step^[l.length] m.shape := by
  intro l
  induction l with
  | nil =>
    intro m I _ _ _
    exact ⟨m, rfl, I, rfl⟩
  | cons el rest ih =>
    intro m I hlen hnd hfresh
    simp only [List.length_cons] at hlen
    simp only [List.map_cons, List.nodup_cons] at hnd
    obtain ⟨m1, idx, h1, P⟩ := insert_spec I (hasRoom_of_size_le (by omega)) el
    have hk : ¬ HasKey m.table_ el.1 := hfresh el (List.mem_cons_self _ _)
    obtain ⟨hs, hh, _⟩ := P.new hk
    obtain ⟨m2, r1, r2, r3⟩ := ih m1 P.inv (by omega) hnd.2 (by
      intro p hp hpk
      obtain ⟨w, hw⟩ := hasKey_holds hpk
      rcases (hh _ _).mp hw with h | h
      · exact hfresh p (List.mem_cons_of_mem _ hp) (holds_hasKey h)
      · exact hnd.1 (List.mem_map.mpr ⟨p, hp, by rw [← h]⟩))
    refine ⟨m2, by unfold construct; rw [h1]; exact r1, r2, ?_⟩
    rw [r3, insert_shape P hk, List.length_cons, Function.iterate_succ_apply]

end

/-! ## Construction, load factor and capacity (C6, C8, C9, C10) -/

section

variable {K V : Type} [DecidableEq K] [Inhabited K] [Inhabited V]

/-- C6: for every list of pairs and every hasher, the constructor is the insertion of the
pairs one by one, left to right, into a fresh map; it returns for every list of at most
`350199800` pairs; and whenever it returns, `size()` of the map is the number of distinct
keys of the list, `at k` is the value of the first pair with key `k`, and `at k` throws for
a key that is not in the list. -/
theorem construct_first_wins (hasher_ : K → Nat) (l : List (K × V)) :
    construct hasher_ l HashMap.init = insert_one_by_one hasher_ l HashMap.init ∧
    (l.length ≤ 350199800 → ∃ m : HashMap K V, construct hasher_ l HashMap.init = .ok m) ∧
    ∀ m : HashMap K V, construct hasher_ l HashMap.init = .ok m →
      m.size = (l.map Prod.fst).toFinset.card ∧
      ∀ k, at_ hasher_ m k =
        match l.find? (fun p => decide (p.1 = k)) with
        | some p => .ok p.2
        | none => .error .out_of_range_key := by
  refine ⟨construct_eq_fold hasher_ l _, ?_, ?_⟩
  · intro hlen
    exact construct_returns l HashMap.init (inv_init hasher_)
      (by show 0 + l.length ≤ _; omega)
  intro m r1
  obtain ⟨r2, r3⟩ := construct_post l HashMap.init m (inv_init hasher_) r1
  have hnone : ∀ k, ¬ HasKey (HashMap.init : HashMap K V).table_ k := by
    rintro k ⟨i, nd, h, _⟩
    simp [HashMap.init] at h
  have hholds : ∀ k v, Holds m.table_ k v ↔
      (l.find? (fun p => decide (p.1 = k))).map Prod.snd = some v := by
    intro k v
    rw [r3]
    constructor
    · rintro (h | ⟨_, h⟩)
      · exact absurd (holds_hasKey h) (hnone k)
      · exact h
    · intro h
      exact Or.inr ⟨hnone k, h⟩
  refine ⟨?_, ?_⟩
  · apply r2.size_eq_card
    intro k
    rw [hasKey_iff_holds, List.mem_toFinset, List.mem_map]
    constructor
    · rintro ⟨v, hv⟩
      have h := (hholds k v).mp hv
      cases hf : l.find? (fun p => decide (p.1 = k)) with
      | none => rw [hf] at h; cases h
      | some p =>
        exact ⟨p, List.mem_of_find?_eq_some hf, by simpa using List.find?_some hf⟩
    · rintro ⟨p, hp, hpk⟩
      cases hf : l.find? (fun p => decide (p.1 = k)) with
      | none =>
        have := List.find?_eq_none.mp hf p hp
        simp [hpk] at this
      | some q => exact ⟨q.2, (hholds k q.2).mpr (by rw [hf]; rfl)⟩
  · intro k
    cases hf : l.find? (fun p => decide (p.1 = k)) with
    | none =>
      simp only []
      rcases at_spec r2 k with ⟨s, nd, _, f2, f3, f4⟩ | ⟨f1, _⟩
      · have h := (hholds k nd.value.2).mp ⟨s, nd, f2, f3, by rw [← f4]⟩
        rw [hf] at h
        cases h
      · exact f1
    | some p =>
      simp only []
      have hp : Holds m.table_ k p.2 := (hholds k p.2).mpr (by rw [hf]; rfl)
      rcases at_spec r2 k with ⟨s, nd, f1, f2, f3, f4⟩ | ⟨_, f2⟩
      · rw [f1, r2.value_of_slot hp f2 f3 f4]
      · exact absurd (holds_hasKey hp) f2

/-- C6 at the list `[(1, "a"), (1, "b")]`: the constructor returns a map with `size() == 1`
and `at(1) == "a"`. -/
theorem construct_first_wins_witness :
    ∃ m : HashMap Nat String,
      construct identity_hasher [(1, "a"), (1, "b")] HashMap.init = .ok m ∧
      m.size = 1 ∧ at_ identity_hasher m 1 = .ok "a" := by
  obtain ⟨_, h2, h3⟩ := construct_first_wins identity_hasher [((1 : Nat), "a"), (1, "b")]
  obtain ⟨m, hm⟩ := h2 (by decide)
  obtain ⟨h4, h5⟩ := h3 m hm
  exact ⟨m, hm, h4, h5 1⟩

/-- C8 fails as stated: `insert({2, 20})` on the reachable map `map_one` (capacity 2, size
1, load test `18 ≤ 10` false) returns the map `map_two` of size 2 and capacity 2, above the
load factor 0.9. -/
theorem load_bound_counterexample :
    Reachable identity_hasher map_one ∧
    insert identity_hasher map_one (2, 20) = .ok (map_two, 0) ∧
    ¬ (10 * map_two.size ≤ 9 * map_two.capacity_) :=
  ⟨reachable_map_one, rfl, by decide⟩

/-- C8, amended: after `insert` has returned on a reachable map, `10 * size < 9 * capacity
+ 10`; more precisely a duplicate key leaves `10 * size < 9 * capacity` and a new key
leaves `10 * (size - 1) < 9 * capacity`, because the load factor is tested before the
element is added.  The array grows exactly when the call starts with
`9 * capacity ≤ 10 * size`. -/
theorem load_bound_after_insert (hasher_ : K → Nat) (m m1 : HashMap K V) (el : K × V)
    (idx : Nat) (hR : Reachable hasher_ m) (h : insert hasher_ m el = .ok (m1, idx)) :
    10 * m1.size < 9 * m1.capacity_ + 10 ∧
    (HasKey m.table_ el.1 → 10 * m1.size < 9 * m1.capacity_) ∧
    (¬ HasKey m.table_ el.1 → 10 * (m1.size - 1) < 9 * m1.capacity_) ∧
    (9 * m.capacity_ ≤ 10 * m.size → (m.capacity_ + 1) * 2 ≤ m1.capacity_) ∧
    (10 * m.size < 9 * m.capacity_ → m1.capacity_ = m.capacity_) := by
  have P := (insert_post hR.inv h).2
  unfold HashMap.size
  refine ⟨?_, fun hk => (P.old hk).2.2, ?_, fun hg => (P.grow hg).2.2, fun hs => (P.stay hs).1⟩
  · by_cases hk : HasKey m.table_ el.1
    · have := (P.old hk).2.2; omega
    · obtain ⟨a, _, c⟩ := P.new hk; omega
  · intro hk
    obtain ⟨a, _, c⟩ := P.new hk
    omega

/-- C8, amended, at the map `map_one` and the pair `(2, 20)`. -/
theorem load_bound_after_insert_witness :
    Reachable identity_hasher map_one ∧
    insert identity_hasher map_one (2, 20) = .ok (map_two, 0) ∧
    (10 * map_two.size < 9 * map_two.capacity_ + 10 ∧
    (HasKey map_one.table_ 2 → 10 * map_two.size < 9 * map_two.capacity_) ∧
    (¬ HasKey map_one.table_ 2 → 10 * (map_two.size - 1) < 9 * map_two.capacity_) ∧
    (9 * map_one.capacity_ ≤ 10 * map_one.size →
      (map_one.capacity_ + 1) * 2 ≤ map_two.capacity_) ∧
    (10 * map_one.size < 9 * map_one.capacity_ → map_two.capacity_ = map_one.capacity_)) :=
  ⟨reachable_map_one, rfl,
    load_bound_after_insert identity_hasher map_one map_two (2, 20) 0 reachable_map_one rfl⟩

end

section

variable {K V : Type}

/-- C9: for every cursor position and every `min_required` above the last entry
`778221781`, `get_next_simple` does not throw: its loop stops with the cursor at or
beyond `CAPACITIES_SIZE` and the test after the loop reads `SIMPLE_CAPACITIES` there, outside
its 72 entries. -/
theorem get_next_simple_reads_past_end (m : HashMap K V) (d : Nat) :
    get_next_simple m (778221782 + d) = .error .undefined_behaviour :=
  get_next_simple_exhausted m _ (by omega)

end

section

variable {K V : Type} [Inhabited V]

/-- C10: inserting the keys `1, 2, ..., 1000` in this order, with any values, into a fresh
map under the identity hasher gives a map of size `1000` and capacity `1181`, and `1181` is
the smallest entry `c` of the capacity sequence with `1000 ≤ 0.9 * c`. -/
theorem scenario_thousand_keys (vals : Nat → V) :
    ∃ m : HashMap Nat V,
      construct identity_hasher ((List.range' 1 1000).map (fun k => (k, vals k)))
        HashMap.init = .ok m ∧
      m.size = 1000 ∧ m.capacity_ = 1181 ∧
      1181 ∈ SIMPLE_CAPACITIES ∧ 10 * 1000 ≤ 9 * 1181 ∧
      ∀ c ∈ SIMPLE_CAPACITIES, 10 * 1000 ≤ 9 * c → 1181 ≤ c := by
  obtain ⟨m, r1, _, r3⟩ := construct_shape identity_hasher
    ((List.range' 1 1000).map (fun k => (k, vals k))) HashMap.init (inv_init _)
    (by
      rw [List.length_map, List.length_range']
      show 0 + 1000 ≤ 350199800
      omega)
    (by
      rw [List.map_map]
      have hid : (Prod.fst ∘ fun k => (k, vals k)) = id := rfl
      rw [hid, List.map_id]
      exact List.nodup_range' 1 1000)
    (by
      rintro p _ ⟨i, nd, h, _⟩
      simp [HashMap.init] at h)
  rw [List.length_map, List.length_range'] at r3
  have hshape : m.shape = (1000, 1181, 20) := by
    rw [r3]
    exact shape_step_thousand
  unfold HashMap.shape at hshape
  refine ⟨m, r1, (Prod.mk.inj hshape).1, (Prod.mk.inj (Prod.mk.inj hshape).2).1, by decide,
    by decide, by decide⟩

end

/-! ## Traversal (C7) -/

section

variable {K V : Type}

theorem drop_of_slot {t : List (Node K V)} {it : Nat} {nd : Node K V} (h : t[it]? = some nd) :
    t.drop it = nd :: t.drop (it + 1) := by
  obtain ⟨hlt, hx⟩ := List.getElem?_eq_some.mp h
  rw [List.drop_eq_getElem_cons hlt, hx]

theorem occ_idx_length : ∀ (t : List (Node K V)) (i : Nat), (occ_idx t i).length = occupied t := by
  intro t
  induction t with
  | nil => intro i; rfl
  | cons nd t ih =>
    intro i
    unfold occ_idx occupied
    by_cases h : nd.empty = true
    · rw [if_pos h, List.countP_cons_of_neg _ _ (by simp [h])]
      exact ih (i + 1)
    · rw [if_neg h, List.countP_cons_of_pos _ _ (by simpa using h), List.length_cons]
      have := ih (i + 1)
      unfold occupied at this
      omega

theorem mem_occ_idx : ∀ (t : List (Node K V)) (i j : Nat),
    j ∈ occ_idx t i ↔ i ≤ j ∧ ∃ nd : Node K V, t[j - i]? = some nd ∧ nd.empty = false := by
  intro t
  induction t with
  | nil => intro i j; simp [occ_idx]
  | cons nd t ih =>
    intro i j
    have hstep : ∀ (h : i + 1 ≤ j), (nd :: t)[j - i]? = t[j - (i + 1)]? := by
      intro h
      rw [show j - i = (j - (i + 1)) + 1 by omega, List.getElem?_cons_succ]
    unfold occ_idx
    by_cases h : nd.empty = true
    · rw [if_pos h, ih]
      constructor
      · rintro ⟨h1, x, h2, h3⟩
        exact ⟨by omega, x, by rw [hstep h1]; exact h2, h3⟩
      · rintro ⟨h1, x, h2, h3⟩
        have hij : i ≠ j := by
          intro hij
          subst hij
          simp at h2
          subst h2
          rw [h] at h3
          cases h3
        have h4 : i + 1 ≤ j := by omega
        exact ⟨h4, x, by rw [← hstep h4]; exact h2, h3⟩
    · rw [if_neg h, List.mem_cons, ih]
      constructor
      · rintro (h1 | ⟨h1, x, h2, h3⟩)
        · subst h1
          exact ⟨le_refl _, nd, by simp, by simpa using h⟩
        · exact ⟨by omega, x, by rw [hstep h1]; exact h2, h3⟩
      · rintro ⟨h1, x, h2, h3⟩
        by_cases hij : j = i
        · exact Or.inl hij
        · have h4 : i + 1 ≤ j := by omega
          exact Or.inr ⟨h4, x, by rw [← hstep h4]; exact h2, h3⟩

theorem occ_idx_sorted : ∀ (t : List (Node K V)) (i : Nat),
    (occ_idx t i).Pairwise (fun a b => a < b) := by
  intro t
  induction t with
  | nil => intro i; exact List.Pairwise.nil
  | cons nd t ih =>
    intro i
    unfold occ_idx
    by_cases h : nd.empty = true
    · rw [if_pos h]
      exact ih (i + 1)
    · rw [if_neg h, List.pairwise_cons]
      refine ⟨?_, ih (i + 1)⟩
      intro b hb
      have := ((mem_occ_idx t (i + 1) b).mp hb).1
      omega

/-- The loop of `find_next_element` stops on the next occupied slot or on `end()`. -/
theorem skip_empty_spec (t : List (Node K V)) :
    ∀ n it, t.length ≤ it + n → it ≤ t.length →
      occ_idx (t.drop (skip_empty t n it)) (skip_empty t n it) = occ_idx (t.drop it) it ∧
      it ≤ skip_empty t n it ∧ skip_empty t n it ≤ t.length ∧
      ∀ nd : Node K V, t[skip_empty t n it]? = some nd → nd.empty = false := by
  intro n
  induction n with
  | zero =>
    intro it h1 h2
    unfold skip_empty
    refine ⟨rfl, le_refl _, h2, ?_⟩
    intro nd hnd
    have := getElem?_lt hnd
    omega
  | succ n ih =>
    intro it h1 h2
    unfold skip_empty
    cases hnd : t[it]? with
    | none =>
      refine ⟨rfl, le_refl _, h2, ?_⟩
      intro nd h
      rw [hnd] at h
      cases h
    | some nd =>
      show occ_idx (t.drop (if nd.empty then skip_empty t n (it + 1) else it))
          (if nd.empty then skip_empty t n (it + 1) else it) = occ_idx (t.drop it) it ∧
        it ≤ (if nd.empty then skip_empty t n (it + 1) else it) ∧
        (if nd.empty then skip_empty t n (it + 1) else it) ≤ t.length ∧
        ∀ x : Node K V, t[if nd.empty then skip_empty t n (it + 1) else it]? = some x →
          x.empty = false
      have hlt := getElem?_lt hnd
      by_cases he : nd.empty = true
      · rw [if_pos he]
        obtain ⟨r1, r2, r3, r4⟩ := ih (it + 1) (by omega) (by omega)
        refine ⟨?_, by omega, r3, r4⟩
        rw [r1, drop_of_slot hnd]
        conv_rhs => unfold occ_idx
        rw [if_pos he]
      · rw [if_neg he]
        refine ⟨rfl, le_refl _, h2, ?_⟩
        intro x hx
        rw [hnd] at hx
        cases hx
        simpa using he

/-- The traversal from an occupied position, or from `end()`, visits the occupied slots from
there on. -/
theorem traverse_from_spec (t : List (Node K V)) :
    ∀ n it, t.length < it + n → it ≤ t.length →
      (∀ nd : Node K V, t[it]? = some nd → nd.empty = false) →
      traverse_from t n it = .ok (occ_idx (t.drop it) it) := by
  intro n
  induction n with
  | zero => intro it h1 h2 _; omega
  | succ n ih =>
    intro it h1 h2 hocc
    unfold traverse_from
    by_cases hend : it = t.length
    · rw [if_pos hend, hend, List.drop_length]
      rfl
    · rw [if_neg hend]
      have hlt : it < t.length := by omega
      obtain ⟨nd, hnd⟩ := getElem?_some_of_lt hlt
      have he := hocc nd hnd
      obtain ⟨r1, r2, r3, r4⟩ := skip_empty_spec t t.length (it + 1) (by omega) (by omega)
      unfold find_next_element
      rw [if_pos hlt]
      simp only []
      rw [ih _ (by omega) r3 r4]
      simp only []
      rw [r1, drop_of_slot hnd]
      conv_rhs => unfold occ_idx
      rw [he]
      simp

/-- The traversal from `begin()` visits the occupied slots of the array, in order. -/
theorem traverse_eq {m : HashMap K V} (hsize : m.size_ = occupied m.table_) :
    traverse m = .ok (occ_idx m.table_ 0) := by
  unfold traverse HashMap.begin_
  by_cases h0 : m.size_ = 0
  · rw [if_pos h0]
    simp only [HashMap.end_]
    have hnil : occ_idx m.table_ 0 = [] := by
      apply List.eq_nil_of_length_eq_zero
      rw [occ_idx_length, ← hsize, h0]
    rw [traverse_from_spec m.table_ _ _ (by omega) (le_refl _)
      (fun nd h => absurd (getElem?_lt h) (by omega)), List.drop_length, hnil]
    rfl
  · rw [if_neg h0]
    have hlen : 0 < m.table_.length := by
      have : occupied m.table_ ≤ m.table_.length := List.countP_le_length _
      omega
    obtain ⟨nd, hnd⟩ := getElem?_some_of_lt hlen
    rw [hnd]
    simp only []
    by_cases he : nd.empty = true
    · rw [if_pos he]
      obtain ⟨r1, r2, r3, r4⟩ := skip_empty_spec m.table_ m.table_.length (0 + 1) (by omega)
        (by omega)
      unfold find_next_element
      rw [if_pos hlen]
      simp only []
      rw [traverse_from_spec m.table_ _ _ (by omega) r3 r4, r1]
      have hd := drop_of_slot hnd
      rw [List.drop_zero] at hd
      conv_rhs => rw [hd]; unfold occ_idx
      rw [if_pos he]
    · rw [if_neg he]
      simp only []
      rw [traverse_from_spec m.table_ _ 0 (by omega) (by omega)
        (fun x hx => by rw [hnd] at hx; cases hx; simpa using he), List.drop_zero]

end

section

variable {K V : Type} [DecidableEq K] [Inhabited K] [Inhabited V]

/-- C7: on every reachable map the traversal from `begin()` by `++` up to `end()` returns;
the positions it visits are strictly increasing and are exactly the occupied slots of the
array; their number is `size()`; two visited positions with the same key are the same
position; and for the key of each visited slot `find` designates that slot and `at` returns
its value. -/
theorem traverse_visits_occupied (hasher_ : K → Nat) (m : HashMap K V)
    (hR : Reachable hasher_ m) :
    ∃ visited : List Nat, traverse m = .ok visited ∧
      visited.Pairwise (fun a b => a < b) ∧
      (∀ i, i ∈ visited ↔ ∃ nd : Node K V, m.table_[i]? = some nd ∧ nd.empty = false) ∧
      visited.length = m.size ∧
      (∀ (i j : Nat) (ni nj : Node K V), i ∈ visited → j ∈ visited →
        m.table_[i]? = some ni → m.table_[j]? = some nj → ni.value.1 = nj.value.1 → i = j) ∧
      (∀ (i : Nat) (nd : Node K V), i ∈ visited → m.table_[i]? = some nd →
        find hasher_ m nd.value.1 = .ok (i, m.table_.length) ∧
        at_ hasher_ m nd.value.1 = .ok nd.value.2) := by
  have I := hR.inv
  have hmem : ∀ i, i ∈ occ_idx m.table_ 0 ↔
      ∃ nd : Node K V, m.table_[i]? = some nd ∧ nd.empty = false := by
    intro i
    rw [mem_occ_idx]
    simp
  have hfind : ∀ (i : Nat) (nd : Node K V), i ∈ occ_idx m.table_ 0 → m.table_[i]? = some nd →
      find_element_index hasher_ m nd.value.1 = .ok (some i) := by
    intro i nd hi hnd
    obtain ⟨x, hx, hxe⟩ := (hmem i).mp hi
    rw [hnd] at hx
    cases hx
    exact find_element_index_present I hnd hxe
  refine ⟨occ_idx m.table_ 0, traverse_eq I.size_eq, occ_idx_sorted _ _, hmem, ?_, ?_, ?_⟩
  · rw [occ_idx_length]
    exact I.size_eq.symm
  · intro i j ni nj hi hj h1 h2 h3
    obtain ⟨x, hx, hxe⟩ := (hmem i).mp hi
    obtain ⟨y, hy, hye⟩ := (hmem j).mp hj
    rw [h1] at hx
    rw [h2] at hy
    cases hx
    cases hy
    exact I.tbl.uniq i j ni nj h1 h2 hxe hye h3
  · intro i nd hi hnd
    have hf := hfind i nd hi hnd
    have h0 : m.size_ ≠ 0 := by
      obtain ⟨x, hx, hxe⟩ := (hmem i).mp hi
      have := occupied_pos_of_slot hx hxe
      rw [I.size_eq]
      omega
    constructor
    · unfold find
      rw [hf]
    · unfold at_
      rw [if_neg h0, hf]
      simp only []
      rw [hnd]

/-- C7 at the map `map_full`: both slots are visited. -/
theorem traverse_visits_occupied_witness :
    Reachable identity_hasher map_full ∧
    ∃ visited : List Nat, traverse map_full = .ok visited ∧
      visited.Pairwise (fun a b => a < b) ∧
      (∀ i, i ∈ visited ↔
        ∃ nd : Node Nat Nat, map_full.table_[i]? = some nd ∧ nd.empty = false) ∧
      visited.length = map_full.size ∧
      (∀ (i j : Nat) (ni nj : Node Nat Nat), i ∈ visited → j ∈ visited →
        map_full.table_[i]? = some ni → map_full.table_[j]? = some nj →
        ni.value.1 = nj.value.1 → i = j) ∧
      (∀ (i : Nat) (nd : Node Nat Nat), i ∈ visited → map_full.table_[i]? = some nd →
        find identity_hasher map_full nd.value.1 = .ok (i, map_full.table_.length) ∧
        at_ identity_hasher map_full nd.value.1 = .ok nd.value.2) :=
  ⟨reachable_map_full, traverse_visits_occupied identity_hasher map_full reachable_map_full⟩

end

/-! ## The exhaustive scan -/

section

variable {K V : Type} [DecidableEq K]

theorem exhaustive_scan_some (key : K) :
    ∀ (t : List (Node K V)) (b j : Nat), exhaustive_scan key t b = some j →
      b ≤ j ∧ ∃ nd : Node K V, t[j - b]? = some nd ∧ nd.empty = false ∧ nd.value.1 = key := by
  intro t
  induction t with
  | nil => intro b j h; cases h
  | cons nd rest ih =>
    intro b j h
    unfold exhaustive_scan at h
    by_cases hc : (!nd.empty && decide (nd.value.1 = key)) = true
    · rw [if_pos hc] at h
      cases h
      simp at hc
      exact ⟨le_refl _, nd, by simp, hc.1, hc.2⟩
    · rw [if_neg hc] at h
      obtain ⟨h1, x, h2, h3, h4⟩ := ih (b + 1) j h
      refine ⟨by omega, x, ?_, h3, h4⟩
      rw [show j - b = (j - (b + 1)) + 1 by omega, List.getElem?_cons_succ]
      exact h2

theorem exhaustive_scan_none (key : K) :
    ∀ (t : List (Node K V)) (b : Nat), exhaustive_scan key t b = none → ¬ HasKey t key := by
  intro t
  induction t with
  | nil =>
    rintro b _ ⟨i, nd, h, _⟩
    simp at h
  | cons nd rest ih =>
    intro b h
    unfold exhaustive_scan at h
    by_cases hc : (!nd.empty && decide (nd.value.1 = key)) = true
    · rw [if_pos hc] at h
      cases h
    · rw [if_neg hc] at h
      have hrest := ih (b + 1) h
      rintro ⟨i, x, h1, h2, h3⟩
      cases i with
      | zero =>
        simp at h1
        subst h1
        apply hc
        simp [h2, h3]
      | succ i =>
        rw [List.getElem?_cons_succ] at h1
        exact hrest ⟨i, x, h1, h2, h3⟩

end

/-! ## Lookup, position invariant and the unreachable fault (C11 to C13) -/

section

variable {K V : Type} [DecidableEq K] [Inhabited K] [Inhabited V]

/-- Below the load bound `insert` does not call `rehash`: every recursion budget gives the
result of budget one. -/
theorem insert_core_budget (hasher_ : K → Nat) (m : HashMap K V)
    (hload : 10 * m.size_ < 9 * m.capacity_) (el : K × V) (fuel : Nat) :
    insert_core hasher_ (fuel + 1) m el = insert_core hasher_ 1 m el := by
  have h1 : ¬ 9 * m.capacity_ ≤ 10 * m.size_ := by omega
  conv_lhs => unfold insert_core
  conv_rhs => unfold insert_core
  simp only [h1, if_false]

/-- The loop of `rehash` gives the same result when the `insert` it calls has a recursion
budget of one, which leaves no room for a nested `rehash`. -/
theorem reinsert_budget (hasher_ : K → Nat) (fuel : Nat) :
    ∀ (rest : List (Node K V)) (m : HashMap K V), Inv hasher_ m →
      10 * (m.size_ + rest.length) < 9 * m.capacity_ → DistinctKeys rest →
      (∀ nd ∈ rest, nd.empty = false → ¬ HasKey m.table_ nd.value.1) →
      reinsert (insert_core hasher_ (fuel + 1)) rest m
        = reinsert (insert_core hasher_ 1) rest m := by
  intro rest
  induction rest with
  | nil => intro m _ _ _ _; rfl
  | cons node rest ih =>
    intro m I hload hd hfresh
    have hd2 := List.pairwise_cons.mp hd
    simp only [List.length_cons] at hload
    conv_lhs => unfold reinsert
    conv_rhs => unfold reinsert
    by_cases hne : node.empty = true
    · simp only [hne, if_true]
      exact ih m I (by omega) hd2.2 (fun nd hnd => hfresh nd (List.mem_cons_of_mem _ hnd))
    · have hne' : node.empty = false := by simpa using hne
      simp only [hne', if_false, Bool.false_eq_true]
      have habs : ¬ HasKey m.table_ node.value.1 := hfresh node (List.mem_cons_self _ _) hne'
      rw [insert_core_budget hasher_ m (by omega) node.value fuel]
      obtain ⟨t1, idx, r1, r2, r3, r4, _⟩ := insert_core_absent I (by omega) node.value habs 0
      rw [r1]
      simp only []
      have I1 : Inv hasher_ (⟨m.size_ + 1, m.capacity_, t1, m.simple_capacity_id⟩ :
          HashMap K V) := ⟨r2, by show m.size_ + 1 = occupied t1; rw [r3, I.size_eq], I.cursor,
            I.cap_ok⟩
      exact ih _ I1 (by show 10 * (m.size_ + 1 + rest.length) < 9 * m.capacity_; omega) hd2.2
        (by
          intro nd hnd hnde hk
          obtain ⟨v, hv⟩ := hasKey_holds hk
          rcases (r4 _ _).mp hv with h | h
          · exact hfresh nd (List.mem_cons_of_mem _ hnd) hnde (holds_hasKey h)
          · exact hd2.1 nd hnd hne' hnde (by rw [← h]))

/-- `rehash` on a map satisfying the invariants: it returns exactly when the capacity can be
doubled inside the sequence, it keeps the pairs and the size, it ends below the load bound,
and a recursion budget of one for the `insert` it calls gives the same map. -/
theorem rehash_result {hasher_ : K → Nat} {m : HashMap K V} (I : Inv hasher_ m) :
    ((m.capacity_ + 1) * 2 ≤ 778221781 →
      ∃ m1 : HashMap K V, rehash hasher_ m = .ok m1 ∧ Inv hasher_ m1 ∧ m1.size_ = m.size_ ∧
        (∀ k v, Holds m1.table_ k v ↔ Holds m.table_ k v) ∧
        10 * m1.size_ < 9 * m1.capacity_ ∧
        (m.capacity_ + 1) * 2 ≤ m1.capacity_ ∧
        rehash_with (insert_core hasher_ 1) m = .ok m1) ∧
    (778221781 < (m.capacity_ + 1) * 2 → rehash hasher_ m = .error .undefined_behaviour) := by
  constructor
  · intro hcap
    obtain ⟨m1, r1, r2, r3, r4, r5, _, _, r8⟩ := rehash_with_spec I hcap CAPACITIES_SIZE
    refine ⟨m1, r1, r2, r3, r4, r5, r8, ?_⟩
    have r1' := r1
    unfold rehash_with at r1' ⊢
    obtain ⟨id, c, e1, e2, e3, e4, _, _⟩ := resize_ok m hcap I.cursor
    rw [e1] at r1' ⊢
    simp only [] at r1' ⊢
    have I0 : Inv hasher_ (⟨0, c, List.replicate c Node.fresh, id⟩ : HashMap K V) :=
      ⟨tableInv_replicate hasher_ c _ rfl, (occupied_replicate c _ rfl).symm, e2, Or.inr e3⟩
    have hocc_le : occupied m.table_ ≤ m.table_.length := List.countP_le_length _
    rw [← reinsert_budget hasher_ CAPACITIES_SIZE m.table_ _ I0
      (by show 10 * (0 + m.table_.length) < 9 * c; rw [I.tbl.len]; omega)
      I.tbl.distinctKeys
      (by
        rintro nd _ _ ⟨i, x, h1, h2, _⟩
        exact not_holds_replicate c Node.fresh rfl x.value.1 x.value.2 ⟨i, x, h1, h2, rfl⟩)]
    exact r1'
  · intro hcap
    unfold rehash rehash_with
    simp only [resize_exhausted m hcap]

/-- C11: on every reachable map `find_element_index` returns what the exhaustive scan of
the array returns; it returns the index `i` exactly when slot `i` is occupied and holds the
key, and it returns not-found exactly when no occupied slot holds the key, so the early
exits never miss a key that is present. -/
theorem find_agrees_with_scan (hasher_ : K → Nat) (m : HashMap K V) (k : K)
    (hR : Reachable hasher_ m) :
    find_element_index hasher_ m k = .ok (exhaustive_scan k m.table_ 0) ∧
    (∀ i, find_element_index hasher_ m k = .ok (some i) ↔
      ∃ nd : Node K V, m.table_[i]? = some nd ∧ nd.empty = false ∧ nd.value.1 = k) ∧
    (find_element_index hasher_ m k = .ok none ↔ ¬ HasKey m.table_ k) := by
  have I := hR.inv
  refine ⟨?_, ?_, ?_⟩
  · cases hs : exhaustive_scan k m.table_ 0 with
    | none => exact find_element_index_absent I (exhaustive_scan_none k _ _ hs)
    | some j =>
      obtain ⟨_, nd, h1, h2, h3⟩ := exhaustive_scan_some k _ _ _ hs
      rw [Nat.sub_zero] at h1
      rw [← h3]
      exact find_element_index_present I h1 h2
  · intro i
    constructor
    · intro h
      rcases find_element_index_spec I k with ⟨s, nd, f1, f2, f3, f4⟩ | ⟨f1, _⟩
      · rw [f1] at h
        cases h
        exact ⟨nd, f2, f3, f4⟩
      · rw [f1] at h
        cases h
    · rintro ⟨nd, h1, h2, h3⟩
      rw [← h3]
      exact find_element_index_present I h1 h2
  · constructor
    · intro h
      rcases find_element_index_spec I k with ⟨s, nd, f1, _⟩ | ⟨_, f2⟩
      · rw [f1] at h
        cases h
      · exact f2
    · exact fun h => find_element_index_absent I h

/-- C11 at the map `map_full` with the stored key `1`. -/
theorem find_agrees_with_scan_witness :
    Reachable identity_hasher map_full ∧
    (find_element_index identity_hasher map_full 1
      = .ok (exhaustive_scan 1 map_full.table_ 0) ∧
    (∀ i, find_element_index identity_hasher map_full 1 = .ok (some i) ↔
      ∃ nd : Node Nat Nat, map_full.table_[i]? = some nd ∧ nd.empty = false ∧
        nd.value.1 = 1) ∧
    (find_element_index identity_hasher map_full 1 = .ok none ↔
      ¬ HasKey map_full.table_ 1)) :=
  ⟨reachable_map_full, find_agrees_with_scan identity_hasher map_full 1 reachable_map_full⟩

/-- C12: in every reachable map, and in every map `rehash` returns on a reachable map, an
occupied slot at index `i` with stored probe distance `d` satisfies
`i = (hash(key) mod capacity + d) mod capacity`. -/
theorem position_invariant (hasher_ : K → Nat) (m : HashMap K V) (hR : Reachable hasher_ m) :
    (∀ (i : Nat) (nd : Node K V), m.table_[i]? = some nd → nd.empty = false →
      i = (hasher_ nd.value.1 % m.capacity_ + nd.probe_seq_length) % m.capacity_) ∧
    ∀ m1 : HashMap K V, rehash hasher_ m = .ok m1 →
      ∀ (i : Nat) (nd : Node K V), m1.table_[i]? = some nd → nd.empty = false →
        i = (hasher_ nd.value.1 % m1.capacity_ + nd.probe_seq_length) % m1.capacity_ := by
  have I := hR.inv
  refine ⟨fun i nd h he => (I.tbl.home i nd h he).2, ?_⟩
  intro m1 h i nd hnd he
  by_cases hcap : (m.capacity_ + 1) * 2 ≤ 778221781
  · obtain ⟨m2, r1, r2, _⟩ := (rehash_result I).1 hcap
    rw [r1] at h
    cases h
    exact (r2.tbl.home i nd hnd he).2
  · rw [(rehash_result I).2 (by omega)] at h
    cases h

/-- C12 at the map `map_full`. -/
theorem position_invariant_witness :
    Reachable identity_hasher map_full ∧
    ((∀ (i : Nat) (nd : Node Nat Nat), map_full.table_[i]? = some nd → nd.empty = false →
      i = (identity_hasher nd.value.1 % map_full.capacity_ + nd.probe_seq_length)
        % map_full.capacity_) ∧
    ∀ m1 : HashMap Nat Nat, rehash identity_hasher map_full = .ok m1 →
      ∀ (i : Nat) (nd : Node Nat Nat), m1.table_[i]? = some nd → nd.empty = false →
        i = (identity_hasher nd.value.1 % m1.capacity_ + nd.probe_seq_length)
          % m1.capacity_) :=
  ⟨reachable_map_full, position_invariant identity_hasher map_full reachable_map_full⟩

/-- C13: on every reachable map `insert` never throws `std::logic_error` and never runs out
of recursion budget: it returns when the map has room, and otherwise ends in the
out-of-bounds read of `get_next_simple`.  After the optional `rehash` the size is below the
capacity.  The same holds for `rehash` and so for every reinsertion it performs. -/
theorem insert_never_logic_error (hasher_ : K → Nat) (m : HashMap K V) (el : K × V)
    (hR : Reachable hasher_ m) :
    insert hasher_ m el ≠ .error .logic_error ∧
    insert hasher_ m el ≠ .error .out_of_fuel ∧
    (HasRoom m → ∃ m1 idx, insert hasher_ m el = .ok (m1, idx)) ∧
    (¬ HasRoom m → insert hasher_ m el = .error .undefined_behaviour) ∧
    (10 * m.size_ < 9 * m.capacity_ → m.size_ < m.capacity_) ∧
    (∀ m1 : HashMap K V, rehash hasher_ m = .ok m1 → m1.size_ < m1.capacity_) ∧
    rehash hasher_ m ≠ .error .logic_error ∧
    rehash hasher_ m ≠ .error .out_of_fuel := by
  have I := hR.inv
  have hins : (HasRoom m → ∃ m1 idx, insert hasher_ m el = .ok (m1, idx)) ∧
      (¬ HasRoom m → insert hasher_ m el = .error .undefined_behaviour) := by
    constructor
    · intro hroom
      obtain ⟨m1, idx, h, _⟩ := insert_spec I hroom el
      exact ⟨m1, idx, h⟩
    · intro hroom
      unfold HasRoom at hroom
      exact insert_core_exhausted hasher_ m (by omega) (by omega) el (CAPACITIES_SIZE + 1)
  have hre := rehash_result I
  have hcases : ∀ f : Fault, f ≠ .undefined_behaviour → insert hasher_ m el ≠ .error f := by
    intro f hf h
    by_cases hroom : HasRoom m
    · obtain ⟨m1, idx, h1⟩ := hins.1 hroom
      rw [h1] at h
      cases h
    · rw [hins.2 hroom] at h
      cases h
      exact hf rfl
  have hcases2 : ∀ f : Fault, f ≠ .undefined_behaviour → rehash hasher_ m ≠ .error f := by
    intro f hf h
    by_cases hcap : (m.capacity_ + 1) * 2 ≤ 778221781
    · obtain ⟨m1, h1, _⟩ := hre.1 hcap
      rw [h1] at h
      cases h
    · rw [hre.2 (by omega)] at h
      cases h
      exact hf rfl
  refine ⟨hcases _ (by decide), hcases _ (by decide), hins.1, hins.2, fun h => by omega, ?_,
    hcases2 _ (by decide), hcases2 _ (by decide)⟩
  intro m1 h
  by_cases hcap : (m.capacity_ + 1) * 2 ≤ 778221781
  · obtain ⟨m2, h1, _, _, _, h5, _⟩ := hre.1 hcap
    rw [h1] at h
    cases h
    omega
  · rw [hre.2 (by omega)] at h
    cases h

/-- C13 at the full map `map_full` and the pair `(3, 30)`, where `insert` starts with a
`rehash`. -/
theorem insert_never_logic_error_witness :
    Reachable identity_hasher map_full ∧
    (insert identity_hasher map_full (3, 30) ≠ .error .logic_error ∧
    insert identity_hasher map_full (3, 30) ≠ .error .out_of_fuel ∧
    (HasRoom map_full → ∃ m1 idx, insert identity_hasher map_full (3, 30) = .ok (m1, idx)) ∧
    (¬ HasRoom map_full →
      insert identity_hasher map_full (3, 30) = .error .undefined_behaviour) ∧
    (10 * map_full.size_ < 9 * map_full.capacity_ → map_full.size_ < map_full.capacity_) ∧
    (∀ m1 : HashMap Nat Nat, rehash identity_hasher map_full = .ok m1 →
      m1.size_ < m1.capacity_) ∧
    rehash identity_hasher map_full ≠ .error .logic_error ∧
    rehash identity_hasher map_full ≠ .error .out_of_fuel) :=
  ⟨reachable_map_full,
    insert_never_logic_error identity_hasher map_full (3, 30) reachable_map_full⟩

end

/-! ## Growth, duplicate keys and the capacity (C14 to C16) -/

section

variable {K V : Type}

theorem reachable_map_three : Reachable identity_hasher map_three :=
  Reachable.insert reachable_map_full
    (rfl : insert identity_hasher map_full (3, 30) = .ok (map_three, 3))

theorem reachable_map_cleared : Reachable identity_hasher map_cleared :=
  Reachable.clear reachable_map_three

theorem capacities_sorted : SIMPLE_CAPACITIES.Pairwise (fun a b => a < b) := by decide

theorem capacities_lt_of_lt {i j a b : Nat} (hij : i < j) (hi : SIMPLE_CAPACITIES[i]? = some a)
    (hj : SIMPLE_CAPACITIES[j]? = some b) : a < b := by
  obtain ⟨h1, e1⟩ := List.getElem?_eq_some.mp hi
  obtain ⟨h2, e2⟩ := List.getElem?_eq_some.mp hj
  have := List.pairwise_iff_getElem.mp capacities_sorted i j h1 h2 hij
  rw [e1, e2] at this
  exact this

/-- The loop of `get_next_simple` passes only entries that are too small. -/
theorem advance_cursor_passed (min_capacity_ : Nat) :
    ∀ n id j, id ≤ j → j < advance_cursor min_capacity_ n id →
      ∃ c, SIMPLE_CAPACITIES[j]? = some c ∧ c < min_capacity_ := by
  intro n
  induction n with
  | zero =>
    intro id j h1 h2
    unfold advance_cursor at h2
    omega
  | succ n ih =>
    intro id j h1 h2
    unfold advance_cursor at h2
    by_cases hlt : id < CAPACITIES_SIZE
    · rw [if_pos hlt] at h2
      cases hc : SIMPLE_CAPACITIES[id]? with
      | none =>
        rw [hc] at h2
        simp only [] at h2
        omega
      | some c =>
        rw [hc] at h2
        simp only [] at h2
        by_cases hcm : c < min_capacity_
        · rw [if_pos hcm] at h2
          by_cases hj : j = id
          · subst hj
            exact ⟨c, hc, hcm⟩
          · exact ih (id + 1) j (by omega) h2
        · rw [if_neg hcm] at h2
          omega
    · rw [if_neg hlt] at h2
      omega

/-- C14 fails as stated: on the reachable map `map_cleared` (capacity 0 after `clear()`,
cursor left on the entry `7`) `insert` grows the array to capacity 7, although the entry `2`
of the sequence is at least `(0 + 1) * 2`. -/
theorem growth_capacity_counterexample :
    Reachable identity_hasher map_cleared ∧
    9 * map_cleared.capacity_ ≤ 10 * map_cleared.size ∧
    insert identity_hasher map_cleared (1, 10) = .ok (map_regrown, 1) ∧
    2 ∈ SIMPLE_CAPACITIES ∧ (map_cleared.capacity_ + 1) * 2 ≤ 2 ∧
    2 < map_regrown.capacity_ :=
  ⟨reachable_map_cleared, by decide, rfl, by decide, by decide, by decide⟩

end

section

variable {K V : Type} [DecidableEq K] [Inhabited K] [Inhabited V]

/-- C14, amended: when `insert` grows the array of a reachable map of capacity `c`, the new
capacity is the first entry of the sequence at or after the cursor that is at least
`(c + 1) * 2`; the cursor is never moved back, not even by `clear()`.  That entry is the
smallest entry of the whole sequence that is at least `(c + 1) * 2` whenever `c` is not `0`
or the cursor is at the start of the sequence. -/
theorem growth_capacity (hasher_ : K → Nat) (m m1 : HashMap K V) (el : K × V) (idx : Nat)
    (hR : Reachable hasher_ m) (hgrow : 9 * m.capacity_ ≤ 10 * m.size)
    (h : insert hasher_ m el = .ok (m1, idx)) :
    (m.capacity_ + 1) * 2 ≤ m1.capacity_ ∧
    m.simple_capacity_id ≤ m1.simple_capacity_id ∧
    SIMPLE_CAPACITIES[m1.simple_capacity_id]? = some m1.capacity_ ∧
    (∀ j c, m.simple_capacity_id ≤ j → j < m1.simple_capacity_id →
      SIMPLE_CAPACITIES[j]? = some c → c < (m.capacity_ + 1) * 2) ∧
    ((m.capacity_ ≠ 0 ∨ m.simple_capacity_id = 0) →
      ∀ c ∈ SIMPLE_CAPACITIES, (m.capacity_ + 1) * 2 ≤ c → m1.capacity_ ≤ c) := by
  have I := hR.inv
  obtain ⟨hroom, P⟩ := insert_post I h
  obtain ⟨g1, g2, g3⟩ := P.grow hgrow
  have hcap : (m.capacity_ + 1) * 2 ≤ 778221781 := by
    unfold HasRoom at hroom
    unfold HashMap.size at hgrow
    omega
  obtain ⟨_, _, _, _, a4⟩ := advance_cursor_ok ((m.capacity_ + 1) * 2) hcap CAPACITIES_SIZE
    m.simple_capacity_id (by omega) I.cursor
  have hpassed : ∀ j c, m.simple_capacity_id ≤ j → j < m1.simple_capacity_id →
      SIMPLE_CAPACITIES[j]? = some c → c < (m.capacity_ + 1) * 2 := by
    intro j c h1 h2 h3
    rw [g1] at h2
    obtain ⟨c2, e1, e2⟩ := advance_cursor_passed _ _ _ j h1 h2
    rw [h3] at e1
    cases e1
    exact e2
  refine ⟨g3, by rw [g1]; exact a4, g2, hpassed, ?_⟩
  intro hstart c hc hmin
  obtain ⟨j, hj⟩ := List.mem_iff_getElem?.mp hc
  by_cases hjr : j < m1.simple_capacity_id
  · exfalso
    by_cases hjid : m.simple_capacity_id ≤ j
    · have := hpassed j c hjid hjr hj
      omega
    · rcases hstart with h0 | h0
      · rcases I.cap_ok with h1 | h1
        · exact h0 h1
        · have := capacities_lt_of_lt (by omega) hj h1
          omega
      · omega
  · by_cases hjeq : j = m1.simple_capacity_id
    · subst hjeq
      rw [g2] at hj
      cases hj
      exact le_refl _
    · have := capacities_lt_of_lt (by omega) g2 hj
      omega

/-- C14, amended, at the full map `map_full` and the pair `(3, 30)`: the capacity grows from
2 to 7. -/
theorem growth_capacity_witness :
    Reachable identity_hasher map_full ∧ 9 * map_full.capacity_ ≤ 10 * map_full.size ∧
    insert identity_hasher map_full (3, 30) = .ok (map_three, 3) ∧
    ((map_full.capacity_ + 1) * 2 ≤ map_three.capacity_ ∧
    map_full.simple_capacity_id ≤ map_three.simple_capacity_id ∧
    SIMPLE_CAPACITIES[map_three.simple_capacity_id]? = some map_three.capacity_ ∧
    (∀ j c, map_full.simple_capacity_id ≤ j → j < map_three.simple_capacity_id →
      SIMPLE_CAPACITIES[j]? = some c → c < (map_full.capacity_ + 1) * 2) ∧
    ((map_full.capacity_ ≠ 0 ∨ map_full.simple_capacity_id = 0) →
      ∀ c ∈ SIMPLE_CAPACITIES, (map_full.capacity_ + 1) * 2 ≤ c → map_three.capacity_ ≤ c)) :=
  ⟨reachable_map_full, by decide, rfl,
    growth_capacity identity_hasher map_full map_three (3, 30) 3 reachable_map_full
      (by decide) rfl⟩

/-- C15 fails as stated: on the reachable full map `map_full`, `insert({1, 99})` of the
stored key `1` starts with a `rehash` and returns a map of capacity 7 instead of 2. -/
theorem duplicate_insert_counterexample :
    Reachable identity_hasher map_full ∧ HasKey map_full.table_ 1 ∧
    insert identity_hasher map_full (1, 99) = .ok (map_rehashed, 1) ∧
    map_rehashed.capacity_ ≠ map_full.capacity_ ∧ map_rehashed.table_ ≠ map_full.table_ :=
  ⟨reachable_map_full, by rw [hasKey_iff_any]; decide, rfl, by decide, by decide⟩

/-- C15, amended: on a reachable map, `insert` of a pair whose key is present performs no
mutation when the call starts below the load bound; when the call starts at or above the
load bound the map it returns is the map `rehash` returns.  In both cases the size and the
stored pairs are the same as before. -/
theorem duplicate_insert_frame (hasher_ : K → Nat) (m m1 : HashMap K V) (k : K) (v : V)
    (idx : Nat) (hR : Reachable hasher_ m) (hk : HasKey m.table_ k)
    (h : insert hasher_ m (k, v) = .ok (m1, idx)) :
    (10 * m.size < 9 * m.capacity_ → m1 = m) ∧
    (9 * m.capacity_ ≤ 10 * m.size → rehash hasher_ m = .ok m1) ∧
    m1.size = m.size ∧ ∀ k1 v1, Holds m1.table_ k1 v1 ↔ Holds m.table_ k1 v1 := by
  have I := hR.inv
  obtain ⟨hroom, P⟩ := insert_post I h
  obtain ⟨p1, p2, _⟩ := P.old hk
  unfold HashMap.size
  refine ⟨?_, ?_, p1, p2⟩
  · intro hload
    obtain ⟨s, nd, h1, h2, h3⟩ := hk
    have := insert_core_present I hload h1 h2 (k, v) h3.symm (CAPACITIES_SIZE + 1)
    unfold insert at h
    rw [this] at h
    cases h
    rfl
  · intro hgrow
    have hcap : (m.capacity_ + 1) * 2 ≤ 778221781 := by
      unfold HasRoom at hroom
      omega
    obtain ⟨m0, r1, r2, _, r4, r5, _⟩ := (rehash_result I).1 hcap
    rw [r1]
    have hk0 : HasKey m0.table_ k := by
      obtain ⟨w, hw⟩ := hasKey_holds hk
      exact holds_hasKey ((r4 _ _).mpr hw)
    obtain ⟨s, nd, h1, h2, h3⟩ := hk0
    have e1 := insert_core_after_rehash (CAPACITIES_SIZE + 1) hgrow r1 r5 (k, v)
    have e2 := insert_core_present r2 r5 h1 h2 (k, v) h3.symm 0
    unfold insert at h
    rw [e1, e2] at h
    cases h
    rfl

/-- C15, amended, at the full map `map_full` and the stored key `1`. -/
theorem duplicate_insert_frame_witness :
    Reachable identity_hasher map_full ∧ HasKey map_full.table_ 1 ∧
    insert identity_hasher map_full (1, 99) = .ok (map_rehashed, 1) ∧
    ((10 * map_full.size < 9 * map_full.capacity_ → map_rehashed = map_full) ∧
    (9 * map_full.capacity_ ≤ 10 * map_full.size →
      rehash identity_hasher map_full = .ok map_rehashed) ∧
    map_rehashed.size = map_full.size ∧
    ∀ k1 v1, Holds map_rehashed.table_ k1 v1 ↔ Holds map_full.table_ k1 v1) :=
  ⟨reachable_map_full, by rw [hasKey_iff_any]; decide, rfl,
    duplicate_insert_frame identity_hasher map_full map_rehashed 1 99 1 reachable_map_full
      (by rw [hasKey_iff_any]; decide) rfl⟩

/-- C16: in every reachable map the capacity is `0` or an entry of the capacity sequence
and the array has exactly `capacity_` slots; a map of capacity `0` has no slot and no
element; after `insert` has returned the capacity is an entry of the sequence; `erase`
returns a map of the same capacity. -/
theorem capacity_in_sequence (hasher_ : K → Nat) (m : HashMap K V)
    (hR : Reachable hasher_ m) :
    (m.capacity_ = 0 ∨ m.capacity_ ∈ SIMPLE_CAPACITIES) ∧
    m.table_.length = m.capacity_ ∧
    (m.capacity_ = 0 → m.table_ = [] ∧ m.size = 0) ∧
    (∀ (el : K × V) (m1 : HashMap K V) (idx : Nat), insert hasher_ m el = .ok (m1, idx) →
      m1.capacity_ ∈ SIMPLE_CAPACITIES) ∧
    (∀ (k : K) (m1 : HashMap K V), erase hasher_ m k = .ok m1 →
      m1.capacity_ = m.capacity_) := by
  have I := hR.inv
  have hmem : ∀ m2 : HashMap K V, Inv hasher_ m2 →
      (m2.capacity_ = 0 ∨ m2.capacity_ ∈ SIMPLE_CAPACITIES) := by
    intro m2 I2
    rcases I2.cap_ok with h | h
    · exact Or.inl h
    · exact Or.inr (List.mem_iff_getElem?.mpr ⟨_, h⟩)
  refine ⟨hmem m I, I.tbl.len, ?_, ?_, ?_⟩
  · intro h0
    have hlen := I.tbl.len
    rw [h0] at hlen
    have hnil := List.length_eq_zero.mp hlen
    refine ⟨hnil, ?_⟩
    unfold HashMap.size
    rw [I.size_eq, hnil]
    rfl
  · intro el m1 idx h
    have P := (insert_post I h).2
    obtain ⟨nd, s1, _, _⟩ := P.slot
    have h1 := getElem?_lt s1
    have h2 := P.inv.tbl.len
    rcases hmem m1 P.inv with h0 | h0
    · omega
    · exact h0
  · intro k m1 h
    obtain ⟨m2, r1, _, r3, _⟩ := erase_spec I k
    rw [r1] at h
    cases h
    exact r3

/-- C16 at the map `map_full`. -/
theorem capacity_in_sequence_witness :
    Reachable identity_hasher map_full ∧
    ((map_full.capacity_ = 0 ∨ map_full.capacity_ ∈ SIMPLE_CAPACITIES) ∧
    map_full.table_.length = map_full.capacity_ ∧
    (map_full.capacity_ = 0 → map_full.table_ = [] ∧ map_full.size = 0) ∧
    (∀ (el : Nat × Nat) (m1 : HashMap Nat Nat) (idx : Nat),
      insert identity_hasher map_full el = .ok (m1, idx) →
      m1.capacity_ ∈ SIMPLE_CAPACITIES) ∧
    (∀ (k : Nat) (m1 : HashMap Nat Nat), erase identity_hasher map_full k = .ok m1 →
      m1.capacity_ = map_full.capacity_)) :=
  ⟨reachable_map_full, capacity_in_sequence identity_hasher map_full reachable_map_full⟩

end

/-! ## The read-only `begin()`, frames and the ordering invariant (C17 to C20) -/

section

variable {K V : Type}

theorem reachable_map_collide : Reachable identity_hasher map_collide :=
  Reachable.insert
    (Reachable.insert Reachable.init
      (rfl : insert identity_hasher HashMap.init (7, 70)
        = .ok (⟨1, 2, [⟨(0, 0), 0, true⟩, ⟨(7, 70), 0, false⟩], 0⟩, 1)))
    (rfl : insert identity_hasher ⟨1, 2, [⟨(0, 0), 0, true⟩, ⟨(7, 70), 0, false⟩], 0⟩ (21, 210)
      = .ok (map_collide, 0))

end

section

variable {K V : Type} [DecidableEq K]

/-- On maps satisfying the invariants `at` depends only on the pairs held for the key. -/
theorem at_congr {hasher_ : K → Nat} {m1 m2 : HashMap K V} (I1 : Inv hasher_ m1)
    (I2 : Inv hasher_ m2) (k : K) (hh : ∀ v, Holds m1.table_ k v ↔ Holds m2.table_ k v) :
    at_ hasher_ m1 k = at_ hasher_ m2 k := by
  rcases at_spec I1 k with ⟨s, nd, f1, f2, f3, f4⟩ | ⟨f1, f2⟩
  · have h1 : Holds m1.table_ k nd.value.2 := ⟨s, nd, f2, f3, by rw [← f4]⟩
    have h2 := (hh _).mp h1
    rcases at_spec I2 k with ⟨s2, nd2, g1, g2, g3, g4⟩ | ⟨_, g2⟩
    · have h3 : Holds m2.table_ k nd2.value.2 := ⟨s2, nd2, g2, g3, by rw [← g4]⟩
      rw [f1, g1, I2.tbl.holds_unique h2 h3]
    · exact absurd (holds_hasKey h2) g2
  · rcases at_spec I2 k with ⟨s2, nd2, _, g2, g3, g4⟩ | ⟨g1, _⟩
    · have h3 : Holds m2.table_ k nd2.value.2 := ⟨s2, nd2, g2, g3, by rw [← g4]⟩
      exact absurd (holds_hasKey ((hh _).mpr h3)) f2
    · rw [f1, g1]

/-- On a map satisfying the invariants `find` returns `end()` exactly for the keys that no
occupied slot holds. -/
theorem find_end_iff {hasher_ : K → Nat} {m : HashMap K V} (I : Inv hasher_ m) (k : K) :
    find hasher_ m k = .ok m.end_ ↔ ¬ HasKey m.table_ k := by
  rcases find_spec I k with ⟨s, nd, f1, f2, f3, f4, f5⟩ | ⟨f1, f2⟩
  · constructor
    · intro h
      rw [f1] at h
      cases h
      exact absurd rfl f2
    · intro h
      exact absurd ⟨s, nd, f3, f4, f5⟩ h
  · exact ⟨fun _ => f2, fun _ => f1⟩

/-- Two maps satisfying the invariants that hold the same pairs for a key answer `at` and
`find` for that key alike. -/
theorem lookup_congr {hasher_ : K → Nat} {m1 m2 : HashMap K V} (I1 : Inv hasher_ m1)
    (I2 : Inv hasher_ m2) (k : K) (hh : ∀ v, Holds m1.table_ k v ↔ Holds m2.table_ k v) :
    at_ hasher_ m1 k = at_ hasher_ m2 k ∧
    (find hasher_ m1 k = .ok m1.end_ ↔ find hasher_ m2 k = .ok m2.end_) := by
  refine ⟨at_congr I1 I2 k hh, ?_⟩
  rw [find_end_iff I1, find_end_iff I2, hasKey_iff_holds, hasKey_iff_holds]
  exact not_congr (exists_congr hh)

theorem pred_mod_succ {cap i : Nat} (hi : i < cap) :
    (i + cap - 1) % cap < cap ∧ ((i + cap - 1) % cap + 1) % cap = i := by
  have hc : 0 < cap := by omega
  refine ⟨Nat.mod_lt _ hc, ?_⟩
  by_cases h0 : i = 0
  · subst h0
    have e : (0 + cap - 1) % cap = cap - 1 := by
      rw [Nat.zero_add]
      exact mod_small (by omega)
    rw [e, show cap - 1 + 1 = cap by omega, Nat.mod_self]
  · have e : (i + cap - 1) % cap = i - 1 := by
      rw [show i + cap - 1 = (i - 1) + cap by omega, Nat.add_mod_right]
      exact mod_small (by omega)
    rw [e, show i - 1 + 1 = i by omega, mod_small hi]

end

section

variable {K V : Type}

/-- C17: on a freshly constructed map, and on every map just cleared, the read-only
`begin()` reads the first slot of an array of length 0, where the mutable `begin()` returns
`end()` because it tests `size_` first. -/
theorem begin_const_reads_empty_array (m : HashMap K V) :
    (HashMap.init : HashMap K V).begin_const = .error .undefined_behaviour ∧
    (clear m).begin_const = .error .undefined_behaviour ∧
    (HashMap.init : HashMap K V).begin_ = .ok (HashMap.init : HashMap K V).end_ ∧
    (clear m).begin_ = .ok (clear m).end_ :=
  ⟨rfl, rfl, rfl, rfl⟩

/-- On a map whose array has a slot and whose `size_` counts the occupied slots the
read-only `begin()` returns what the mutable `begin()` returns. -/
theorem begin_const_eq {m : HashMap K V} (hsize : m.size_ = occupied m.table_)
    (hlen : 0 < m.table_.length) : m.begin_const = m.begin_ := by
  unfold HashMap.begin_const HashMap.begin_
  by_cases h0 : m.size_ = 0
  · rw [if_pos h0]
    obtain ⟨nd, hnd⟩ := getElem?_some_of_lt hlen
    have hall : ∀ (i : Nat) (x : Node K V), m.table_[i]? = some x → x.empty = true := by
      intro i x hx
      cases hb : x.empty
      · have := occupied_pos_of_slot hx hb
        omega
      · rfl
    rw [hnd]
    simp only []
    rw [if_pos (hall 0 nd hnd)]
    obtain ⟨_, _, r3, r4⟩ := skip_empty_spec m.table_ m.table_.length (0 + 1) (by omega)
      (by omega)
    have hend : skip_empty m.table_ m.table_.length (0 + 1) = m.table_.length := by
      by_cases hlt : skip_empty m.table_ m.table_.length (0 + 1) < m.table_.length
      · obtain ⟨x, hx⟩ := getElem?_some_of_lt hlt
        have := r4 x hx
        rw [hall _ x hx] at this
        cases this
      · omega
    unfold find_next_element
    rw [if_pos hlen]
    simp only []
    rw [hend]
    rfl
  · rw [if_neg h0]

end

section

variable {K V : Type} [DecidableEq K] [Inhabited K] [Inhabited V]

/-- C18: on every reachable map `erase k` returns a map on which the lookup of every other
key `k1` gives what it gave before: `at k1` returns the same value or throws as before,
`find k1` is `end()` exactly when it was before, and the pairs held for `k1` are the same. -/
theorem erase_keeps_other_keys (hasher_ : K → Nat) (m : HashMap K V) (k k1 : K)
    (hR : Reachable hasher_ m) (hne : k1 ≠ k) :
    ∃ m1 : HashMap K V, erase hasher_ m k = .ok m1 ∧
      at_ hasher_ m1 k1 = at_ hasher_ m k1 ∧
      (find hasher_ m1 k1 = .ok m1.end_ ↔ find hasher_ m k1 = .ok m.end_) ∧
      ∀ v, Holds m1.table_ k1 v ↔ Holds m.table_ k1 v := by
  obtain ⟨m1, r1, r2, _, _, _, _, r7⟩ := erase_spec hR.inv k
  have hh : ∀ v, Holds m1.table_ k1 v ↔ Holds m.table_ k1 v := by
    intro v
    rw [r7]
    exact ⟨fun h => h.1, fun h => ⟨h, hne⟩⟩
  obtain ⟨a, b⟩ := lookup_congr r2 hR.inv k1 hh
  exact ⟨m1, r1, a, b, hh⟩

/-- C18 at the map `map_three`: erasing the key `1` keeps the key `2`. -/
theorem erase_keeps_other_keys_witness :
    Reachable identity_hasher map_three ∧ (2 : Nat) ≠ 1 ∧
    ∃ m1 : HashMap Nat Nat, erase identity_hasher map_three 1 = .ok m1 ∧
      at_ identity_hasher m1 2 = at_ identity_hasher map_three 2 ∧
      (find identity_hasher m1 2 = .ok m1.end_ ↔
        find identity_hasher map_three 2 = .ok map_three.end_) ∧
      ∀ v, Holds m1.table_ 2 v ↔ Holds map_three.table_ 2 v :=
  ⟨reachable_map_three, by decide,
    erase_keeps_other_keys identity_hasher map_three 1 2 reachable_map_three (by decide)⟩

/-- C19: on every reachable map, once `insert` of `(k, v)` has returned, with or without
displacements and with or without a `rehash`, the lookup of every other key `k1` gives what
it gave before.  Every map `rehash` returns has the size and the pairs of the map before,
and is also what `rehash` returns when the `insert` it calls has no budget for a nested
`rehash`. -/
theorem insert_keeps_other_keys (hasher_ : K → Nat) (m m1 : HashMap K V) (k k1 : K) (v : V)
    (idx : Nat) (hR : Reachable hasher_ m) (hne : k1 ≠ k)
    (h : insert hasher_ m (k, v) = .ok (m1, idx)) :
    at_ hasher_ m1 k1 = at_ hasher_ m k1 ∧
    (find hasher_ m1 k1 = .ok m1.end_ ↔ find hasher_ m k1 = .ok m.end_) ∧
    (∀ w, Holds m1.table_ k1 w ↔ Holds m.table_ k1 w) ∧
    ∀ m2 : HashMap K V, rehash hasher_ m = .ok m2 →
      m2.size = m.size ∧ (∀ k2 w, Holds m2.table_ k2 w ↔ Holds m.table_ k2 w) ∧
      rehash_with (insert_core hasher_ 1) m = .ok m2 := by
  have I := hR.inv
  have P := (insert_post I h).2
  have hh : ∀ w, Holds m1.table_ k1 w ↔ Holds m.table_ k1 w := by
    intro w
    by_cases hk : HasKey m.table_ k
    · exact (P.old hk).2.1 k1 w
    · rw [(P.new hk).2.1 k1 w]
      constructor
      · rintro (h1 | h1)
        · exact h1
        · exact absurd (Prod.mk.inj h1).1 hne
      · exact Or.inl
  obtain ⟨a, b⟩ := lookup_congr P.inv I k1 hh
  refine ⟨a, b, hh, ?_⟩
  intro m2 h2
  by_cases hcap : (m.capacity_ + 1) * 2 ≤ 778221781
  · obtain ⟨m3, r1, _, r3, r4, _, _, r7⟩ := (rehash_result I).1 hcap
    rw [r1] at h2
    cases h2
    exact ⟨r3, r4, r7⟩
  · rw [(rehash_result I).2 (by omega)] at h2
    cases h2

/-- C19 at the full map `map_full`: `insert({3, 30})` starts with a `rehash` and keeps the
key `2`. -/
theorem insert_keeps_other_keys_witness :
    Reachable identity_hasher map_full ∧ (2 : Nat) ≠ 3 ∧
    insert identity_hasher map_full (3, 30) = .ok (map_three, 3) ∧
    (at_ identity_hasher map_three 2 = at_ identity_hasher map_full 2 ∧
    (find identity_hasher map_three 2 = .ok map_three.end_ ↔
      find identity_hasher map_full 2 = .ok map_full.end_) ∧
    (∀ w, Holds map_three.table_ 2 w ↔ Holds map_full.table_ 2 w) ∧
    ∀ m2 : HashMap Nat Nat, rehash identity_hasher map_full = .ok m2 →
      m2.size = map_full.size ∧
      (∀ k2 w, Holds m2.table_ k2 w ↔ Holds map_full.table_ k2 w) ∧
      rehash_with (insert_core identity_hasher 1) map_full = .ok m2) :=
  ⟨reachable_map_full, by decide, rfl,
    insert_keeps_other_keys identity_hasher map_full map_three 3 2 30 3 reachable_map_full
      (by decide) rfl⟩

/-- C20: in every reachable map, and in every map `rehash` returns on a reachable map, for
an occupied slot at index `i` with stored probe distance `d > 0` the slot
`(i + capacity - 1) mod capacity` is occupied with a stored probe distance of at least
`d - 1`. -/
theorem ordering_invariant (hasher_ : K → Nat) (m : HashMap K V) (hR : Reachable hasher_ m) :
    (∀ (i : Nat) (nd : Node K V), m.table_[i]? = some nd → nd.empty = false →
      0 < nd.probe_seq_length →
      ∃ pd : Node K V, m.table_[(i + m.capacity_ - 1) % m.capacity_]? = some pd ∧
        pd.empty = false ∧ nd.probe_seq_length - 1 ≤ pd.probe_seq_length) ∧
    ∀ m1 : HashMap K V, rehash hasher_ m = .ok m1 →
      ∀ (i : Nat) (nd : Node K V), m1.table_[i]? = some nd → nd.empty = false →
        0 < nd.probe_seq_length →
        ∃ pd : Node K V, m1.table_[(i + m1.capacity_ - 1) % m1.capacity_]? = some pd ∧
          pd.empty = false ∧ nd.probe_seq_length - 1 ≤ pd.probe_seq_length := by
  have key : ∀ m2 : HashMap K V, Inv hasher_ m2 →
      ∀ (i : Nat) (nd : Node K V), m2.table_[i]? = some nd → nd.empty = false →
        0 < nd.probe_seq_length →
        ∃ pd : Node K V, m2.table_[(i + m2.capacity_ - 1) % m2.capacity_]? = some pd ∧
          pd.empty = false ∧ nd.probe_seq_length - 1 ≤ pd.probe_seq_length := by
    intro m2 I2 i nd hnd he hp
    have hi : i < m2.capacity_ := by rw [← I2.tbl.len]; exact getElem?_lt hnd
    obtain ⟨h1, h2⟩ := pred_mod_succ hi
    obtain ⟨pd, p1, p2, p3⟩ := I2.tbl.ord _ nd h1 (by rw [h2]; exact hnd) he hp
    exact ⟨pd, p1, p2, by omega⟩
  have I := hR.inv
  refine ⟨key m I, ?_⟩
  intro m1 h
  by_cases hcap : (m.capacity_ + 1) * 2 ≤ 778221781
  · obtain ⟨m2, r1, r2, _⟩ := (rehash_result I).1 hcap
    rw [r1] at h
    cases h
    exact key _ r2
  · rw [(rehash_result I).2 (by omega)] at h
    cases h

/-- C20 at the map `map_collide`, where the key `21` sits one step after its home slot and
the slot before it holds the key `7`; in the map `rehash` returns on it the key `7` sits one
step after its home slot. -/
theorem ordering_invariant_witness :
    Reachable identity_hasher map_collide ∧
    (∃ (i : Nat) (nd : Node Nat Nat), map_collide.table_[i]? = some nd ∧ nd.empty = false ∧
      0 < nd.probe_seq_length) ∧
    rehash identity_hasher map_collide = .ok map_collide_rehashed ∧
    (∃ (i : Nat) (nd : Node Nat Nat), map_collide_rehashed.table_[i]? = some nd ∧
      nd.empty = false ∧ 0 < nd.probe_seq_length) ∧
    ((∀ (i : Nat) (nd : Node Nat Nat), map_collide.table_[i]? = some nd → nd.empty = false →
      0 < nd.probe_seq_length →
      ∃ pd : Node Nat Nat,
        map_collide.table_[(i + map_collide.capacity_ - 1) % map_collide.capacity_]?
          = some pd ∧
        pd.empty = false ∧ nd.probe_seq_length - 1 ≤ pd.probe_seq_length) ∧
    ∀ m1 : HashMap Nat Nat, rehash identity_hasher map_collide = .ok m1 →
      ∀ (i : Nat) (nd : Node Nat Nat), m1.table_[i]? = some nd → nd.empty = false →
        0 < nd.probe_seq_length →
        ∃ pd : Node Nat Nat, m1.table_[(i + m1.capacity_ - 1) % m1.capacity_]? = some pd ∧
          pd.empty = false ∧ nd.probe_seq_length - 1 ≤ pd.probe_seq_length) :=
  ⟨reachable_map_collide, ⟨0, ⟨(21, 210), 1, false⟩, rfl, rfl, by decide⟩, rfl,
    ⟨1, ⟨(7, 70), 1, false⟩, rfl, rfl, by decide⟩,
    ordering_invariant identity_hasher map_collide reachable_map_collide⟩

end

end RobinHood
